import Mathlib

/-!
# Metrics: reservoir sample and registry

A shallow embedding of `metrics/sample.go`, `metrics/registry.go` and
`metrics/multi_metric.go`.

* `int64` values are integers; arithmetic that can overflow is reduced with `wrap64`.
* `float64` values are rationals (arithmetic read exactly); `math.Sqrt` is a parameter. Where
  the rounding of the conversion `float64(v)` of a stored value matters, it is explicit
  (`toFloat64`, `SamplePercentilesWith`).
* A `[]int64` slice is the address of its backing array in a memory `Mem`; two slices
  alias exactly when they have the same address. The array holds exactly the elements of
  the slice: the reservoir is appended to only under the guard `len < reservoirSize`, within
  the capacity it was made with, so `append` writes in place.
* A `map[string]Metric` is an association list with distinct keys; the order of a
  `for … range` over it is selected by an explicit seed. The maps of a multi metric, which
  escape through `Metrics()` and `Tags()`, live in a memory `MapMem` by address.
* `rand.Int63n` takes the entropy it consumes as an explicit argument.
* The mutexes are not modelled: every method body is one atomic step.
-/

namespace Metrics

/-! ## Machine integers -/

/-- The least `int64`. -/
def MinInt64 : Int := -(2 ^ 63)

/-- The greatest `int64`. -/
def MaxInt64 : Int := 2 ^ 63 - 1

/-- Two's-complement reduction of an integer into the `int64` range. -/
def wrap64 (x : Int) : Int := (x + 2 ^ 63) % 2 ^ 64 - 2 ^ 63

/-! ## Memory of backing arrays -/

/-- Backing arrays of `[]int64` slices, by address; `next` is the first unused address. -/
structure Mem where
  next : Nat
  cell : Nat → List Int

namespace Mem

/-- The elements of the slice at address `p`. -/
def load (m : Mem) (p : Nat) : List Int := m.cell p

/-- Overwrite the backing array at address `p`. -/
def store (m : Mem) (p : Nat) (a : List Int) : Mem :=
  { m with cell := Function.update m.cell p a }

/-- The builtin `make([]int64, len, cap)`: a fresh zero-filled array at a fresh address. -/
def make (m : Mem) (len : Nat) : Nat × Mem :=
  (m.next, { next := m.next + 1, cell := Function.update m.cell m.next (List.replicate len 0) })

/-- The builtin `copy(dst, src)`: the first `min (len dst) (len src)` elements of `src`
overwrite those of `dst`. -/
def copy (m : Mem) (dst src : Nat) : Mem :=
  let d := m.load dst
  let s := m.load src
  m.store dst (s.take d.length ++ d.drop s.length)

/-- The empty memory. -/
def empty : Mem := { next := 0, cell := fun _ => [] }

end Mem

/-! ## Library functions -/

/-- The library function `rand.Int63n(n)`: panics when `n ≤ 0`, otherwise returns a value in
`[0, n)`; `src` is the entropy consumed, reduced into the range. -/
def Int63n (n : Int) (src : Nat) : Option Nat :=
  if n ≤ 0 then none else some (src % n.toNat)

/-- The library function `sort.Sort` on an `int64Slice` (`Less(i, j) = p[i] < p[j]`): the
ascending rearrangement of the elements. -/
def sortInt64 (values : List Int) : List Int := values.insertionSort (fun a b => a ≤ b)

/-- The conversion `int(x)` of a `float64`: truncation toward zero. -/
def truncToInt (x : ℚ) : Int := if 0 ≤ x then ⌊x⌋ else ⌈x⌉

/-- Slice indexing `values[i]`: panics when `i` is out of range. -/
def index (values : List Int) (i : Int) : Option Int :=
  if i < 0 then none else values.get? i.toNat

/-- The value of the conversion `float64(v)` of an `int64` as the language defines it: the
nearest integer with a 53-bit significand, ties to the even significand. With
`n = |v| ≤ 2^63` the exponent `e` makes `n / 2^e` a 53-bit significand, and `e = 0` (nothing
is rounded) when `n < 2^53`. -/
def roundFloat64 (v : Int) : Int :=
  let n := v.natAbs
  let e := (List.range 11).countP (fun i => decide (2 ^ (53 + i) ≤ n))
  let q := n / 2 ^ e
  let r := n % 2 ^ e
  let q1 := if 2 * r > 2 ^ e ∨ (2 * r = 2 ^ e ∧ q % 2 = 1) then q + 1 else q
  if v < 0 then -((q1 * 2 ^ e : Nat) : Int) else ((q1 * 2 ^ e : Nat) : Int)

/-- The conversion `float64(v)` of an `int64`, as a rational. -/
def toFloat64 (v : Int) : ℚ := ((roundFloat64 v : Int) : ℚ)

/-! ## Statistics (`SampleMax` … `SampleVariance`) -/

/-- SampleSum returns the sum of the slice of int64. -/
def SampleSum (values : List Int) : Int :=
  values.foldl (fun sum v => wrap64 (sum + v)) 0

/-- SampleMax returns the maximum value of the slice of int64. -/
def SampleMax (values : List Int) : Int :=
  if 0 = values.length then 0
  else values.foldl (fun max v => if max < v then v else max) MinInt64

/-- SampleMin returns the minimum value of the slice of int64. -/
def SampleMin (values : List Int) : Int :=
  if 0 = values.length then 0
  else values.foldl (fun min v => if min > v then v else min) MaxInt64

/-- SampleMean returns the mean value of the slice of int64. -/
def SampleMean (values : List Int) : ℚ :=
  if 0 = values.length then 0
  else (SampleSum values : ℚ) / (values.length : ℚ)

/-- SampleVariance returns the variance of the slice of int64. -/
def SampleVariance (values : List Int) : ℚ :=
  if 0 = values.length then 0
  else
    let m := SampleMean values
    values.foldl (fun sum v => sum + ((v : ℚ) - m) * ((v : ℚ) - m)) 0 / (values.length : ℚ)

/-- SampleStdDev returns the standard deviation of the slice of int64. -/
def SampleStdDev (sqrt : ℚ → ℚ) (values : List Int) : ℚ :=
  sqrt (SampleVariance values)

/-- One iteration of the loop of `SamplePercentiles`: the score for `p` over the sorted
`values` of length `size`, the arithmetic read exactly (`float64(values[i])` is the integer
itself; `percentileScoreWith` has the conversion explicit). -/
def percentileScore (values : List Int) (size : Nat) (p : ℚ) : Option ℚ :=
  let pos := p * ((size + 1 : Nat) : ℚ)
  if pos < 1 then
    (index values 0).map (fun v => (v : ℚ))
  else if pos ≥ (size : ℚ) then
    (index values ((size : Int) - 1)).map (fun v => (v : ℚ))
  else
    match index values (truncToInt pos - 1), index values (truncToInt pos) with
    | some lower, some upper =>
      some ((lower : ℚ) + (pos - (⌊pos⌋ : ℚ)) * ((upper : ℚ) - (lower : ℚ)))
    | _, _ => none

/-- The loop `for i, p := range ps` of `SamplePercentiles`: the scores in order; `none`
is a panic. -/
def percentileScores (values : List Int) (size : Nat) : List ℚ → Option (List ℚ)
  | [] => some []
  | p :: ps =>
    match percentileScore values size p with
    | none => none
    | some score => (percentileScores values size ps).map (fun scores => score :: scores)

/-- SamplePercentiles returns a slice of arbitrary percentiles of the slice of int64.
The slice argument shares its backing array with the caller's slice, and `sort.Sort`
sorts it in place; `none` is a panic. -/
def SamplePercentiles (values : Nat) (ps : List ℚ) (m : Mem) : Option (List ℚ × Mem) :=
  let size := (m.load values).length
  if size > 0 then
    let m1 := m.store values (sortInt64 (m.load values))
    (percentileScores (m1.load values) size ps).map (fun scores => (scores, m1))
  else
    some (List.replicate ps.length 0, m)

/-- SamplePercentile returns an arbitrary percentile of the slice of int64. -/
def SamplePercentile (values : Nat) (p : ℚ) (m : Mem) : Option (ℚ × Mem) :=
  match SamplePercentiles values [p] m with
  | some (scores, m1) => (scores.get? 0).map (fun x => (x, m1))
  | none => none

/-- One iteration of the loop of `SamplePercentiles` with the conversion `float64(values[i])`
explicit: `conv` is what the conversion yields (`toFloat64` in the language, the exact
integer in `percentileScore`); the rest of the arithmetic is read exactly. -/
def percentileScoreWith (conv : Int → ℚ) (values : List Int) (size : Nat) (p : ℚ) : Option ℚ :=
  let pos := p * ((size + 1 : Nat) : ℚ)
  if pos < 1 then
    (index values 0).map conv
  else if pos ≥ (size : ℚ) then
    (index values ((size : Int) - 1)).map conv
  else
    match index values (truncToInt pos - 1), index values (truncToInt pos) with
    | some lower, some upper =>
      some (conv lower + (pos - (⌊pos⌋ : ℚ)) * (conv upper - conv lower))
    | _, _ => none

/-- The loop of `SamplePercentiles` with the conversion explicit. -/
def percentileScoresWith (conv : Int → ℚ) (values : List Int) (size : Nat) :
    List ℚ → Option (List ℚ)
  | [] => some []
  | p :: ps =>
    match percentileScoreWith conv values size p with
    | none => none
    | some score => (percentileScoresWith conv values size ps).map (fun scores => score :: scores)

/-- `SamplePercentiles` with the conversion `float64(values[i])` explicit; with the exact
conversion it is `SamplePercentiles`. -/
def SamplePercentilesWith (conv : Int → ℚ) (values : Nat) (ps : List ℚ) (m : Mem) :
    Option (List ℚ × Mem) :=
  let size := (m.load values).length
  if size > 0 then
    let m1 := m.store values (sortInt64 (m.load values))
    (percentileScoresWith conv (m1.load values) size ps).map (fun scores => (scores, m1))
  else
    some (List.replicate ps.length 0, m)

/-! ## SampleSnapshot -/

/-- SampleSnapshot is a read-only copy of another Sample. -/
structure SampleSnapshot where
  count : Int
  values : Nat
deriving DecidableEq, Repr

namespace SampleSnapshot

/-- Clear panics. -/
def Clear (_s : SampleSnapshot) (_m : Mem) : Option (SampleSnapshot × Mem) := none

/-- Count returns the count of inputs at the time the snapshot was taken. -/
def Count (s : SampleSnapshot) : Int := s.count

/-- Max returns the maximal value at the time the snapshot was taken. -/
def Max (s : SampleSnapshot) (m : Mem) : Int := SampleMax (m.load s.values)

/-- Mean returns the mean value at the time the snapshot was taken. -/
def Mean (s : SampleSnapshot) (m : Mem) : ℚ := SampleMean (m.load s.values)

/-- Min returns the minimal value at the time the snapshot was taken. -/
def Min (s : SampleSnapshot) (m : Mem) : Int := SampleMin (m.load s.values)

/-- Percentile returns an arbitrary percentile of values at the time the snapshot was taken. -/
def Percentile (s : SampleSnapshot) (p : ℚ) (m : Mem) : Option (ℚ × Mem) :=
  SamplePercentile s.values p m

/-- Percentiles returns a slice of arbitrary percentiles of values at the time the snapshot
was taken. -/
def Percentiles (s : SampleSnapshot) (ps : List ℚ) (m : Mem) : Option (List ℚ × Mem) :=
  SamplePercentiles s.values ps m

/-- Size returns the size of the sample at the time the snapshot was taken. -/
def Size (s : SampleSnapshot) (m : Mem) : Nat := (m.load s.values).length

/-- Snapshot returns the snapshot. -/
def Snapshot (s : SampleSnapshot) : SampleSnapshot := s

/-- StdDev returns the standard deviation of values at the time the snapshot was taken. -/
def StdDev (sqrt : ℚ → ℚ) (s : SampleSnapshot) (m : Mem) : ℚ := SampleStdDev sqrt (m.load s.values)

/-- Sum returns the sum of values at the time the snapshot was taken. -/
def Sum (s : SampleSnapshot) (m : Mem) : Int := SampleSum (m.load s.values)

/-- Update panics. -/
def Update (_s : SampleSnapshot) (_v : Int) (_m : Mem) : Option (SampleSnapshot × Mem) := none

/-- Values returns a copy of the values in the sample: the address of the copy and the
memory holding it. -/
def Values (s : SampleSnapshot) (m : Mem) : Nat × Mem :=
  let (values, m1) := m.make (m.load s.values).length
  (values, m1.copy values s.values)

/-- Variance returns the variance of values at the time the snapshot was taken. -/
def Variance (s : SampleSnapshot) (m : Mem) : ℚ := SampleVariance (m.load s.values)

end SampleSnapshot

/-! ## UniformSample -/

/-- A UniformSample using Vitter's Algorithm R. -/
structure UniformSample where
  count : Int
  reservoirSize : Int
  values : Nat
deriving DecidableEq, Repr

/-- The implementations of the `Sample` interface. -/
inductive Sample where
  | nilSample
  | snapshot (s : SampleSnapshot)
  | uniform (s : UniformSample)
deriving DecidableEq, Repr

/-- NewUniformSample constructs a new uniform sample with the given reservoir size.
`UseNilMetrics` is the package-level switch; `make` panics on a negative capacity. -/
def NewUniformSample (UseNilMetrics : Bool) (reservoirSize : Int) (m : Mem) :
    Option (Sample × Mem) :=
  if UseNilMetrics then some (Sample.nilSample, m)
  else if reservoirSize < 0 then none
  else
    let (values, m1) := m.make 0
    some (Sample.uniform { count := 0, reservoirSize := reservoirSize, values := values }, m1)

namespace UniformSample

/-- Clear clears all samples. -/
def Clear (s : UniformSample) (m : Mem) : Option (UniformSample × Mem) :=
  if s.reservoirSize < 0 then none
  else
    let (values, m1) := m.make 0
    some ({ s with count := 0, values := values }, m1)

/-- Count returns the number of samples recorded, which may exceed the reservoir size. -/
def Count (s : UniformSample) : Int := s.count

/-- Max returns the maximum value in the sample. -/
def Max (s : UniformSample) (m : Mem) : Int := SampleMax (m.load s.values)

/-- Mean returns the mean of the values in the sample. -/
def Mean (s : UniformSample) (m : Mem) : ℚ := SampleMean (m.load s.values)

/-- Min returns the minimum value in the sample. -/
def Min (s : UniformSample) (m : Mem) : Int := SampleMin (m.load s.values)

/-- Percentile returns an arbitrary percentile of values in the sample. -/
def Percentile (s : UniformSample) (p : ℚ) (m : Mem) : Option (ℚ × Mem) :=
  SamplePercentile s.values p m

/-- Percentiles returns a slice of arbitrary percentiles of values in the sample. -/
def Percentiles (s : UniformSample) (ps : List ℚ) (m : Mem) : Option (List ℚ × Mem) :=
  SamplePercentiles s.values ps m

/-- Size returns the size of the sample, which is at most the reservoir size. -/
def Size (s : UniformSample) (m : Mem) : Nat := (m.load s.values).length

/-- Snapshot returns a read-only copy of the sample. -/
def Snapshot (s : UniformSample) (m : Mem) : SampleSnapshot × Mem :=
  let (values, m1) := m.make (m.load s.values).length
  ({ count := s.count, values := values }, m1.copy values s.values)

/-- StdDev returns the standard deviation of the values in the sample. -/
def StdDev (sqrt : ℚ → ℚ) (s : UniformSample) (m : Mem) : ℚ := SampleStdDev sqrt (m.load s.values)

/-- Sum returns the sum of the values in the sample. -/
def Sum (s : UniformSample) (m : Mem) : Int := SampleSum (m.load s.values)

/-- Update samples a new value; `src` is the entropy for the draw, `none` is a panic. -/
def Update (s : UniformSample) (v : Int) (src : Nat) (m : Mem) : Option (UniformSample × Mem) :=
  let s1 := { s with count := wrap64 (s.count + 1) }
  if ((m.load s1.values).length : Int) < s1.reservoirSize then
    some (s1, m.store s1.values (m.load s1.values ++ [v]))
  else
    match Int63n s1.count src with
    | none => none
    | some r =>
      if (r : Int) < ((m.load s1.values).length : Int) then
        some (s1, m.store s1.values ((m.load s1.values).set r v))
      else
        some (s1, m)

/-- Values returns a copy of the values in the sample: the address of the copy and the
memory holding it. -/
def Values (s : UniformSample) (m : Mem) : Nat × Mem :=
  let (values, m1) := m.make (m.load s.values).length
  (values, m1.copy values s.values)

/-- Variance returns the variance of the values in the sample. -/
def Variance (s : UniformSample) (m : Mem) : ℚ := SampleVariance (m.load s.values)

/-- A run of successive `Update` calls, one per `(value, entropy)` pair of the stream. -/
def UpdateAll (s : UniformSample) (m : Mem) : List (Int × Nat) → Option (UniformSample × Mem)
  | [] => some (s, m)
  | (v, src) :: rest =>
    match s.Update v src m with
    | none => none
    | some (s1, m1) => UpdateAll s1 m1 rest

end UniformSample

/-! ## Registry (`registry.go`) -/

/-- StandardMultiMetric is the standard implementation of a MultiMetric: the addresses of its
`metrics` and `tags` maps. -/
structure StandardMultiMetric where
  metrics : Nat
  tags : Nat
deriving DecidableEq, Repr

/-- The implementations of the `MultiMetric` interface: `NilMultiMetric{}`, a
`*StandardMultiMetric`, and a `*MultiMetricSnapshot` (given by its field `m`). -/
inductive MultiMetric where
  | nilMultiMetric
  | standard (mm : StandardMultiMetric)
  | snapshot (m : MultiMetric)
deriving DecidableEq, Repr

/-- MultiMetricSnapshot is a read-only copy of another MultiMetric. -/
structure MultiMetricSnapshot where
  m : MultiMetric
deriving DecidableEq, Repr

/-- A value of the interface type `Metric` as the registry sees it: the nil interface, a
metric instance (identified by its reference), a function value of `reflect.Func` kind
(identified by `id`, with its numbers of parameters and results), or a multi metric. -/
inductive Metric where
  | nil
  | ref (id : Nat)
  | func (id : Nat) (numIn numOut : Nat)
  | multi (c : MultiMetric)
deriving DecidableEq, Repr

/-- DuplicateMetric is the error returned by Registry.Register when a metric already exists. -/
abbrev DuplicateMetric := String

/-- The error text of a `DuplicateMetric`. -/
def DuplicateMetric.Error (err : DuplicateMetric) : String := "duplicate metric: " ++ err

/-- The Go type `map[string]Metric`: finitely many entries with distinct names. The order of
the entries carries no meaning. -/
abbrev MetricMap := AList (fun _ : String => Metric)

/-- The order in which a `for … range` statement visits the entries of a map: unspecified,
here the permutation of the entries selected by `seed`. -/
def rangeOrder {α : Type} (seed : Nat) (entries : List α) : List α :=
  (List.permutations' entries).getD (seed % (List.permutations' entries).length) entries

/-- StandardRegistry is the standard implementation of a Registry: a map of names to
metrics. -/
structure StandardRegistry where
  metrics : MetricMap
deriving DecidableEq

/-- NewRegistry creates a new registry. -/
def NewRegistry : StandardRegistry := { metrics := ∅ }

namespace StandardRegistry

/-- The unexported `registered`: a copy of the map, filled entry by entry in range order. -/
def registered (r : StandardRegistry) (seed : Nat) : MetricMap :=
  (rangeOrder seed r.metrics.entries).foldl (fun metrics e => metrics.insert e.1 e.2) ∅

/-- Each calls the given function for each registered metric. The callback acts on the
program state `σ`, in which `reg` locates this registry, so it may itself call the registry;
`seed1` and `seed2` select the two range orders. -/
def Each {σ : Type} (reg : σ → StandardRegistry) (fn : String → Metric → σ → σ)
    (seed1 seed2 : Nat) (w : σ) : σ :=
  (rangeOrder seed2 ((reg w).registered seed1).entries).foldl (fun w e => fn e.1 e.2 w) w

/-- Get the metric by the given name or nil if none is registered. -/
def Get (r : StandardRegistry) (name : String) : Metric :=
  (r.metrics.lookup name).getD Metric.nil

/-- The unexported `register`: the error (if any) and the registry afterwards. -/
def register (r : StandardRegistry) (name : String) (m : Metric) :
    Option DuplicateMetric × StandardRegistry :=
  match r.metrics.lookup name with
  | some _ => (some name, r)
  | none => (none, { metrics := r.metrics.insert name m })

/-- GetOrRegister gets an existing metric or creates and registers a new one. `call id log`
is what the function value `id` returns when invoked after the invocations `log`; the result
is the metric returned, the registry and the invocation log afterwards; `none` is a panic of
`reflect.Value.Call` or of the indexing of its results. -/
def GetOrRegister (call : Nat → List Nat → Metric) (r : StandardRegistry) (log : List Nat)
    (name : String) (m : Metric) : Option (Metric × StandardRegistry × List Nat) :=
  match r.metrics.lookup name with
  | some metric => some (metric, r, log)
  | none =>
    match m with
    | Metric.func id numIn numOut =>
      if numIn ≠ 0 ∨ numOut = 0 then none
      else some (call id log, (r.register name (call id log)).2, log ++ [id])
    | _ => some (m, (r.register name m).2, log)

/-- Register the given metric under the given name. Returns a DuplicateMetric if a metric by
the given name is already registered. -/
def Register (r : StandardRegistry) (name : String) (m : Metric) :
    Option DuplicateMetric × StandardRegistry :=
  r.register name m

/-- Unregister the metric with the given name. -/
def Unregister (r : StandardRegistry) (name : String) : StandardRegistry :=
  { metrics := r.metrics.erase name }

/-- UnregisterAll unregisters all metrics: a range over the map that deletes each name it
visits, in the range order selected by `seed`. -/
def UnregisterAll (r : StandardRegistry) (seed : Nat) : StandardRegistry :=
  { metrics := (rangeOrder seed r.metrics.keys).foldl (fun metrics name => metrics.erase name)
      r.metrics }

end StandardRegistry

/-! ## Multi metric (`multi_metric.go`) -/

/-- The Go type `map[string]string`. -/
abbrev TagMap := AList (fun _ : String => String)

/-- Memory of the map objects of multi metrics, by address; `next` is the first unused
address. -/
structure MapMem where
  next : Nat
  metrics : Nat → MetricMap
  tags : Nat → TagMap

namespace MapMem

/-- The builtin `make(map[string]Metric)`: a fresh empty map at a fresh address. -/
def makeMetrics (h : MapMem) : Nat × MapMem :=
  (h.next, { h with next := h.next + 1, metrics := Function.update h.metrics h.next ∅ })

/-- The builtin `make(map[string]string)`: a fresh empty map at a fresh address. -/
def makeTags (h : MapMem) : Nat × MapMem :=
  (h.next, { h with next := h.next + 1, tags := Function.update h.tags h.next ∅ })

/-- The assignment `metrics[name] = m` on the map at address `a`. -/
def setMetric (h : MapMem) (a : Nat) (name : String) (m : Metric) : MapMem :=
  { h with metrics := Function.update h.metrics a ((h.metrics a).insert name m) }

/-- The assignment `tags[k] = v` on the map at address `a`. -/
def setTag (h : MapMem) (a : Nat) (k v : String) : MapMem :=
  { h with tags := Function.update h.tags a ((h.tags a).insert k v) }

/-- The memory without any map. -/
def empty : MapMem := { next := 0, metrics := fun _ => ∅, tags := fun _ => ∅ }

end MapMem

/-- The interfaces named by the cases of the type switch in `StandardMultiMetric.Snapshot`;
their declarations are not part of the sources at hand. -/
inductive MetricKind where
  | counter
  | gauge
  | gaugeFloat64
  | histogram
deriving DecidableEq, Repr

/-- The case taken by the type switch `switch metric := v.(type)` of `Snapshot`: the first of
`Counter`, `Gauge`, `GaugeFloat64`, `Histogram` that the dynamic type of `v` implements
(`implements`, a parameter), none for the nil interface or a value of no such kind. -/
def switchCase (implements : Metric → MetricKind → Bool) (v : Metric) : Option MetricKind :=
  if v = Metric.nil then none
  else if implements v MetricKind.counter then some MetricKind.counter
  else if implements v MetricKind.gauge then some MetricKind.gauge
  else if implements v MetricKind.gaugeFloat64 then some MetricKind.gaugeFloat64
  else if implements v MetricKind.histogram then some MetricKind.histogram
  else none

/-- NewMultiMetric constructs a new StandardMultiMetric; `tags` is the address of the
caller's tag map. -/
def NewMultiMetric (UseNilMetrics : Bool) (tags : Nat) (h : MapMem) : MultiMetric × MapMem :=
  if UseNilMetrics then (MultiMetric.nilMultiMetric, h)
  else
    let (metrics, h1) := h.makeMetrics
    (MultiMetric.standard { metrics := metrics, tags := tags }, h1)

/-- NewRegisteredMultiMetric constructs and registers a new StandardMultiMetric. The registry
argument `r` is `none` for a nil `Registry`; the result is the multi metric returned, the
argument registry and the default registry afterwards, and the memory. -/
def NewRegisteredMultiMetric (UseNilMetrics : Bool) (name : String) (tags : Nat)
    (r : Option StandardRegistry) (DefaultRegistry : StandardRegistry) (h : MapMem) :
    MultiMetric × Option StandardRegistry × StandardRegistry × MapMem :=
  let (c, h1) := NewMultiMetric UseNilMetrics tags h
  match r with
  | none => (c, none, (DefaultRegistry.Register name (Metric.multi c)).2, h1)
  | some r1 => (c, some (r1.Register name (Metric.multi c)).2, DefaultRegistry, h1)

namespace StandardMultiMetric

/-- GetOrAdd gets an existing metric or adds a new one to multi metric; `call` and `log` are
as in `StandardRegistry.GetOrRegister`, `none` is a panic. -/
def GetOrAdd (call : Nat → List Nat → Metric) (mm : StandardMultiMetric) (log : List Nat)
    (name : String) (m : Metric) (h : MapMem) : Option (Metric × MapMem × List Nat) :=
  match (h.metrics mm.metrics).lookup name with
  | some metric => some (metric, h, log)
  | none =>
    match m with
    | Metric.func id numIn numOut =>
      if numIn ≠ 0 ∨ numOut = 0 then none
      else some (call id log, h.setMetric mm.metrics name (call id log), log ++ [id])
    | _ => some (m, h.setMetric mm.metrics name m, log)

/-- Metrics returns all the metrics in the multi metric as a map: the live map itself. -/
def Metrics (mm : StandardMultiMetric) : Nat := mm.metrics

/-- The body of the first loop of `Snapshot` for one entry `k, v` of the live map: the new
map at address `metrics` receives `metric.Snapshot()` (`snap`, a parameter: what the
`Snapshot()` method of that interface returns for `v` at this moment) when `v` is of a known
kind. -/
def snapshotEntry (implements : Metric → MetricKind → Bool)
    (snap : MetricKind → Metric → Metric) (metrics : Nat) (h : MapMem)
    (e : Sigma (fun _ : String => Metric)) : MapMem :=
  match switchCase implements e.2 with
  | some kind => h.setMetric metrics e.1 (snap kind e.2)
  | none => h

/-- Snapshot returns a read-only copy of the multi metric; `seed1` and `seed2` select the
range orders of its two loops. -/
def Snapshot (implements : Metric → MetricKind → Bool) (snap : MetricKind → Metric → Metric)
    (seed1 seed2 : Nat) (mm : StandardMultiMetric) (h : MapMem) : MultiMetric × MapMem :=
  let (metrics, h1) := h.makeMetrics
  let h2 := (rangeOrder seed1 (h1.metrics mm.metrics).entries).foldl
    (snapshotEntry implements snap metrics) h1
  let (tags, h3) := h2.makeTags
  let h4 := (rangeOrder seed2 (h3.tags mm.tags).entries).foldl
    (fun h e => h.setTag tags e.1 e.2) h3
  (MultiMetric.snapshot (MultiMetric.standard { metrics := metrics, tags := tags }), h4)

/-- Tags returns tag map for the multi metric: the live map itself. -/
def Tags (mm : StandardMultiMetric) : Nat := mm.tags

end StandardMultiMetric

namespace MultiMetric

/-- The method `Metrics()` through the interface: `NilMultiMetric` returns a new empty map,
a standard multi metric its live map, a snapshot the map of its field `m`. -/
def Metrics : MultiMetric → MapMem → Nat × MapMem
  | MultiMetric.nilMultiMetric, h => h.makeMetrics
  | MultiMetric.standard mm, h => (mm.Metrics, h)
  | MultiMetric.snapshot m, h => Metrics m h

/-- The method `Tags()` through the interface. -/
def Tags : MultiMetric → MapMem → Nat × MapMem
  | MultiMetric.nilMultiMetric, h => h.makeTags
  | MultiMetric.standard mm, h => (mm.Tags, h)
  | MultiMetric.snapshot m, h => Tags m h

end MultiMetric

namespace MultiMetricSnapshot

/-- GetOrAdd panics. -/
def GetOrAdd (_mm : MultiMetricSnapshot) (_name : String) (_m : Metric) (_h : MapMem) :
    Option (Metric × MapMem) := none

/-- Metrics returns all the metrics in the multi metric as a map. -/
def Metrics (mm : MultiMetricSnapshot) (h : MapMem) : Nat × MapMem := mm.m.Metrics h

/-- Snapshot returns the snapshot. -/
def Snapshot (mm : MultiMetricSnapshot) : MultiMetricSnapshot := mm

/-- Tags returns tag map for the multi metric. -/
def Tags (mm : MultiMetricSnapshot) (h : MapMem) : Nat × MapMem := mm.m.Tags h

end MultiMetricSnapshot

/-! ## Specification vocabulary

Runs of calls, observations and the rule of the specification, in which the theorems are
stated. -/

/-- State invariant of a sample that has seen `n` values with capacity `k`. -/
def UniformSample.Seen (k : Int) (n : Nat) (s : UniformSample) (m : Mem) : Prop :=
  s.count = n ∧ s.reservoirSize = k ∧ ((m.load s.values).length : Int) = min (n : Int) k

/-- The reservoir after a draw `r` for the new value `y`. -/
def replaceSlot (k : Nat) (vals : List Int) (y : Int) (r : Nat) : List Int :=
  if r < k then vals.set r y else vals

/-- The observations `1, …, k` that fill a reservoir of capacity `k`; no draw is made for
them (entropy 0). -/
def fillStream (k : Nat) : List (Int × Nat) := (List.range k).map (fun (i : Nat) => ((i : Int) + 1, 0))

/-- The observations `base + 1, base + 2, …`, each paired with its draw. -/
def drawStream (base : Nat) : List Nat → List (Int × Nat)
  | [] => []
  | r :: rs => ((base : Int) + 1, r) :: drawStream (base + 1) rs

/-- All draw sequences of the updates `k + 1, …, k + d`: the draw of update `i` ranges over
`[0, i)`. -/
def drawSeqs (k : Nat) : Nat → List (List Nat)
  | 0 => [[]]
  | d + 1 => (drawSeqs k d).flatMap (fun ds => (List.range (k + d + 1)).map (fun r => ds ++ [r]))

/-- The reservoir contents after a run of updates (empty if the run panics). -/
def finalValues (s : UniformSample) (m : Mem) (stream : List (Int × Nat)) : List Int :=
  match s.UpdateAll m stream with
  | some (s1, m1) => m1.load s1.values
  | none => []

/-- The percentile rule in the words of the specification, over the ascending values `s`:
with `pos = p * (size + 1)`, the minimum when `pos < 1`, the maximum when `pos ≥ size`, and
otherwise the linear interpolation between `s[⌊pos⌋ - 1]` and `s[⌊pos⌋]` by the fractional
part of `pos`. -/
def percentileRule (s : List Int) (p : ℚ) : ℚ :=
  let pos := p * ((s.length : ℚ) + 1)
  if pos < 1 then ((s.getD 0 0 : Int) : ℚ)
  else if (s.length : ℚ) ≤ pos then ((s.getD (s.length - 1) 0 : Int) : ℚ)
  else
    ((s.getD (⌊pos⌋ - 1).toNat 0 : Int) : ℚ)
      + (pos - (⌊pos⌋ : ℚ))
        * (((s.getD (⌊pos⌋).toNat 0 : Int) : ℚ) - ((s.getD (⌊pos⌋ - 1).toNat 0 : Int) : ℚ))

/-- The sequence returned by `Values()` on a live sample. -/
def UniformSample.valuesSeq (s : UniformSample) (m : Mem) : List Int :=
  (s.Values m).2.load (s.Values m).1

/-- The sequence returned by `Values()` on a snapshot. -/
def SampleSnapshot.valuesSeq (s : SampleSnapshot) (m : Mem) : List Int :=
  (s.Values m).2.load (s.Values m).1

/-- A mutating method call on a live sample. -/
inductive SampleOp where
  | update (v : Int) (src : Nat)
  | clear
deriving DecidableEq, Repr

/-- The effect of one mutating call. -/
def UniformSample.apply (s : UniformSample) (m : Mem) : SampleOp → Option (UniformSample × Mem)
  | SampleOp.update v src => s.Update v src m
  | SampleOp.clear => s.Clear m

/-- The effect of a sequence of mutating calls. -/
def UniformSample.applyAll (s : UniformSample) (m : Mem) :
    List SampleOp → Option (UniformSample × Mem)
  | [] => some (s, m)
  | op :: ops =>
    match s.apply m op with
    | none => none
    | some (s1, m1) => UniformSample.applyAll s1 m1 ops

/-- Successive `GetOrRegister` calls for one name, one per argument: the metrics returned,
in order, with the registry and the invocation log afterwards. -/
def StandardRegistry.GetOrRegisterAll (call : Nat → List Nat → Metric) (name : String) :
    StandardRegistry → List Nat → List Metric → Option (List Metric × StandardRegistry × List Nat)
  | r, log, [] => some ([], r, log)
  | r, log, m :: ms =>
    match r.GetOrRegister call log name m with
    | none => none
    | some (ret, r1, log1) =>
      match StandardRegistry.GetOrRegisterAll call name r1 log1 ms with
      | none => none
      | some (rets, r2, log2) => some (ret :: rets, r2, log2)

/-- A callback instrumented to record each of its invocations. -/
def recording {σ : Type} (fn : String → Metric → σ → σ) :
    String → Metric → σ × List (String × Metric) → σ × List (String × Metric) :=
  fun name m w => (fn name m w.1, w.2 ++ [(name, m)])

/-- The `(name, metric)` pairs held by a map. -/
def MetricMap.pairs (metrics : MetricMap) : List (String × Metric) :=
  metrics.entries.map (fun e => (e.1, e.2))

/-- The number of recorded invocations with the pair `(name, m)`. -/
def invocations (log : List (String × Metric)) (name : String) (m : Metric) : Nat :=
  (log.filter (fun p => decide (p = (name, m)))).length

/-- Overwrite the `map[string]Metric` object at address `a`. -/
def MapMem.storeMetrics (h : MapMem) (a : Nat) (metrics : MetricMap) : MapMem :=
  { h with metrics := Function.update h.metrics a metrics }

/-- The invocation log after `GetOrRegister(name, m)` or `GetOrAdd(name, m)` on the mapping
`metrics`, in the words of the specification: the factory is invoked, once, only when `name`
is absent and `m` is a zero-argument function. -/
def logAfter (metrics : MetricMap) (log : List Nat) (name : String) (m : Metric) : List Nat :=
  match metrics.lookup name, m with
  | none, Metric.func id 0 (_ + 1) => log ++ [id]
  | _, _ => log

/-- Every statistic of a live sample is zero. -/
def UniformSample.statsAllZero (sqrt : ℚ → ℚ) (s : UniformSample) (m : Mem) : Prop :=
  s.Min m = 0 ∧ s.Max m = 0 ∧ s.Sum m = 0 ∧ s.Mean m = 0 ∧ s.StdDev sqrt m = 0 ∧
    s.Variance m = 0 ∧ ∀ ps : List ℚ, s.Percentiles ps m = some (List.replicate ps.length 0, m)

/-- Every statistic of a snapshot is zero. -/
def SampleSnapshot.snapshotStatsAllZero (sqrt : ℚ → ℚ) (s : SampleSnapshot) (m : Mem) : Prop :=
  s.Min m = 0 ∧ s.Max m = 0 ∧ s.Sum m = 0 ∧ s.Mean m = 0 ∧ s.StdDev sqrt m = 0 ∧
    s.Variance m = 0 ∧ ∀ ps : List ℚ, s.Percentiles ps m = some (List.replicate ps.length 0, m)

/-- What a run of updates can tell about a sample: its count, its capacity and the values it
stores. -/
def UniformSample.observe (p : UniformSample × Mem) : Int × Int × List Int :=
  (p.1.count, p.1.reservoirSize, p.2.load p.1.values)

/-- The map built by the first loop of `Snapshot` from `acc` over the entries in order:
for each entry of a known kind, the name with the snapshot of the metric. -/
def snapshotMap (implements : Metric → MetricKind → Bool) (snap : MetricKind → Metric → Metric)
    (acc : MetricMap) (entries : List (Sigma (fun _ : String => Metric))) : MetricMap :=
  entries.foldl (fun acc e =>
    match switchCase implements e.2 with
    | some kind => acc.insert e.1 (snap kind e.2)
    | none => acc) acc

/-- Successive `GetOrAdd` calls on one multi metric, one per `(name, metric)` argument: the
memory and the invocation log afterwards. -/
def StandardMultiMetric.GetOrAddAll (call : Nat → List Nat → Metric) (mm : StandardMultiMetric) :
    List Nat → List (String × Metric) → MapMem → Option (MapMem × List Nat)
  | log, [], h => some (h, log)
  | log, (name, m) :: args, h =>
    match mm.GetOrAdd call log name m h with
    | none => none
    | some (_, h1, log1) => StandardMultiMetric.GetOrAddAll call mm log1 args h1

/-! ## Memory and library lemmas -/


theorem wrap64_of_range (x : Int) (h0 : -(2 ^ 63) ≤ x) (h1 : x < 2 ^ 63) : wrap64 x = x := by
  unfold wrap64
  norm_num at h0 h1 ⊢
  omega

@[simp] theorem Mem.load_store_same (m : Mem) (p : Nat) (a : List Int) :
    (m.store p a).load p = a := by
  simp [Mem.load, Mem.store]

theorem Mem.load_store_ne (m : Mem) (p q : Nat) (a : List Int) (h : q ≠ p) :
    (m.store p a).load q = m.load q := by
  simp [Mem.load, Mem.store, Function.update_noteq h]

@[simp] theorem Mem.next_store (m : Mem) (p : Nat) (a : List Int) :
    (m.store p a).next = m.next := rfl

theorem Int63n_of_lt (n : Int) (r : Nat) (h : (r : Int) < n) : Int63n n r = some r := by
  have hn : ¬ n ≤ 0 := by omega
  have hr : r < n.toNat := by omega
  simp [Int63n, hn, Nat.mod_eq_of_lt hr]

theorem Int63n_pos (n : Int) (src : Nat) (h : 0 < n) :
    ∃ r : Nat, Int63n n src = some r ∧ (r : Int) < n := by
  have hn : ¬ n ≤ 0 := by omega
  refine ⟨src % n.toNat, by simp [Int63n, hn], ?_⟩
  have : src % n.toNat < n.toNat := Nat.mod_lt _ (by omega)
  omega

theorem UniformSample.Update_seen (k : Int) (n : Nat) (s : UniformSample) (m : Mem) (v : Int) (src : Nat)
    (hn : (n : Int) + 1 < 2 ^ 63) (h : UniformSample.Seen k n s m) :
    ∃ s1 m1, s.Update v src m = some (s1, m1) ∧ UniformSample.Seen k (n + 1) s1 m1 := by
  obtain ⟨hc, hk, hl⟩ := h
  have hw : wrap64 (s.count + 1) = (n : Int) + 1 := by
    rw [hc]; exact wrap64_of_range _ (by norm_num; omega) hn
  unfold UniformSample.Update
  simp only [hw, hk]
  by_cases hlt : ((m.load s.values).length : Int) < k
  · refine ⟨_, _, if_pos hlt, ?_, rfl, ?_⟩
    · simp
    · simp only [Mem.load_store_same, List.length_append, List.length_singleton]
      push_cast
      omega
  · rw [if_neg hlt]
    obtain ⟨r, hr, -⟩ := Int63n_pos ((n : Int) + 1) src (by omega)
    rw [hr]
    by_cases hrl : (r : Int) < ((m.load s.values).length : Int)
    · refine ⟨_, _, if_pos hrl, ?_, rfl, ?_⟩
      · simp
      · simp only [Mem.load_store_same, List.length_set]
        push_cast
        omega
    · refine ⟨_, _, if_neg hrl, ?_, rfl, ?_⟩
      · simp
      · push_cast
        omega

theorem UniformSample.UpdateAll_seen (k : Int) (stream : List (Int × Nat)) :
    ∀ (n : Nat) (s : UniformSample) (m : Mem), (n : Int) + stream.length < 2 ^ 63 →
      UniformSample.Seen k n s m →
      ∃ s1 m1, s.UpdateAll m stream = some (s1, m1) ∧
        UniformSample.Seen k (n + stream.length) s1 m1 := by
  induction stream with
  | nil => intro n s m _ h; exact ⟨s, m, rfl, h⟩
  | cons x rest ih =>
    intro n s m hn h
    obtain ⟨v, src⟩ := x
    simp only [List.length_cons, Nat.cast_add, Nat.cast_one] at hn
    obtain ⟨s1, m1, hu, h1⟩ := UniformSample.Update_seen k n s m v src (by omega) h
    obtain ⟨s2, m2, hr, h2⟩ := ih (n + 1) s1 m1 (by push_cast; omega) h1
    refine ⟨s2, m2, ?_, ?_⟩
    · simp only [UniformSample.UpdateAll, hu]; exact hr
    · have e : n + (rest.length + 1) = n + 1 + rest.length := by omega
      simpa only [List.length_cons, e] using h2

theorem NewUniformSample_seen (k : Int) (m0 : Mem) (s : UniformSample) (m : Mem)
    (hnew : NewUniformSample false k m0 = some (Sample.uniform s, m)) :
    0 ≤ k ∧ UniformSample.Seen k 0 s m ∧ s.values = m0.next ∧ m.next = m0.next + 1 := by
  unfold NewUniformSample at hnew
  by_cases hk : k < 0
  · simp [hk] at hnew
  · simp only [hk, Bool.false_eq_true, if_false, Mem.make, Option.some.injEq, Prod.mk.injEq,
      Sample.uniform.injEq] at hnew
    obtain ⟨rfl, rfl⟩ := hnew
    refine ⟨by omega, ⟨rfl, rfl, ?_⟩, rfl, rfl⟩
    simp [Mem.load]
    omega

/-- C1: a sample built by `NewUniformSample k` and given the `n` updates of a stream (with
`n` in the range of the `int64` counter) ends with `Size() = min n k` and `Count() = n`, and
after every one of the updates `len(values) = min(count, reservoirSize)`. -/
theorem C1_reservoir_size_bound (k : Int) (m0 m : Mem) (s : UniformSample)
    (stream : List (Int × Nat))
    (hnew : NewUniformSample false k m0 = some (Sample.uniform s, m))
    (hn : (stream.length : Int) < 2 ^ 63) :
    (∃ s1 m1, s.UpdateAll m stream = some (s1, m1) ∧
      (s1.Size m1 : Int) = min (stream.length : Int) k ∧ s1.Count = stream.length) ∧
    (∀ i, i ≤ stream.length → ∃ s1 m1, s.UpdateAll m (stream.take i) = some (s1, m1) ∧
      s1.Count = i ∧ s1.reservoirSize = k ∧
      ((m1.load s1.values).length : Int) = min s1.count s1.reservoirSize) := by
  obtain ⟨-, h0, -, -⟩ := NewUniformSample_seen k m0 s m hnew
  constructor
  · obtain ⟨s1, m1, hr, hc, -, hl⟩ :=
      UniformSample.UpdateAll_seen k stream 0 s m (by simpa using hn) h0
    refine ⟨s1, m1, hr, ?_, ?_⟩
    · simpa [UniformSample.Size] using hl
    · simpa [UniformSample.Count] using hc
  · intro i hi
    have hlen : (stream.take i).length = i := List.length_take_of_le hi
    obtain ⟨s1, m1, hr, hc, hk, hl⟩ :=
      UniformSample.UpdateAll_seen k (stream.take i) 0 s m (by rw [hlen]; push_cast; omega) h0
    rw [hlen, Nat.zero_add] at hc hl
    exact ⟨s1, m1, hr, by simpa [UniformSample.Count] using hc, hk, by rw [hc, hk]; exact hl⟩

/-- C1 at capacity 2 and the stream `5, 6, 7`. -/
theorem C1_reservoir_size_bound_witness :
    (∃ s1 m1, UniformSample.UpdateAll ⟨0, 2, 0⟩ (Mem.empty.make 0).2 [(5, 0), (6, 0), (7, 1)]
        = some (s1, m1) ∧
      (s1.Size m1 : Int) = min (([(5, 0), (6, 0), (7, 1)] : List (Int × Nat)).length : Int) 2 ∧
      s1.Count = ([(5, 0), (6, 0), (7, 1)] : List (Int × Nat)).length) ∧
    (∀ i, i ≤ ([(5, 0), (6, 0), (7, 1)] : List (Int × Nat)).length →
      ∃ s1 m1, UniformSample.UpdateAll ⟨0, 2, 0⟩ (Mem.empty.make 0).2
          (([(5, 0), (6, 0), (7, 1)] : List (Int × Nat)).take i) = some (s1, m1) ∧
      s1.Count = i ∧ s1.reservoirSize = 2 ∧
      ((m1.load s1.values).length : Int) = min s1.count s1.reservoirSize) :=
  C1_reservoir_size_bound 2 Mem.empty (Mem.empty.make 0).2 ⟨0, 2, 0⟩ [(5, 0), (6, 0), (7, 1)]
    (by rfl) (by norm_num)

/-- C3: in a state with count `c` (`0 ≤ c < MaxInt64`), capacity `k` and stored values `vs`
(`len vs ≤ k`), `Update v` makes the count `c + 1`; it appends `v` when `len vs < k`;
otherwise, with the draw `r` from `[0, c + 1)`, it overwrites slot `r` when `r < k` and
leaves the values (and the whole memory) unchanged when `r ≥ k`. -/
theorem C3_Update_cases (s : UniformSample) (m : Mem) (v : Int)
    (hc0 : 0 ≤ s.count) (hc1 : s.count < MaxInt64)
    (hlen : ((m.load s.values).length : Int) ≤ s.reservoirSize) :
    (((m.load s.values).length : Int) < s.reservoirSize → ∀ src : Nat,
      s.Update v src m = some ({ s with count := s.count + 1 },
        m.store s.values (m.load s.values ++ [v]))) ∧
    (¬ ((m.load s.values).length : Int) < s.reservoirSize → ∀ r : Nat, (r : Int) < s.count + 1 →
      ((r : Int) < s.reservoirSize →
        s.Update v r m = some ({ s with count := s.count + 1 },
          m.store s.values ((m.load s.values).set r v))) ∧
      (s.reservoirSize ≤ (r : Int) →
        s.Update v r m = some ({ s with count := s.count + 1 }, m))) := by
  have hw : wrap64 (s.count + 1) = s.count + 1 := by
    apply wrap64_of_range
    · norm_num; omega
    · unfold MaxInt64 at hc1; omega
  refine ⟨fun hlt src => ?_, fun hge r hr => ⟨fun hrk => ?_, fun hrk => ?_⟩⟩
  · simp [UniformSample.Update, hw, hlt]
  · have hrl : (r : Int) < ((m.load s.values).length : Int) := by omega
    simp [UniformSample.Update, hw, hge, Int63n_of_lt _ _ hr, hrl]
  · have hrl : ¬ (r : Int) < ((m.load s.values).length : Int) := by omega
    simp [UniformSample.Update, hw, hge, Int63n_of_lt _ _ hr, hrl]

/-! ## Uniformity of the reservoir -/

theorem countP_ne_range (p : Nat) : ∀ M : Nat,
    (List.range M).countP (fun r => decide (r ≠ p)) = if p < M then M - 1 else M := by
  intro M
  induction M with
  | zero => simp
  | succ M ih =>
    rw [List.range_succ, List.countP_append, ih]
    by_cases h1 : p < M
    · have h2 : M ≠ p := by omega
      have h3 : p < M + 1 := by omega
      simp [h1, h2, h3, List.countP_cons]
      omega
    · by_cases h2 : M = p
      · subst h2; simp [List.countP_cons]
      · have h3 : ¬ p < M + 1 := by omega
        simp [h1, h2, h3, List.countP_cons]

theorem countP_lt_range (k : Nat) : ∀ M : Nat,
    (List.range M).countP (fun r => decide (r < k)) = min k M := by
  intro M
  induction M with
  | zero => simp
  | succ M ih =>
    rw [List.range_succ, List.countP_append, ih]
    by_cases h1 : M < k
    · simp [h1, List.countP_cons]; omega
    · simp [h1, List.countP_cons]; omega

theorem mem_set_of_nodup (vals : List Int) (x y : Int) (p r : Nat) (hnd : vals.Nodup)
    (hp : p < vals.length) (hx : vals.get ⟨p, hp⟩ = x) (hxy : x ≠ y) :
    x ∈ vals.set r y ↔ r ≠ p := by
  constructor
  · rintro hmem rfl
    obtain ⟨i, hi, hix⟩ := List.mem_iff_getElem.mp hmem
    rw [List.getElem_set] at hix
    by_cases hri : r = i
    · simp [hri] at hix; exact hxy hix.symm
    · simp only [hri, if_false] at hix
      have hi2 : i < vals.length := by simpa using hi
      have hget : vals.get ⟨i, hi2⟩ = vals.get ⟨r, hp⟩ := by
        rw [hx]; exact hix
      have hfin := List.nodup_iff_injective_get.mp hnd hget
      exact hri (Fin.mk.inj hfin).symm
  · intro hne
    refine List.mem_iff_getElem.mpr ⟨p, by simpa using hp, ?_⟩
    rw [List.getElem_set_ne hne]
    exact hx

theorem countP_keep (vals : List Int) (x y : Int) (k N : Nat) (hnd : vals.Nodup)
    (hlen : vals.length = k) (hkN : k ≤ N) (hxy : x ≠ y) :
    (List.range (N + 1)).countP (fun r => decide (x ∈ replaceSlot k vals y r))
      = if x ∈ vals then N else 0 := by
  by_cases hx : x ∈ vals
  · obtain ⟨p, hp, hpx⟩ := List.mem_iff_getElem.mp hx
    rw [if_pos hx]
    have hcongr : (List.range (N + 1)).countP (fun r => decide (x ∈ replaceSlot k vals y r))
        = (List.range (N + 1)).countP (fun r => decide (r ≠ p)) := by
      apply List.countP_congr
      intro r _
      simp only [decide_eq_true_eq, replaceSlot]
      by_cases hr : r < k
      · rw [if_pos hr]; exact mem_set_of_nodup vals x y p r hnd hp hpx hxy
      · rw [if_neg hr]
        exact ⟨fun _ => by omega, fun _ => hx⟩
    rw [hcongr, countP_ne_range, if_pos (by omega)]
    rfl
  · rw [if_neg hx]
    rw [List.countP_eq_zero]
    intro r _
    simp only [decide_eq_true_eq, replaceSlot]
    by_cases hr : r < k
    · rw [if_pos hr]
      intro hmem
      rcases List.mem_or_eq_of_mem_set hmem with h | h
      · exact hx h
      · exact hxy h
    · rw [if_neg hr]; exact hx

theorem countP_new (vals : List Int) (y : Int) (k N : Nat)
    (hlen : vals.length = k) (hkN : k ≤ N) (hy : y ∉ vals) :
    (List.range (N + 1)).countP (fun r => decide (y ∈ replaceSlot k vals y r)) = k := by
  have hcongr : (List.range (N + 1)).countP (fun r => decide (y ∈ replaceSlot k vals y r))
      = (List.range (N + 1)).countP (fun r => decide (r < k)) := by
    apply List.countP_congr
    intro r _
    simp only [decide_eq_true_eq, replaceSlot]
    by_cases hr : r < k
    · rw [if_pos hr]
      refine ⟨fun _ => hr, fun _ => ?_⟩
      exact List.mem_iff_getElem.mpr ⟨r, by simpa [hlen] using hr, by simp⟩
    · rw [if_neg hr]
      exact ⟨fun h => absurd h hy, fun h => absurd h hr⟩
  rw [hcongr, countP_lt_range]
  omega

theorem countP_flatMap_map {α β : Type} (p : β → Bool) (q : α → Bool) (c : Nat)
    (g : α → Nat → β) (M : Nat) (l : List α)
    (h : ∀ a ∈ l, (List.range M).countP (fun r => p (g a r)) = if q a then c else 0) :
    (l.flatMap (fun a => (List.range M).map (g a))).countP p = c * l.countP q := by
  induction l with
  | nil => simp
  | cons a l ih =>
    have ha := h a (List.mem_cons_self a l)
    have hl := ih (fun b hb => h b (List.mem_cons_of_mem a hb))
    rw [List.flatMap_cons, List.countP_append, hl, List.countP_map, List.countP_cons]
    have : (p ∘ g a) = fun r => p (g a r) := rfl
    rw [this, ha]
    by_cases hq : q a <;> simp [hq, Nat.mul_add, Nat.add_comm]

theorem UniformSample.Update_fill (k n : Nat) (s : UniformSample) (m : Mem) (v : Int) (src : Nat)
    (hn : (n : Int) + 1 < 2 ^ 63) (h : UniformSample.Seen k n s m) (hnk : n < k) :
    ∃ s1 m1, s.Update v src m = some (s1, m1) ∧ UniformSample.Seen k (n + 1) s1 m1 ∧
      m1.load s1.values = m.load s.values ++ [v] := by
  obtain ⟨hc, hk, hl⟩ := h
  have hw : wrap64 (s.count + 1) = (n : Int) + 1 := by
    rw [hc]; exact wrap64_of_range _ (by norm_num; omega) hn
  have hlt : ((m.load s.values).length : Int) < s.reservoirSize := by omega
  have hU : s.Update v src m = some ({ s with count := (n : Int) + 1 },
      m.store s.values (m.load s.values ++ [v])) := by
    simp only [UniformSample.Update, hw]
    exact if_pos hlt
  refine ⟨_, _, hU, ⟨?_, hk, ?_⟩, ?_⟩
  · simp
  · simp only [Mem.load_store_same, List.length_append, List.length_singleton]
    push_cast
    omega
  · simp

theorem UniformSample.Update_draw (k n : Nat) (s : UniformSample) (m : Mem) (v : Int) (r : Nat)
    (hn : (n : Int) + 1 < 2 ^ 63) (h : UniformSample.Seen k n s m) (hnk : k ≤ n)
    (hr : r < n + 1) :
    ∃ s1 m1, s.Update v r m = some (s1, m1) ∧ UniformSample.Seen k (n + 1) s1 m1 ∧
      m1.load s1.values = replaceSlot k (m.load s.values) v r := by
  obtain ⟨hc, hk, hl⟩ := h
  have hw : wrap64 (s.count + 1) = (n : Int) + 1 := by
    rw [hc]; exact wrap64_of_range _ (by norm_num; omega) hn
  have hlt : ¬ ((m.load s.values).length : Int) < s.reservoirSize := by omega
  have hi : Int63n ((n : Int) + 1) r = some r := Int63n_of_lt _ _ (by omega)
  have hlen : (m.load s.values).length = k := by omega
  by_cases hrk : r < k
  · have hrl : (r : Int) < ((m.load s.values).length : Int) := by omega
    have hU : s.Update v r m = some ({ s with count := (n : Int) + 1 },
        m.store s.values ((m.load s.values).set r v)) := by
      simp only [UniformSample.Update, hw, if_neg hlt, hi]
      exact if_pos hrl
    refine ⟨_, _, hU, ⟨?_, hk, ?_⟩, ?_⟩
    · simp
    · simp only [Mem.load_store_same, List.length_set]
      push_cast
      omega
    · simp [replaceSlot, hrk]
  · have hrl : ¬ (r : Int) < ((m.load s.values).length : Int) := by omega
    have hU : s.Update v r m = some ({ s with count := (n : Int) + 1 }, m) := by
      simp only [UniformSample.Update, hw, if_neg hlt, hi]
      exact if_neg hrl
    refine ⟨_, _, hU, ⟨?_, hk, ?_⟩, ?_⟩
    · simp
    · push_cast
      omega
    · simp [replaceSlot, hrk]

theorem UniformSample.UpdateAll_append (a b : List (Int × Nat)) :
    ∀ (s : UniformSample) (m : Mem), s.UpdateAll m (a ++ b) =
      match s.UpdateAll m a with
      | some (s1, m1) => s1.UpdateAll m1 b
      | none => none := by
  induction a with
  | nil => intro s m; rfl
  | cons x a ih =>
    intro s m
    obtain ⟨v, src⟩ := x
    simp only [List.cons_append, UniformSample.UpdateAll]
    cases hu : s.Update v src m with
    | none => rfl
    | some p => exact ih p.1 p.2

theorem UniformSample.UpdateAll_snoc (a : List (Int × Nat)) (v : Int) (src : Nat)
    (s s1 : UniformSample) (m m1 : Mem) (h : s.UpdateAll m a = some (s1, m1)) :
    s.UpdateAll m (a ++ [(v, src)]) = s1.Update v src m1 := by
  rw [UniformSample.UpdateAll_append, h]
  simp only [UniformSample.UpdateAll]
  cases s1.Update v src m1 with
  | none => rfl
  | some p => rfl

theorem fillStream_succ (i : Nat) : fillStream (i + 1) = fillStream i ++ [((i : Int) + 1, 0)] := by
  simp [fillStream, List.range_succ]

theorem drawStream_snoc (ds : List Nat) (r : Nat) : ∀ base : Nat,
    drawStream base (ds ++ [r]) =
      drawStream base ds ++ [(((base + ds.length : Nat) : Int) + 1, r)] := by
  induction ds with
  | nil => intro base; simp [drawStream]
  | cons x ds ih =>
    intro base
    have e : base + 1 + ds.length = base + (ds.length + 1) := by omega
    rw [List.cons_append]
    simp only [drawStream, List.length_cons, List.cons_append]
    rw [ih (base + 1), e]

theorem UniformSample.fill_run (k : Nat) (s : UniformSample) (m : Mem)
    (hk : (k : Int) < 2 ^ 63) (h0 : UniformSample.Seen k 0 s m) (hl0 : m.load s.values = []) :
    ∀ i, i ≤ k → ∃ s1 m1, s.UpdateAll m (fillStream i) = some (s1, m1) ∧
      UniformSample.Seen k i s1 m1 ∧
      m1.load s1.values = (List.range i).map (fun (j : Nat) => (j : Int) + 1) := by
  intro i
  induction i with
  | zero => intro _; exact ⟨s, m, rfl, h0, by simpa using hl0⟩
  | succ i ih =>
    intro hi
    obtain ⟨s1, m1, hr, hs, hv⟩ := ih (by omega)
    obtain ⟨s2, m2, hu, hs2, hv2⟩ :=
      UniformSample.Update_fill k i s1 m1 ((i : Int) + 1) 0 (by omega) hs (by omega)
    refine ⟨s2, m2, ?_, hs2, ?_⟩
    · rw [fillStream_succ, UniformSample.UpdateAll_snoc _ _ _ s s1 m m1 hr, hu]
    · rw [hv2, hv, List.range_succ, List.map_append]
      rfl

theorem UniformSample.draw_step (k d : Nat) (s s1 : UniformSample) (m m1 : Mem)
    (ds : List Nat) (r : Nat) (hd : (k : Int) + d + 1 < 2 ^ 63)
    (hrun : s.UpdateAll m (fillStream k ++ drawStream k ds) = some (s1, m1))
    (hs : UniformSample.Seen k (k + d) s1 m1) (hlen : ds.length = d) (hr : r < k + d + 1) :
    ∃ s2 m2, s.UpdateAll m (fillStream k ++ drawStream k (ds ++ [r])) = some (s2, m2) ∧
      UniformSample.Seen k (k + d + 1) s2 m2 ∧
      m2.load s2.values = replaceSlot k (m1.load s1.values) (((k + d : Nat) : Int) + 1) r := by
  obtain ⟨s2, m2, hu, hs2, hv2⟩ :=
    UniformSample.Update_draw k (k + d) s1 m1 (((k + d : Nat) : Int) + 1) r
      (by push_cast; omega) hs (by omega) hr
  refine ⟨s2, m2, ?_, hs2, hv2⟩
  rw [drawStream_snoc, hlen, ← List.append_assoc,
    UniformSample.UpdateAll_snoc _ _ _ s s1 m m1 hrun, hu]

theorem mem_drawSeqs_succ (k d : Nat) (ds1 : List Nat) :
    ds1 ∈ drawSeqs k (d + 1) ↔ ∃ ds ∈ drawSeqs k d, ∃ r, r < k + d + 1 ∧ ds1 = ds ++ [r] := by
  simp only [drawSeqs, List.mem_flatMap, List.mem_map, List.mem_range]
  constructor
  · rintro ⟨ds, hds, r, hr, rfl⟩; exact ⟨ds, hds, r, hr, rfl⟩
  · rintro ⟨ds, hds, r, hr, rfl⟩; exact ⟨ds, hds, r, hr, rfl⟩

theorem replaceSlot_nodup (k : Nat) (vals : List Int) (y : Int) (r : Nat)
    (hnd : vals.Nodup) (hy : y ∉ vals) : (replaceSlot k vals y r).Nodup := by
  unfold replaceSlot
  split
  · exact hnd.set hy
  · exact hnd

theorem replaceSlot_length (k : Nat) (vals : List Int) (y : Int) (r : Nat) :
    (replaceSlot k vals y r).length = vals.length := by
  unfold replaceSlot
  split <;> simp

theorem mem_replaceSlot (k : Nat) (vals : List Int) (x y : Int) (r : Nat)
    (h : x ∈ replaceSlot k vals y r) : x ∈ vals ∨ x = y := by
  unfold replaceSlot at h
  split at h
  · exact List.mem_or_eq_of_mem_set h
  · exact Or.inl h

theorem UniformSample.draw_run (k : Nat) (s : UniformSample) (m : Mem)
    (h0 : UniformSample.Seen k 0 s m) (hl0 : m.load s.values = []) :
    ∀ d : Nat, (k : Int) + d < 2 ^ 63 → ∀ ds ∈ drawSeqs k d,
      ∃ s1 m1, s.UpdateAll m (fillStream k ++ drawStream k ds) = some (s1, m1) ∧
        UniformSample.Seen k (k + d) s1 m1 ∧ (m1.load s1.values).Nodup ∧
        (∀ x ∈ m1.load s1.values, 1 ≤ x ∧ x ≤ ((k + d : Nat) : Int)) ∧
        (m1.load s1.values).length = k ∧ ds.length = d := by
  intro d
  induction d with
  | zero =>
    intro hk ds hds
    simp only [drawSeqs, List.mem_singleton] at hds
    subst hds
    obtain ⟨s1, m1, hr, hs, hv⟩ := UniformSample.fill_run k s m (by simpa using hk) h0 hl0 k le_rfl
    refine ⟨s1, m1, by simpa [drawStream] using hr, hs, ?_, ?_, ?_, rfl⟩
    · rw [hv]
      refine (List.nodup_range k).map ?_
      intro a b hab
      simpa using hab
    · intro x hx
      rw [hv] at hx
      obtain ⟨j, hj, rfl⟩ := List.mem_map.mp hx
      have := List.mem_range.mp hj
      push_cast
      omega
    · rw [hv]; simp
  | succ d ih =>
    intro hk ds1 hds1
    obtain ⟨ds, hds, r, hr, rfl⟩ := (mem_drawSeqs_succ k d ds1).mp hds1
    have hk1 : (k : Int) + d + 1 < 2 ^ 63 := by push_cast at hk; omega
    obtain ⟨s1, m1, hrun, hs, hnd, hrange, hlen, hdl⟩ := ih (by omega) ds hds
    obtain ⟨s2, m2, hrun2, hs2, hv2⟩ :=
      UniformSample.draw_step k d s s1 m m1 ds r hk1 hrun hs hdl hr
    have hy : (((k + d : Nat) : Int) + 1) ∉ m1.load s1.values := by
      intro hmem
      have := (hrange _ hmem).2
      omega
    refine ⟨s2, m2, hrun2, hs2, ?_, ?_, ?_, ?_⟩
    · rw [hv2]; exact replaceSlot_nodup k _ _ r hnd hy
    · intro x hx
      rw [hv2] at hx
      rcases mem_replaceSlot k _ x _ r hx with h | h
      · have := hrange x h
        push_cast at this ⊢
        omega
      · subst h
        push_cast
        omega
    · rw [hv2, replaceSlot_length]; exact hlen
    · simp [hdl]

theorem length_drawSeqs_succ (k d : Nat) :
    (drawSeqs k (d + 1)).length = (k + d + 1) * (drawSeqs k d).length := by
  have h := countP_flatMap_map (fun _ : List Nat => true) (fun _ : List Nat => true) (k + d + 1)
    (fun ds r => ds ++ [r]) (k + d + 1) (drawSeqs k d) (by intro a _; simp)
  simpa [drawSeqs] using h

theorem length_drawSeqs (k : Nat) : ∀ d : Nat,
    (drawSeqs k d).length * k.factorial = (k + d).factorial := by
  intro d
  induction d with
  | zero => simp [drawSeqs]
  | succ d ih =>
    rw [length_drawSeqs_succ, Nat.mul_assoc, ih, ← Nat.add_assoc, Nat.factorial_succ]

theorem nodup_drawSeqs (k : Nat) : ∀ d : Nat, (drawSeqs k d).Nodup := by
  intro d
  induction d with
  | zero => simp [drawSeqs]
  | succ d ih =>
    simp only [drawSeqs]
    rw [List.nodup_flatMap]
    constructor
    · intro ds _
      refine (List.nodup_range _).map ?_
      intro a b hab
      simpa using hab
    · refine ih.imp ?_
      intro a b hab
      simp only [Function.onFun]
      rw [List.disjoint_left]
      intro x hxa hxb
      obtain ⟨r1, -, rfl⟩ := List.mem_map.mp hxa
      obtain ⟨r2, -, h2⟩ := List.mem_map.mp hxb
      exact hab (List.append_inj_left' h2 rfl).symm

theorem mem_drawSeqs (k : Nat) : ∀ (d : Nat) (ds : List Nat),
    ds ∈ drawSeqs k d ↔ ds.length = d ∧ ∀ (i : Nat) (h : i < ds.length), ds.get ⟨i, h⟩ < k + i + 1 := by
  intro d
  induction d with
  | zero =>
    intro ds
    simp only [drawSeqs, List.mem_singleton]
    constructor
    · rintro rfl; exact ⟨rfl, fun i h => absurd h (by simp)⟩
    · rintro ⟨h, -⟩; exact List.length_eq_zero.mp h
  | succ d ih =>
    intro ds1
    rw [mem_drawSeqs_succ]
    constructor
    · rintro ⟨ds, hds, r, hr, rfl⟩
      obtain ⟨hl, hb⟩ := (ih ds).mp hds
      refine ⟨by simp [hl], fun i h => ?_⟩
      simp only [List.get_eq_getElem]
      by_cases hi : i < ds.length
      · rw [List.getElem_append_left hi]
        exact hb i hi
      · have hi2 : i = ds.length := by
          simp only [List.length_append, List.length_singleton] at h
          omega
        rw [List.getElem_concat_length ds r i hi2]
        omega
    · rintro ⟨hl, hb⟩
      rcases List.eq_nil_or_concat ds1 with h | ⟨ds, r, h⟩
      · subst h; simp at hl
      · rw [List.concat_eq_append] at h
        subst h
        have hl2 : ds.length = d := by simpa using hl
        refine ⟨ds, (ih ds).mpr ⟨hl2, fun i h => ?_⟩, r, ?_, rfl⟩
        · have := hb i (by simp; omega)
          simp only [List.get_eq_getElem] at this ⊢
          rwa [List.getElem_append_left h] at this
        · have := hb ds.length (by simp)
          simp only [List.get_eq_getElem] at this
          rw [List.getElem_concat_length ds r ds.length rfl] at this
          omega

theorem finalValues_of_run (s s1 : UniformSample) (m m1 : Mem) (stream : List (Int × Nat))
    (h : s.UpdateAll m stream = some (s1, m1)) : finalValues s m stream = m1.load s1.values := by
  simp [finalValues, h]

theorem kept_count (k : Nat) (s : UniformSample) (m : Mem)
    (h0 : UniformSample.Seen k 0 s m) (hl0 : m.load s.values = []) :
    ∀ d : Nat, (k : Int) + d < 2 ^ 63 → ∀ j : Nat, 1 ≤ j → j ≤ k + d →
      (k + d) * (drawSeqs k d).countP
          (fun ds => decide ((j : Int) ∈ finalValues s m (fillStream k ++ drawStream k ds)))
        = k * (drawSeqs k d).length := by
  intro d
  induction d with
  | zero =>
    intro hk j hj1 hjk
    obtain ⟨s1, m1, hr, -, hv⟩ := UniformSample.fill_run k s m (by simpa using hk) h0 hl0 k le_rfl
    have hfv : finalValues s m (fillStream k ++ drawStream k []) = m1.load s1.values :=
      finalValues_of_run s s1 m m1 _ (by simpa [drawStream] using hr)
    have hmem : (j : Int) ∈ m1.load s1.values := by
      rw [hv]
      refine List.mem_map.mpr ⟨j - 1, List.mem_range.mpr (by omega), ?_⟩
      omega
    simp [drawSeqs, hfv, hmem]
  | succ d ih =>
    intro hk j hj1 hjk
    have hk1 : (k : Int) + d + 1 < 2 ^ 63 := by push_cast at hk; omega
    have hstep : ∀ ds ∈ drawSeqs k d, ∃ vals : List Int,
        finalValues s m (fillStream k ++ drawStream k ds) = vals ∧ vals.Nodup ∧
        vals.length = k ∧ (((k + d : Nat) : Int) + 1) ∉ vals ∧
        ∀ r ∈ List.range (k + d + 1),
          finalValues s m (fillStream k ++ drawStream k (ds ++ [r]))
            = replaceSlot k vals (((k + d : Nat) : Int) + 1) r := by
      intro ds hds
      obtain ⟨s1, m1, hrun, hs, hnd, hrange, hlen, hdl⟩ :=
        UniformSample.draw_run k s m h0 hl0 d (by omega) ds hds
      refine ⟨_, finalValues_of_run s s1 m m1 _ hrun, hnd, hlen, ?_, fun r hr => ?_⟩
      · intro hmem
        have := (hrange _ hmem).2
        omega
      · obtain ⟨s2, m2, hrun2, -, hv2⟩ :=
          UniformSample.draw_step k d s s1 m m1 ds r hk1 hrun hs hdl (List.mem_range.mp hr)
        rw [finalValues_of_run s s2 m m2 _ hrun2, hv2]
    rw [length_drawSeqs_succ]
    by_cases hj : j ≤ k + d
    · have hcount := countP_flatMap_map
        (fun ds => decide ((j : Int) ∈ finalValues s m (fillStream k ++ drawStream k ds)))
        (fun ds => decide ((j : Int) ∈ finalValues s m (fillStream k ++ drawStream k ds)))
        (k + d) (fun ds r => ds ++ [r]) (k + d + 1) (drawSeqs k d) (by
          intro ds hds
          obtain ⟨vals, hfv, hnd, hlen, -, hsnoc⟩ := hstep ds hds
          have hc : (List.range (k + d + 1)).countP (fun r =>
              decide ((j : Int) ∈ finalValues s m (fillStream k ++ drawStream k (ds ++ [r]))))
              = (List.range (k + d + 1)).countP (fun r =>
                decide ((j : Int) ∈ replaceSlot k vals (((k + d : Nat) : Int) + 1) r)) :=
            List.countP_congr (fun r hr => by rw [hsnoc r hr])
          rw [hc]
          rw [countP_keep vals j _ k (k + d) hnd hlen (by omega) (by push_cast; omega)]
          simp [hfv])
      simp only [drawSeqs]
      rw [hcount]
      have := ih (by omega) j hj1 hj
      calc (k + (d + 1)) * ((k + d) * _) = (k + d + 1) * ((k + d) * _) := by rw [Nat.add_assoc]
        _ = (k + d + 1) * (k * (drawSeqs k d).length) := by rw [this]
        _ = k * ((k + d + 1) * (drawSeqs k d).length) := by ring
    · have hj2 : j = k + d + 1 := by omega
      subst hj2
      have hcount := countP_flatMap_map
        (fun ds => decide (((k + d + 1 : Nat) : Int) ∈
          finalValues s m (fillStream k ++ drawStream k ds)))
        (fun _ => true) k (fun ds r => ds ++ [r]) (k + d + 1) (drawSeqs k d) (by
          intro ds hds
          obtain ⟨vals, -, -, hlen, hy, hsnoc⟩ := hstep ds hds
          have e : ((k + d + 1 : Nat) : Int) = ((k + d : Nat) : Int) + 1 := by push_cast; ring
          have hc : (List.range (k + d + 1)).countP (fun r =>
              decide ((((k + d : Nat) : Int) + 1) ∈
                finalValues s m (fillStream k ++ drawStream k (ds ++ [r]))))
              = (List.range (k + d + 1)).countP (fun r =>
                decide ((((k + d : Nat) : Int) + 1) ∈
                  replaceSlot k vals (((k + d : Nat) : Int) + 1) r)) :=
            List.countP_congr (fun r hr => by rw [hsnoc r hr])
          rw [e, hc]
          rw [countP_new vals _ k (k + d) hlen (by omega) hy]
          simp)
      simp only [drawSeqs]
      rw [hcount]
      simp only [List.countP_true]
      rw [Nat.add_assoc]
      ring

theorem map_fst_fillStream (k : Nat) :
    (fillStream k).map Prod.fst = (List.range' 1 k).map (fun (i : Nat) => (i : Int)) := by
  induction k with
  | zero => rfl
  | succ k ih =>
    rw [fillStream_succ, List.map_append, ih, List.range'_1_concat, List.map_append]
    simp [Nat.add_comm]

theorem map_fst_drawStream (ds : List Nat) : ∀ base : Nat,
    (drawStream base ds).map Prod.fst
      = (List.range' (base + 1) ds.length).map (fun (i : Nat) => (i : Int)) := by
  induction ds with
  | nil => intro base; rfl
  | cons r ds ih =>
    intro base
    simp only [drawStream, List.map_cons, List.length_cons, List.range'_succ, ih (base + 1)]
    simp

/-- C2: for a fresh sample of capacity `k`, the observations `1, …, n` (`n ≥ k`) and any
position `j` in `1..n`, the fraction of the draw sequences (draw `i` uniform over `[0, i)` for
each update `i > k`) after which observation `j` is in the reservoir is exactly `k / n`; the
draw sequences enumerated are exactly the `(k+1)(k+2)⋯n` possible ones, each once, and every
one of them gives a complete run over the observations `1, …, n`. -/
theorem C2_uniform_inclusion (k n j : Nat) (m0 m : Mem) (s : UniformSample)
    (hnew : NewUniformSample false k m0 = some (Sample.uniform s, m))
    (hkn : k ≤ n) (hj1 : 1 ≤ j) (hjn : j ≤ n) (hn : (n : Int) < 2 ^ 63) :
    (((drawSeqs k (n - k)).countP (fun ds =>
        decide ((j : Int) ∈ finalValues s m (fillStream k ++ drawStream k ds))) : ℚ)
      / ((drawSeqs k (n - k)).length : ℚ) = (k : ℚ) / (n : ℚ)) ∧
    (drawSeqs k (n - k)).length * k.factorial = n.factorial ∧
    (drawSeqs k (n - k)).Nodup ∧
    (∀ ds, ds ∈ drawSeqs k (n - k) ↔
      ds.length = n - k ∧ ∀ (i : Nat) (h : i < ds.length), ds.get ⟨i, h⟩ < k + i + 1) ∧
    (∀ ds ∈ drawSeqs k (n - k),
      (fillStream k ++ drawStream k ds).map Prod.fst
        = (List.range' 1 n).map (fun (i : Nat) => (i : Int)) ∧
      ∃ s1 m1, s.UpdateAll m (fillStream k ++ drawStream k ds) = some (s1, m1) ∧
        s1.Count = n) := by
  obtain ⟨-, h0, hp, -⟩ := NewUniformSample_seen k m0 s m hnew
  have hl0 : m.load s.values = [] := by
    obtain ⟨-, -, hl⟩ := h0
    have : (m.load s.values).length = 0 := by
      have h1 : ((m.load s.values).length : Int) = 0 := by rw [hl]; simp
      exact_mod_cast h1
    exact List.length_eq_zero.mp this
  have hkd : k + (n - k) = n := by omega
  have hlenf := length_drawSeqs k (n - k)
  rw [hkd] at hlenf
  have hpos : 0 < (drawSeqs k (n - k)).length := by
    rcases Nat.eq_zero_or_pos (drawSeqs k (n - k)).length with h | h
    · rw [h, Nat.zero_mul] at hlenf
      exact absurd hlenf.symm (Nat.factorial_ne_zero n)
    · exact h
  have hcount := kept_count k s m h0 hl0 (n - k) (by push_cast [hkn]; omega) j hj1 (by omega)
  rw [hkd] at hcount
  refine ⟨?_, hlenf, nodup_drawSeqs k _, mem_drawSeqs k _, fun ds hds => ⟨?_, ?_⟩⟩
  · have hn0 : (n : ℚ) ≠ 0 := by exact_mod_cast (by omega : n ≠ 0)
    have hl : ((drawSeqs k (n - k)).length : ℚ) ≠ 0 := by exact_mod_cast (by omega : _ ≠ 0)
    rw [div_eq_div_iff hl hn0]
    have : ((n * (drawSeqs k (n - k)).countP (fun ds =>
        decide ((j : Int) ∈ finalValues s m (fillStream k ++ drawStream k ds))) : Nat) : ℚ)
        = ((k * (drawSeqs k (n - k)).length : Nat) : ℚ) := by rw [hcount]
    push_cast at this
    linarith
  · have hdl := ((mem_drawSeqs k _ ds).mp hds).1
    rw [List.map_append, map_fst_fillStream, map_fst_drawStream, hdl, ← List.map_append,
      Nat.add_comm k 1, List.range'_append_1, Nat.add_comm (n - k) k, hkd]
  · obtain ⟨s1, m1, hrun, hs, -⟩ :=
      UniformSample.draw_run k s m h0 hl0 (n - k) (by push_cast [hkn]; omega) ds hds
    refine ⟨s1, m1, hrun, ?_⟩
    rw [UniformSample.Count, hs.1, hkd]

/-- C2 at capacity 1, three observations and the second of them: the fraction is `1 / 3`. -/
theorem C2_uniform_inclusion_witness :
    (((drawSeqs 1 (3 - 1)).countP (fun ds =>
        decide (((2 : Nat) : Int) ∈ finalValues ⟨0, 1, 0⟩ (Mem.empty.make 0).2
          (fillStream 1 ++ drawStream 1 ds))) : ℚ)
      / ((drawSeqs 1 (3 - 1)).length : ℚ) = ((1 : Nat) : ℚ) / ((3 : Nat) : ℚ)) :=
  (C2_uniform_inclusion 1 3 2 Mem.empty (Mem.empty.make 0).2 ⟨0, 1, 0⟩ (by rfl)
    (by norm_num) (by norm_num) (by norm_num) (by norm_num)).1

/-! ## Percentiles -/

theorem index_of_lt (values : List Int) (i : Int) (h0 : 0 ≤ i) (h1 : i.toNat < values.length) :
    index values i = some (values.getD i.toNat 0) := by
  have : ¬ i < 0 := by omega
  simp [index, this, List.getD, List.getElem?_eq_getElem h1]

theorem percentileScore_eq (values : List Int) (p : ℚ) (h : values ≠ []) :
    percentileScore values values.length p = some (percentileRule values p) := by
  have hlen : 0 < values.length := List.length_pos.mpr h
  simp only [percentileScore, percentileRule, Nat.cast_add, Nat.cast_one, ge_iff_le]
  by_cases h1 : p * ((values.length : ℚ) + 1) < 1
  · rw [if_pos h1, if_pos h1, index_of_lt values 0 le_rfl (by simpa using hlen)]
    rfl
  · rw [if_neg h1, if_neg h1]
    by_cases h2 : (values.length : ℚ) ≤ p * ((values.length : ℚ) + 1)
    · rw [if_pos h2, if_pos h2, index_of_lt values _ (by omega) (by omega)]
      have e : ((values.length : Int) - 1).toNat = values.length - 1 := by omega
      rw [e]
      rfl
    · rw [if_neg h2, if_neg h2]
      have hpos1 : (1 : ℚ) ≤ p * ((values.length : ℚ) + 1) := not_lt.mp h1
      have hpos2 : p * ((values.length : ℚ) + 1) < (values.length : ℚ) := not_le.mp h2
      have hf1 : 1 ≤ ⌊p * ((values.length : ℚ) + 1)⌋ := Int.le_floor.mpr (by exact_mod_cast hpos1)
      have hf2 : ⌊p * ((values.length : ℚ) + 1)⌋ < (values.length : Int) :=
        Int.floor_lt.mpr (by exact_mod_cast hpos2)
      have ht : truncToInt (p * ((values.length : ℚ) + 1)) = ⌊p * ((values.length : ℚ) + 1)⌋ := by
        unfold truncToInt
        rw [if_pos (by linarith)]
      rw [ht, index_of_lt values _ (by omega) (by omega), index_of_lt values _ (by omega) (by omega)]

theorem percentileScores_eq (values : List Int) (h : values ≠ []) :
    ∀ ps : List ℚ, percentileScores values values.length ps
      = some (ps.map (percentileRule values)) := by
  intro ps
  induction ps with
  | nil => rfl
  | cons p ps ih => simp [percentileScores, percentileScore_eq values p h, ih]

theorem sortInt64_perm (values : List Int) : (sortInt64 values).Perm values :=
  List.perm_insertionSort _ values

theorem sortInt64_sorted (values : List Int) : (sortInt64 values).Sorted (fun a b => a ≤ b) :=
  List.sorted_insertionSort _ values

theorem sortInt64_length (values : List Int) : (sortInt64 values).length = values.length :=
  (sortInt64_perm values).length_eq

theorem sortInt64_ne_nil (values : List Int) (h : values ≠ []) : sortInt64 values ≠ [] := by
  intro h2
  have := sortInt64_length values
  rw [h2] at this
  exact h (List.length_eq_zero.mp this.symm)

theorem SamplePercentiles_eq (values : Nat) (ps : List ℚ) (m : Mem) (h : m.load values ≠ []) :
    SamplePercentiles values ps m =
      some (ps.map (percentileRule (sortInt64 (m.load values))),
        m.store values (sortInt64 (m.load values))) := by
  have hlen : (m.load values).length > 0 := List.length_pos.mpr h
  unfold SamplePercentiles
  simp only [hlen, if_true, Mem.load_store_same]
  have hs := sortInt64_length (m.load values)
  rw [← hs, percentileScores_eq _ (sortInt64_ne_nil _ h)]
  rfl

theorem SamplePercentile_eq (values : Nat) (p : ℚ) (m : Mem) (h : m.load values ≠ []) :
    SamplePercentile values p m =
      some (percentileRule (sortInt64 (m.load values)) p,
        m.store values (sortInt64 (m.load values))) := by
  unfold SamplePercentile
  rw [SamplePercentiles_eq values [p] m h]
  rfl

/-! ### The conversion `float64(values[i])` made explicit -/

theorem index_mem (values : List Int) (i v : Int) (h : index values i = some v) :
    v ∈ values := by
  unfold index at h
  split at h
  · exact absurd h (by simp)
  · exact List.get?_mem h

theorem percentileScoreWith_isSome (conv : Int → ℚ) (values : List Int) (p : ℚ)
    (h : values ≠ []) : ∃ x, percentileScoreWith conv values values.length p = some x := by
  have hlen : 0 < values.length := List.length_pos.mpr h
  simp only [percentileScoreWith, Nat.cast_add, Nat.cast_one, ge_iff_le]
  by_cases h1 : p * ((values.length : ℚ) + 1) < 1
  · rw [if_pos h1, index_of_lt values 0 le_rfl (by simpa using hlen)]
    exact ⟨_, rfl⟩
  · rw [if_neg h1]
    by_cases h2 : (values.length : ℚ) ≤ p * ((values.length : ℚ) + 1)
    · rw [if_pos h2, index_of_lt values _ (by omega) (by omega)]
      exact ⟨_, rfl⟩
    · rw [if_neg h2]
      have hpos1 : (1 : ℚ) ≤ p * ((values.length : ℚ) + 1) := not_lt.mp h1
      have hpos2 : p * ((values.length : ℚ) + 1) < (values.length : ℚ) := not_le.mp h2
      have hf1 : 1 ≤ ⌊p * ((values.length : ℚ) + 1)⌋ := Int.le_floor.mpr (by exact_mod_cast hpos1)
      have hf2 : ⌊p * ((values.length : ℚ) + 1)⌋ < (values.length : Int) :=
        Int.floor_lt.mpr (by exact_mod_cast hpos2)
      have ht : truncToInt (p * ((values.length : ℚ) + 1)) = ⌊p * ((values.length : ℚ) + 1)⌋ := by
        unfold truncToInt
        rw [if_pos (by linarith)]
      rw [ht, index_of_lt values _ (by omega) (by omega), index_of_lt values _ (by omega) (by omega)]
      exact ⟨_, rfl⟩

theorem percentileScoreWith_exact (conv : Int → ℚ) (values : List Int) (size : Nat) (p : ℚ)
    (hconv : ∀ v ∈ values, conv v = (v : ℚ)) :
    percentileScoreWith conv values size p = percentileScore values size p := by
  have hmap : ∀ i, (index values i).map conv = (index values i).map (fun v => (v : ℚ)) := by
    intro i
    cases hi : index values i with
    | none => rfl
    | some v => simp [hconv v (index_mem values i v hi)]
  simp only [percentileScoreWith, percentileScore, hmap]
  split
  · rfl
  · split
    · rfl
    · cases hl : index values (truncToInt (p * ((size + 1 : Nat) : ℚ)) - 1) with
      | none => rfl
      | some lower =>
        cases hu : index values (truncToInt (p * ((size + 1 : Nat) : ℚ))) with
        | none => rfl
        | some upper =>
          simp only [hconv lower (index_mem values _ lower hl),
            hconv upper (index_mem values _ upper hu)]

theorem percentileScoresWith_isSome (conv : Int → ℚ) (values : List Int) (h : values ≠ []) :
    ∀ ps : List ℚ, ∃ scores, percentileScoresWith conv values values.length ps = some scores ∧
      scores.length = ps.length := by
  intro ps
  induction ps with
  | nil => exact ⟨[], rfl, rfl⟩
  | cons p ps ih =>
    obtain ⟨x, hx⟩ := percentileScoreWith_isSome conv values p h
    obtain ⟨scores, hs, hl⟩ := ih
    exact ⟨x :: scores, by simp [percentileScoresWith, hx, hs], by simp [hl]⟩

theorem percentileScoresWith_exact (conv : Int → ℚ) (values : List Int) (size : Nat)
    (hconv : ∀ v ∈ values, conv v = (v : ℚ)) :
    ∀ ps : List ℚ, percentileScoresWith conv values size ps = percentileScores values size ps := by
  intro ps
  induction ps with
  | nil => rfl
  | cons p ps ih =>
    simp only [percentileScoresWith, percentileScores,
      percentileScoreWith_exact conv values size p hconv, ih]

theorem SamplePercentilesWith_isSome (conv : Int → ℚ) (values : Nat) (ps : List ℚ) (m : Mem)
    (h : m.load values ≠ []) :
    ∃ scores, SamplePercentilesWith conv values ps m
        = some (scores, m.store values (sortInt64 (m.load values))) ∧
      scores.length = ps.length := by
  have hlen : (m.load values).length > 0 := List.length_pos.mpr h
  unfold SamplePercentilesWith
  simp only [hlen, if_true, Mem.load_store_same]
  have hs := sortInt64_length (m.load values)
  obtain ⟨scores, h1, h2⟩ := percentileScoresWith_isSome conv _ (sortInt64_ne_nil _ h) ps
  rw [hs] at h1
  exact ⟨scores, by rw [h1]; rfl, h2⟩

theorem SamplePercentilesWith_exact (conv : Int → ℚ) (values : Nat) (ps : List ℚ) (m : Mem)
    (hconv : ∀ v ∈ m.load values, conv v = (v : ℚ)) :
    SamplePercentilesWith conv values ps m = SamplePercentiles values ps m := by
  unfold SamplePercentilesWith SamplePercentiles
  simp only [Mem.load_store_same]
  split
  · rw [percentileScoresWith_exact conv _ _
      (fun v hv => hconv v ((sortInt64_perm (m.load values)).mem_iff.mp hv))]
  · rfl

theorem roundFloat64_exact (v : Int) (h : v.natAbs ≤ 2 ^ 53) : roundFloat64 v = v := by
  rcases Nat.lt_or_ge v.natAbs (2 ^ 53) with hlt | hge
  · have he : (List.range 11).countP (fun i => decide (2 ^ (53 + i) ≤ v.natAbs)) = 0 := by
      rw [List.countP_eq_zero]
      intro i _
      have : 2 ^ 53 ≤ 2 ^ (53 + i) := Nat.pow_le_pow_right (by decide) (by omega)
      simp only [decide_eq_true_eq]
      omega
    simp only [roundFloat64, he, pow_zero, Nat.div_one, Nat.mod_one, mul_zero, mul_one]
    have h1 : ¬ (0 > 1 ∨ (0 = 1 ∧ v.natAbs % 2 = 1)) := by omega
    rw [if_neg h1]
    split <;> omega
  · have hn : v.natAbs = 2 ^ 53 := le_antisymm h hge
    rcases Int.natAbs_eq v with hv | hv
    · rw [hv, hn]; decide
    · rw [hv, hn]; decide

theorem toFloat64_exact (v : Int) (h : v.natAbs ≤ 2 ^ 53) : toFloat64 v = (v : ℚ) := by
  unfold toFloat64
  rw [roundFloat64_exact v h]

/-- C4: on a non-empty slice `SamplePercentiles` returns, for every `ps`, a list of length
`len ps` whose entries follow the interpolation rule over the ascending sort of the values,
and `SamplePercentile values p` is that entry for `ps = [p]`. -/
theorem C4_percentile_rule (values : Nat) (ps : List ℚ) (p : ℚ) (m : Mem)
    (h : m.load values ≠ []) :
    (∃ scores m1, SamplePercentiles values ps m = some (scores, m1) ∧
      scores.length = ps.length ∧
      scores = ps.map (percentileRule (sortInt64 (m.load values)))) ∧
    (∃ m1, SamplePercentile values p m
      = some (percentileRule (sortInt64 (m.load values)) p, m1) ∧
      SamplePercentiles values [p] m
        = some ([percentileRule (sortInt64 (m.load values)) p], m1)) := by
  exact ⟨⟨_, _, SamplePercentiles_eq values ps m h, by simp, rfl⟩,
    ⟨m.store values (sortInt64 (m.load values)), SamplePercentile_eq values p m h,
      SamplePercentiles_eq values [p] m h⟩⟩

/-! ## In-place sort and snapshot isolation -/

theorem Mem.load_copy_make (m : Mem) (src : Nat) (h : src < m.next) :
    ((m.make (m.load src).length).2.copy (m.make (m.load src).length).1 src).load
      (m.make (m.load src).length).1 = m.load src := by
  have hne : src ≠ m.next := by omega
  simp [Mem.make, Mem.copy, Mem.load, Mem.store, Function.update_noteq hne]

theorem Mem.load_copy_make_ne (m : Mem) (src q : Nat) (h : q ≠ m.next) :
    ((m.make (m.load src).length).2.copy (m.make (m.load src).length).1 src).load q
      = m.load q := by
  simp [Mem.make, Mem.copy, Mem.load, Mem.store, Function.update_noteq h]

theorem UniformSample.valuesSeq_eq (s : UniformSample) (m : Mem) (h : s.values < m.next) :
    s.valuesSeq m = m.load s.values :=
  Mem.load_copy_make m s.values h

theorem SampleSnapshot.snapshotValuesSeq_eq (s : SampleSnapshot) (m : Mem) (h : s.values < m.next) :
    s.valuesSeq m = m.load s.values :=
  Mem.load_copy_make m s.values h

theorem SamplePercentiles_nil (values : Nat) (ps : List ℚ) (m : Mem) (h : m.load values = []) :
    SamplePercentiles values ps m = some (List.replicate ps.length 0, m) := by
  simp [SamplePercentiles, h]

theorem SamplePercentiles_scores_congr (values : Nat) (ps : List ℚ) (m m1 : Mem)
    (h : m1.load values = m.load values) :
    (SamplePercentiles values ps m1).map Prod.fst = (SamplePercentiles values ps m).map Prod.fst := by
  by_cases hnil : m.load values = []
  · rw [SamplePercentiles_nil values ps m hnil, SamplePercentiles_nil values ps m1 (h.trans hnil)]
    rfl
  · rw [SamplePercentiles_eq values ps m hnil, SamplePercentiles_eq values ps m1 (by rw [h]; exact hnil),
      h]
    rfl

theorem SamplePercentile_scores_congr (values : Nat) (p : ℚ) (m m1 : Mem)
    (h : m1.load values = m.load values) :
    (SamplePercentile values p m1).map Prod.fst = (SamplePercentile values p m).map Prod.fst := by
  by_cases hnil : m.load values = []
  · simp [SamplePercentile, SamplePercentiles_nil values [p] m hnil,
      SamplePercentiles_nil values [p] m1 (h.trans hnil)]
  · rw [SamplePercentile_eq values p m hnil, SamplePercentile_eq values p m1 (by rw [h]; exact hnil),
      h]
    rfl

/-- What a call of `SamplePercentiles` on a non-empty slice does to the memory. -/
theorem SamplePercentiles_effect (values : Nat) (ps : List ℚ) (m : Mem)
    (h : m.load values ≠ []) :
    ∃ scores m1, SamplePercentiles values ps m = some (scores, m1) ∧
      m1.load values = sortInt64 (m.load values) ∧ m1.next = m.next ∧
      (∀ q, q ≠ values → m1.load q = m.load q) ∧
      scores = ps.map (percentileRule (sortInt64 (m.load values))) := by
  refine ⟨_, _, SamplePercentiles_eq values ps m h, by simp, rfl, fun q hq => ?_, rfl⟩
  exact Mem.load_store_ne m values q _ hq

theorem SamplePercentile_effect (values : Nat) (p : ℚ) (m : Mem)
    (h : m.load values ≠ []) :
    ∃ score m1, SamplePercentile values p m = some (score, m1) ∧
      m1.load values = sortInt64 (m.load values) ∧ m1.next = m.next ∧
      (∀ q, q ≠ values → m1.load q = m.load q) ∧
      score = percentileRule (sortInt64 (m.load values)) p := by
  refine ⟨_, _, SamplePercentile_eq values p m h, by simp, rfl, fun q hq => ?_, rfl⟩
  exact Mem.load_store_ne m values q _ hq

/-- C5 (as stated) fails: after `NewUniformSample(2)`, `Update(2)`, `Update(1)` the sequence
returned by `Values()` is `[2, 1]`, and after `Percentiles([1/2])` it is `[1, 2]`. -/
theorem C5_counterexample :
    ∃ (s0 s : UniformSample) (m0 m m1 : Mem) (scores : List ℚ),
      NewUniformSample false 2 Mem.empty = some (Sample.uniform s0, m0) ∧
      s0.UpdateAll m0 [(2, 0), (1, 0)] = some (s, m) ∧
      s.Percentiles [1 / 2] m = some (scores, m1) ∧
      s.valuesSeq m = [2, 1] ∧ s.valuesSeq m1 = [1, 2] ∧ s.valuesSeq m1 ≠ s.valuesSeq m := by
  refine ⟨⟨0, 2, 0⟩, ⟨2, 2, 0⟩, (Mem.empty.make 0).2,
    ((Mem.empty.make 0).2.store 0 [2]).store 0 [2, 1], _, _, rfl, rfl,
    SamplePercentiles_eq 0 [1 / 2] _ (by simp), ?_, ?_, ?_⟩
  · rw [UniformSample.valuesSeq_eq _ _ (by simp [Mem.make, Mem.empty])]
    simp
  · rw [UniformSample.valuesSeq_eq _ _ (by simp [Mem.make, Mem.empty])]
    simp [sortInt64]
  · rw [UniformSample.valuesSeq_eq _ _ (by simp [Mem.make, Mem.empty]),
      UniformSample.valuesSeq_eq _ _ (by simp [Mem.make, Mem.empty])]
    simp [sortInt64]

/-- C5 (amended): on a live sample or a snapshot with a non-empty value sequence,
`Percentiles(ps)` and `Percentile(p)` sort the stored values in place: afterwards `Values()`
returns the ascending sort of what it returned before (the same multiset), every other
slice is untouched, and the statistic returned is a function of the value sequence only. -/
theorem C5_percentiles_sort_in_place (s : UniformSample) (t : SampleSnapshot) (ps : List ℚ)
    (p : ℚ) (m : Mem) (hs : s.values < m.next) (ht : t.values < m.next)
    (hsne : m.load s.values ≠ []) (htne : m.load t.values ≠ []) :
    (∃ scores m1, s.Percentiles ps m = some (scores, m1) ∧
      s.valuesSeq m1 = sortInt64 (s.valuesSeq m) ∧ (s.valuesSeq m1).Perm (s.valuesSeq m) ∧
      (∀ q, q ≠ s.values → m1.load q = m.load q) ∧
      scores = ps.map (percentileRule (sortInt64 (s.valuesSeq m)))) ∧
    (∃ score m1, s.Percentile p m = some (score, m1) ∧
      s.valuesSeq m1 = sortInt64 (s.valuesSeq m) ∧ (s.valuesSeq m1).Perm (s.valuesSeq m) ∧
      (∀ q, q ≠ s.values → m1.load q = m.load q) ∧
      score = percentileRule (sortInt64 (s.valuesSeq m)) p) ∧
    (∃ scores m1, t.Percentiles ps m = some (scores, m1) ∧
      t.valuesSeq m1 = sortInt64 (t.valuesSeq m) ∧ (t.valuesSeq m1).Perm (t.valuesSeq m) ∧
      (∀ q, q ≠ t.values → m1.load q = m.load q) ∧
      scores = ps.map (percentileRule (sortInt64 (t.valuesSeq m)))) ∧
    (∃ score m1, t.Percentile p m = some (score, m1) ∧
      t.valuesSeq m1 = sortInt64 (t.valuesSeq m) ∧ (t.valuesSeq m1).Perm (t.valuesSeq m) ∧
      (∀ q, q ≠ t.values → m1.load q = m.load q) ∧
      score = percentileRule (sortInt64 (t.valuesSeq m)) p) := by
  rw [UniformSample.valuesSeq_eq s m hs, SampleSnapshot.snapshotValuesSeq_eq t m ht]
  refine ⟨?_, ?_, ?_, ?_⟩
  · obtain ⟨scores, m1, h1, h2, h3, h4, h5⟩ := SamplePercentiles_effect s.values ps m hsne
    refine ⟨scores, m1, h1, ?_, ?_, h4, h5⟩
    · rw [UniformSample.valuesSeq_eq s m1 (by rw [h3]; exact hs), h2]
    · rw [UniformSample.valuesSeq_eq s m1 (by rw [h3]; exact hs), h2]
      exact sortInt64_perm _
  · obtain ⟨score, m1, h1, h2, h3, h4, h5⟩ := SamplePercentile_effect s.values p m hsne
    refine ⟨score, m1, h1, ?_, ?_, h4, h5⟩
    · rw [UniformSample.valuesSeq_eq s m1 (by rw [h3]; exact hs), h2]
    · rw [UniformSample.valuesSeq_eq s m1 (by rw [h3]; exact hs), h2]
      exact sortInt64_perm _
  · obtain ⟨scores, m1, h1, h2, h3, h4, h5⟩ := SamplePercentiles_effect t.values ps m htne
    refine ⟨scores, m1, h1, ?_, ?_, h4, h5⟩
    · rw [SampleSnapshot.snapshotValuesSeq_eq t m1 (by rw [h3]; exact ht), h2]
    · rw [SampleSnapshot.snapshotValuesSeq_eq t m1 (by rw [h3]; exact ht), h2]
      exact sortInt64_perm _
  · obtain ⟨score, m1, h1, h2, h3, h4, h5⟩ := SamplePercentile_effect t.values p m htne
    refine ⟨score, m1, h1, ?_, ?_, h4, h5⟩
    · rw [SampleSnapshot.snapshotValuesSeq_eq t m1 (by rw [h3]; exact ht), h2]
    · rw [SampleSnapshot.snapshotValuesSeq_eq t m1 (by rw [h3]; exact ht), h2]
      exact sortInt64_perm _

theorem UniformSample.apply_frame (s s1 : UniformSample) (m m1 : Mem) (op : SampleOp)
    (t : Nat) (h : s.apply m op = some (s1, m1)) (hs : s.values < m.next) (ht : t < m.next)
    (hne : s.values ≠ t) :
    s1.values < m1.next ∧ t < m1.next ∧ s1.values ≠ t ∧ m1.load t = m.load t := by
  cases op with
  | update v src =>
    simp only [UniformSample.apply, UniformSample.Update] at h
    split at h
    · simp only [Option.some.injEq, Prod.mk.injEq] at h
      obtain ⟨rfl, rfl⟩ := h
      exact ⟨hs, ht, hne, Mem.load_store_ne m _ t _ (Ne.symm hne)⟩
    · split at h
      · exact absurd h (by simp)
      · split at h
        · simp only [Option.some.injEq, Prod.mk.injEq] at h
          obtain ⟨rfl, rfl⟩ := h
          exact ⟨hs, ht, hne, Mem.load_store_ne m _ t _ (Ne.symm hne)⟩
        · simp only [Option.some.injEq, Prod.mk.injEq] at h
          obtain ⟨rfl, rfl⟩ := h
          exact ⟨hs, ht, hne, rfl⟩
  | clear =>
    simp only [UniformSample.apply, UniformSample.Clear] at h
    split at h
    · exact absurd h (by simp)
    · simp only [Mem.make, Option.some.injEq, Prod.mk.injEq] at h
      obtain ⟨rfl, rfl⟩ := h
      have htn : t ≠ m.next := by omega
      refine ⟨Nat.lt_succ_self _, by show t < m.next + 1; omega, fun e => htn e.symm, ?_⟩
      simp [Mem.load, Function.update_noteq htn]

theorem UniformSample.applyAll_frame (ops : List SampleOp) (t : Nat) :
    ∀ (s s1 : UniformSample) (m m1 : Mem), s.applyAll m ops = some (s1, m1) →
      s.values < m.next → t < m.next → s.values ≠ t →
      t < m1.next ∧ m1.load t = m.load t := by
  induction ops with
  | nil =>
    intro s s1 m m1 h _ ht _
    simp only [UniformSample.applyAll, Option.some.injEq, Prod.mk.injEq] at h
    rw [← h.2]
    exact ⟨ht, rfl⟩
  | cons op ops ih =>
    intro s s1 m m1 h hs ht hne
    simp only [UniformSample.applyAll] at h
    cases hop : s.apply m op with
    | none => rw [hop] at h; exact absurd h (by simp)
    | some r =>
      obtain ⟨s2, m2⟩ := r
      rw [hop] at h
      obtain ⟨hs2, ht2, hne2, hl2⟩ := UniformSample.apply_frame s s2 m m2 op t hop hs ht hne
      obtain ⟨ht1, hl1⟩ := ih s2 s1 m2 m1 h hs2 ht2 hne2
      exact ⟨ht1, by rw [hl1, hl2]⟩

/-- C6: the snapshot `t = s.Snapshot()` has the count and the values of `s` at that instant,
and after any later sequence of `Update` and `Clear` calls on `s` the values of `t` and every
statistic of `t` are what they were right after the snapshot was taken (`s.values < m.next`
says that the slice of `s` is allocated). -/
theorem C6_snapshot_isolation (sqrt : ℚ → ℚ) (s s2 : UniformSample) (m m2 : Mem)
    (ops : List SampleOp) (hs : s.values < m.next)
    (hrun : s.applyAll (s.Snapshot m).2 ops = some (s2, m2)) :
    ((s.Snapshot m).1.Count = s.Count ∧
      (s.Snapshot m).1.valuesSeq (s.Snapshot m).2 = s.valuesSeq m) ∧
    (s.Snapshot m).1.valuesSeq m2 = (s.Snapshot m).1.valuesSeq (s.Snapshot m).2 ∧
    (s.Snapshot m).1.Min m2 = (s.Snapshot m).1.Min (s.Snapshot m).2 ∧
    (s.Snapshot m).1.Max m2 = (s.Snapshot m).1.Max (s.Snapshot m).2 ∧
    (s.Snapshot m).1.Mean m2 = (s.Snapshot m).1.Mean (s.Snapshot m).2 ∧
    (s.Snapshot m).1.Sum m2 = (s.Snapshot m).1.Sum (s.Snapshot m).2 ∧
    (s.Snapshot m).1.Variance m2 = (s.Snapshot m).1.Variance (s.Snapshot m).2 ∧
    (s.Snapshot m).1.StdDev sqrt m2 = (s.Snapshot m).1.StdDev sqrt (s.Snapshot m).2 ∧
    (s.Snapshot m).1.Size m2 = (s.Snapshot m).1.Size (s.Snapshot m).2 ∧
    (∀ ps, ((s.Snapshot m).1.Percentiles ps m2).map Prod.fst
      = ((s.Snapshot m).1.Percentiles ps (s.Snapshot m).2).map Prod.fst) ∧
    (∀ p, ((s.Snapshot m).1.Percentile p m2).map Prod.fst
      = ((s.Snapshot m).1.Percentile p (s.Snapshot m).2).map Prod.fst) := by
  have htv : (s.Snapshot m).1.values = m.next := rfl
  have hn1 : (s.Snapshot m).2.next = m.next + 1 := rfl
  have hload : (s.Snapshot m).2.load (s.Snapshot m).1.values = m.load s.values :=
    Mem.load_copy_make m s.values hs
  obtain ⟨hn2, hframe⟩ :=
    UniformSample.applyAll_frame ops (s.Snapshot m).1.values s s2 _ m2 hrun
      (by rw [hn1]; omega) (by rw [hn1, htv]; omega) (by rw [htv]; omega)
  refine ⟨⟨rfl, ?_⟩, ?_, ?_, ?_, ?_, ?_, ?_, ?_, ?_, ?_, ?_⟩
  · rw [SampleSnapshot.snapshotValuesSeq_eq _ _ (by rw [hn1, htv]; omega), hload,
      UniformSample.valuesSeq_eq s m hs]
  · rw [SampleSnapshot.snapshotValuesSeq_eq _ _ hn2, SampleSnapshot.snapshotValuesSeq_eq _ _ (by rw [hn1, htv]; omega),
      hframe]
  · simp only [SampleSnapshot.Min, hframe]
  · simp only [SampleSnapshot.Max, hframe]
  · simp only [SampleSnapshot.Mean, hframe]
  · simp only [SampleSnapshot.Sum, hframe]
  · simp only [SampleSnapshot.Variance, hframe]
  · simp only [SampleSnapshot.StdDev, hframe]
  · simp only [SampleSnapshot.Size, hframe]
  · intro ps
    exact SamplePercentiles_scores_congr _ ps _ m2 hframe
  · intro p
    exact SamplePercentile_scores_congr _ p _ m2 hframe

/-! ## Witnesses -/

/-- C3 at a full reservoir `[5, 6]` with count 2, the value 7 and the draw 1. -/
theorem C3_Update_cases_witness :
    (((Mem.empty.store 0 [5, 6]).load 0).length : Int) ≤ 2 ∧
    UniformSample.Update ⟨2, 2, 0⟩ 7 1 (Mem.empty.store 0 [5, 6])
      = some (⟨2 + 1, 2, 0⟩,
          (Mem.empty.store 0 [5, 6]).store 0 (((Mem.empty.store 0 [5, 6]).load 0).set 1 7)) :=
  ⟨by decide,
    ((C3_Update_cases ⟨2, 2, 0⟩ (Mem.empty.store 0 [5, 6]) 7 (by decide) (by decide)
      (by decide)).2 (by decide) 1 (by decide)).1 (by decide)⟩

/-- C4 at the values `3, 1, 2` and the percentiles `1/2, 0, 1`. -/
theorem C4_percentile_rule_witness :
    ∃ scores m1, SamplePercentiles 0 [1 / 2, 0, 1] (Mem.empty.store 0 [3, 1, 2])
        = some (scores, m1) ∧
      scores.length = ([1 / 2, 0, 1] : List ℚ).length ∧
      scores = ([1 / 2, 0, 1] : List ℚ).map
        (percentileRule (sortInt64 ((Mem.empty.store 0 [3, 1, 2]).load 0))) :=
  (C4_percentile_rule 0 [1 / 2, 0, 1] (1 / 2) (Mem.empty.store 0 [3, 1, 2]) (by decide)).1

/-- C5 (amended) at a sample holding `[2, 1]` and the percentile `1/2`. -/
theorem C5_percentiles_sort_in_place_witness :
    ∃ scores m1, UniformSample.Percentiles ⟨2, 2, 0⟩ [1 / 2]
        ((Mem.empty.make 0).2.store 0 [2, 1]) = some (scores, m1) ∧
      UniformSample.valuesSeq ⟨2, 2, 0⟩ m1
        = sortInt64 (UniformSample.valuesSeq ⟨2, 2, 0⟩ ((Mem.empty.make 0).2.store 0 [2, 1])) ∧
      (UniformSample.valuesSeq ⟨2, 2, 0⟩ m1).Perm
        (UniformSample.valuesSeq ⟨2, 2, 0⟩ ((Mem.empty.make 0).2.store 0 [2, 1])) ∧
      (∀ q, q ≠ (⟨2, 2, 0⟩ : UniformSample).values →
        m1.load q = ((Mem.empty.make 0).2.store 0 [2, 1]).load q) ∧
      scores = ([1 / 2] : List ℚ).map (percentileRule (sortInt64
        (UniformSample.valuesSeq ⟨2, 2, 0⟩ ((Mem.empty.make 0).2.store 0 [2, 1])))) :=
  (C5_percentiles_sort_in_place ⟨2, 2, 0⟩ ⟨2, 0⟩ [1 / 2] (1 / 2)
    ((Mem.empty.make 0).2.store 0 [2, 1]) (by decide) (by decide) (by decide) (by decide)).1

/-- C6 at a sample holding `[5]`, snapshotted, then updated, cleared and updated again. -/
theorem C6_snapshot_isolation_witness :
    (UniformSample.Snapshot ⟨1, 1, 0⟩ ((Mem.empty.make 0).2.store 0 [5])).1.valuesSeq
        ((UniformSample.applyAll ⟨1, 1, 0⟩
          (UniformSample.Snapshot ⟨1, 1, 0⟩ ((Mem.empty.make 0).2.store 0 [5])).2
          [SampleOp.update 6 0, SampleOp.clear, SampleOp.update 7 0]).getD
            (⟨1, 1, 0⟩, Mem.empty)).2
      = (UniformSample.Snapshot ⟨1, 1, 0⟩ ((Mem.empty.make 0).2.store 0 [5])).1.valuesSeq
          (UniformSample.Snapshot ⟨1, 1, 0⟩ ((Mem.empty.make 0).2.store 0 [5])).2 :=
  (C6_snapshot_isolation id ⟨1, 1, 0⟩ _ ((Mem.empty.make 0).2.store 0 [5]) _
    [SampleOp.update 6 0, SampleOp.clear, SampleOp.update 7 0] (by decide) (by rfl)).2.1

/-! ## Registry -/

theorem rangeOrder_perm {α : Type} (seed : Nat) (entries : List α) :
    (rangeOrder seed entries).Perm entries := by
  have hmem : entries ∈ List.permutations' entries := List.mem_permutations'.mpr (List.Perm.refl _)
  have hpos : 0 < (List.permutations' entries).length := List.length_pos_of_mem hmem
  have hlt : seed % (List.permutations' entries).length < (List.permutations' entries).length :=
    Nat.mod_lt _ hpos
  unfold rangeOrder
  rw [List.getD_eq_getElem _ _ hlt]
  exact List.mem_permutations'.mp (List.getElem_mem hlt)

theorem rangeOrder_complete {α : Type} (entries order : List α) (h : order.Perm entries) :
    ∃ seed : Nat, rangeOrder seed entries = order := by
  obtain ⟨i, hi, hio⟩ := List.getElem_of_mem (List.mem_permutations'.mpr h)
  refine ⟨i, ?_⟩
  unfold rangeOrder
  rw [Nat.mod_eq_of_lt hi, List.getD_eq_getElem _ _ hi]
  exact hio

theorem foldl_insert_entries (l : List (Sigma (fun _ : String => Metric))) :
    ∀ s : MetricMap, (∀ e ∈ l, e.1 ∉ s) → l.NodupKeys →
      (l.foldl (fun metrics e => metrics.insert e.1 e.2) s).entries = l.reverse ++ s.entries := by
  induction l with
  | nil => intro s _ _; rfl
  | cons e l ih =>
    intro s hs hnd
    rw [List.nodupKeys_cons] at hnd
    have he : e.1 ∉ s := hs e (List.mem_cons_self e l)
    rw [List.foldl_cons, ih (s.insert e.1 e.2) ?_ hnd.2]
    · rw [AList.insert_entries_of_neg he, List.reverse_cons, List.append_assoc]
      rfl
    · intro e1 he1 hmem
      rcases (AList.mem_insert s).mp hmem with h | h
      · exact hnd.1 (h ▸ List.mem_keys_of_mem he1)
      · exact hs e1 (List.mem_cons_of_mem e he1) h

theorem StandardRegistry.registered_perm (r : StandardRegistry) (seed : Nat) :
    (r.registered seed).entries.Perm r.metrics.entries := by
  have hp := rangeOrder_perm seed r.metrics.entries
  unfold StandardRegistry.registered
  rw [foldl_insert_entries _ ∅ (fun e _ => AList.not_mem_empty e.1)
    ((List.perm_nodupKeys hp).mpr r.metrics.nodupKeys)]
  simpa using (List.reverse_perm _).trans hp

theorem foldl_recording {σ : Type} (fn : String → Metric → σ → σ)
    (l : List (Sigma (fun _ : String => Metric))) :
    ∀ (w : σ) (log : List (String × Metric)),
      l.foldl (fun w e => recording fn e.1 e.2 w) (w, log)
        = (l.foldl (fun w e => fn e.1 e.2 w) w, log ++ l.map (fun e => (e.1, e.2))) := by
  induction l with
  | nil => intro w log; simp
  | cons e l ih =>
    intro w log
    rw [List.foldl_cons, List.foldl_cons]
    have e1 : recording fn e.1 e.2 (w, log) = (fn e.1 e.2 w, log ++ [(e.1, e.2)]) := rfl
    rw [e1, ih]
    simp

theorem MetricMap.mem_pairs (metrics : MetricMap) (name : String) (m : Metric) :
    (name, m) ∈ metrics.pairs ↔ metrics.lookup name = some m := by
  rw [← Option.mem_def, AList.mem_lookup_iff]
  unfold MetricMap.pairs
  constructor
  · intro h
    obtain ⟨e, he, heq⟩ := List.mem_map.mp h
    obtain ⟨k, v⟩ := e
    simp only [Prod.mk.injEq] at heq
    obtain ⟨rfl, rfl⟩ := heq
    exact he
  · intro h
    exact List.mem_map.mpr ⟨⟨name, m⟩, h, rfl⟩

theorem MetricMap.nodup_pairs (metrics : MetricMap) : metrics.pairs.Nodup := by
  unfold MetricMap.pairs
  refine metrics.nodupKeys.nodup.map ?_
  intro a b hab
  obtain ⟨k, v⟩ := a
  obtain ⟨k2, v2⟩ := b
  simp only [Prod.mk.injEq] at hab
  obtain ⟨rfl, rfl⟩ := hab
  rfl

theorem length_filter_eq_of_nodup {α : Type} [DecidableEq α] (a : α) :
    ∀ l : List α, l.Nodup →
      (l.filter (fun p => decide (p = a))).length = if a ∈ l then 1 else 0 := by
  intro l
  induction l with
  | nil => intro _; simp
  | cons b l ih =>
    intro hnd
    rw [List.nodup_cons] at hnd
    by_cases hb : b = a
    · subst hb
      simp [List.filter_cons, ih hnd.2, hnd.1]
    · have hab : ¬ a = b := fun e => hb e.symm
      simp [List.filter_cons, hb, hab, ih hnd.2]

theorem invocations_of_perm (log : List (String × Metric)) (metrics : MetricMap)
    (h : log.Perm metrics.pairs) (name : String) (m : Metric) :
    invocations log name m = if metrics.lookup name = some m then 1 else 0 := by
  unfold invocations
  rw [(h.filter _).length_eq, length_filter_eq_of_nodup _ _ (MetricMap.nodup_pairs _)]
  simp only [MetricMap.mem_pairs]

/-- What `Each` does with a recording callback: the state evolves as without the recording,
and the invocations recorded are a rearrangement of the pairs registered at the call. -/
theorem StandardRegistry.Each_recording {σ : Type} (reg : σ → StandardRegistry)
    (fn : String → Metric → σ → σ) (seed1 seed2 : Nat) (w : σ) :
    (StandardRegistry.Each (fun x => reg x.1) (recording fn) seed1 seed2 (w, [])).1
        = StandardRegistry.Each reg fn seed1 seed2 w ∧
    (StandardRegistry.Each (fun x => reg x.1) (recording fn) seed1 seed2 (w, [])).2.Perm
        (reg w).metrics.pairs := by
  unfold StandardRegistry.Each
  simp only [foldl_recording, List.nil_append, true_and]
  unfold MetricMap.pairs
  exact ((rangeOrder_perm seed2 _).trans (StandardRegistry.registered_perm _ seed1)).map _

theorem StandardRegistry.register_of_mem (r : StandardRegistry) (name : String) (m : Metric)
    (h : name ∈ r.metrics) : r.register name m = (some name, r) := by
  obtain ⟨x, hx⟩ := Option.isSome_iff_exists.mp (AList.lookup_isSome.mpr h)
  simp [StandardRegistry.register, hx]

theorem StandardRegistry.register_of_not_mem (r : StandardRegistry) (name : String) (m : Metric)
    (h : name ∉ r.metrics) :
    r.register name m = (none, { metrics := r.metrics.insert name m }) := by
  simp [StandardRegistry.register, AList.lookup_eq_none.mpr h]

/-- C7: `Register(name, m)` returns the error `DuplicateMetric(name)` exactly when `name` is
already registered, and then leaves the registry as it was; otherwise it returns no error,
`Get(name)` then returns `m`, and the entry of every other name is unchanged. -/
theorem C7_register_duplicate (r : StandardRegistry) (name : String) (m : Metric) :
    ((r.Register name m).1 = some name ↔ name ∈ r.metrics) ∧
    ((r.Register name m).1 = none ↔ name ∉ r.metrics) ∧
    (name ∈ r.metrics → (r.Register name m).2 = r ∧
      (r.Register name m).2.Get name = r.Get name) ∧
    (name ∉ r.metrics → (r.Register name m).2.Get name = m ∧
      (r.Register name m).2.metrics.lookup name = some m ∧
      ∀ other, other ≠ name →
        (r.Register name m).2.metrics.lookup other = r.metrics.lookup other ∧
        (r.Register name m).2.Get other = r.Get other) := by
  unfold StandardRegistry.Register
  by_cases h : name ∈ r.metrics
  · rw [StandardRegistry.register_of_mem r name m h]
    simp [h]
  · rw [StandardRegistry.register_of_not_mem r name m h]
    simp only [h, not_false_eq_true, iff_true, false_implies, true_implies, true_and,
      iff_false]
    refine ⟨by simp, ?_, AList.lookup_insert _, fun other ho => ?_⟩
    · simp [StandardRegistry.Get, AList.lookup_insert]
    · simp [StandardRegistry.Get, AList.lookup_insert_ne ho]

theorem StandardRegistry.GetOrRegister_of_lookup (call : Nat → List Nat → Metric)
    (r : StandardRegistry) (log : List Nat) (name : String) (m x : Metric)
    (h : r.metrics.lookup name = some x) :
    r.GetOrRegister call log name m = some (x, r, log) := by
  simp [StandardRegistry.GetOrRegister, h]

theorem StandardRegistry.GetOrRegisterAll_of_lookup (call : Nat → List Nat → Metric)
    (r : StandardRegistry) (log : List Nat) (name : String) (x : Metric)
    (h : r.metrics.lookup name = some x) :
    ∀ ms : List Metric, StandardRegistry.GetOrRegisterAll call name r log ms
      = some (List.replicate ms.length x, r, log) := by
  intro ms
  induction ms with
  | nil => rfl
  | cons m ms ih =>
    simp only [StandardRegistry.GetOrRegisterAll,
      StandardRegistry.GetOrRegister_of_lookup call r log name m x h, ih]
    rfl

/-- C8: when `name` is absent, successive `GetOrRegister(name, …)` calls whose first
argument is a zero-argument factory invoke that factory exactly once, all return the one
metric it made, and store exactly that one entry under `name`, leaving the other names as they
were; when `name` is registered, `GetOrRegister` returns the existing metric, invokes nothing
and leaves the registry unchanged. -/
theorem C8_getOrRegister_once (call : Nat → List Nat → Metric) (r : StandardRegistry)
    (log : List Nat) (name : String) (id numOut : Nat) (rest : List Metric)
    (h : name ∉ r.metrics) :
    (∃ r1, StandardRegistry.GetOrRegisterAll call name r log
        (Metric.func id 0 (numOut + 1) :: rest)
        = some (List.replicate (rest.length + 1) (call id log), r1, log ++ [id]) ∧
      r1.metrics.lookup name = some (call id log) ∧ r1.Get name = call id log ∧
      r1.metrics.keys.count name = 1 ∧
      ∀ other, other ≠ name → r1.metrics.lookup other = r.metrics.lookup other) ∧
    (∀ (r2 : StandardRegistry) (x m : Metric), r2.metrics.lookup name = some x →
      r2.GetOrRegister call log name m = some (x, r2, log)) := by
  refine ⟨⟨{ metrics := r.metrics.insert name (call id log) }, ?_, AList.lookup_insert _, ?_,
    ?_, fun other ho => AList.lookup_insert_ne ho⟩,
    fun r2 x m hx => StandardRegistry.GetOrRegister_of_lookup call r2 log name m x hx⟩
  · have h1 : r.GetOrRegister call log name (Metric.func id 0 (numOut + 1))
        = some (call id log, { metrics := r.metrics.insert name (call id log) }, log ++ [id]) := by
      simp [StandardRegistry.GetOrRegister, AList.lookup_eq_none.mpr h,
        StandardRegistry.register_of_not_mem r name _ h]
    have h2 := StandardRegistry.GetOrRegisterAll_of_lookup call
      { metrics := r.metrics.insert name (call id log) } (log ++ [id]) name (call id log)
      (AList.lookup_insert _) rest
    simp only [StandardRegistry.GetOrRegisterAll, h1, h2]
    rfl
  · simp [StandardRegistry.Get, AList.lookup_insert]
  · exact List.count_eq_one_of_mem (AList.keys_nodup _)
      (AList.mem_keys.mp ((AList.mem_insert _).mpr (Or.inl rfl)))

/-- C9: `Each(fn)` invokes `fn` exactly once for each `(name, metric)` pair registered when
`Each` is called and for no other pair, whatever `fn` does to the registry meanwhile and
whatever the range orders. -/
theorem C9_each_visits_snapshot {σ : Type} (reg : σ → StandardRegistry)
    (fn : String → Metric → σ → σ) (seed1 seed2 : Nat) (w : σ) :
    (StandardRegistry.Each (fun x => reg x.1) (recording fn) seed1 seed2 (w, [])).2.Perm
        (reg w).metrics.pairs ∧
    (∀ name m,
      invocations (StandardRegistry.Each (fun x => reg x.1) (recording fn) seed1 seed2 (w, [])).2
          name m
        = if (reg w).metrics.lookup name = some m then 1 else 0) ∧
    (StandardRegistry.Each (fun x => reg x.1) (recording fn) seed1 seed2 (w, [])).1
        = StandardRegistry.Each reg fn seed1 seed2 w := by
  obtain ⟨h1, h2⟩ := StandardRegistry.Each_recording reg fn seed1 seed2 w
  exact ⟨h2, fun name m => invocations_of_perm _ _ h2 name m, h1⟩

/-- C10: `Unregister(name)` removes the entry of `name` and changes no other entry; on an
absent name it changes nothing; applied twice it does what it does once; afterwards
`Get(name)` is nil and `Each` does not visit `name`. -/
theorem C10_unregister (r : StandardRegistry) (name : String) :
    (r.Unregister name).metrics.lookup name = none ∧
    (∀ other, other ≠ name →
      (r.Unregister name).metrics.lookup other = r.metrics.lookup other) ∧
    (name ∉ r.metrics → r.Unregister name = r) ∧
    (r.Unregister name).Unregister name = r.Unregister name ∧
    (r.Unregister name).Get name = Metric.nil ∧
    (∀ (σ : Type) (reg : σ → StandardRegistry) (fn : String → Metric → σ → σ)
      (seed1 seed2 : Nat) (w : σ), reg w = r.Unregister name → ∀ m,
        (name, m) ∉
          (StandardRegistry.Each (fun x => reg x.1) (recording fn) seed1 seed2 (w, [])).2) := by
  have hnone : (r.Unregister name).metrics.lookup name = none := AList.lookup_erase name _
  have habsent : ∀ r1 : StandardRegistry, name ∉ r1.metrics → r1.Unregister name = r1 := by
    intro r1 h1
    have : r1.metrics.erase name = r1.metrics :=
      AList.ext (List.kerase_of_not_mem_keys (AList.mem_keys.mp.mt h1))
    simp [StandardRegistry.Unregister, this]
  refine ⟨hnone, fun other ho => AList.lookup_erase_ne ho, habsent r,
    habsent _ (AList.lookup_eq_none.mp hnone), by simp [StandardRegistry.Get, hnone], ?_⟩
  intro σ reg fn seed1 seed2 w hw m hmem
  have hp := (StandardRegistry.Each_recording reg fn seed1 seed2 w).2
  have := (MetricMap.mem_pairs _ name m).mp (hp.mem_iff.mp hmem)
  rw [hw, hnone] at this
  exact absurd this (by simp)

/-- C8 at an empty registry and three callers for the name `foo`. -/
theorem C8_getOrRegister_once_witness :
    ∃ r1, StandardRegistry.GetOrRegisterAll (fun _ log => Metric.ref log.length) "foo"
        NewRegistry [] (Metric.func 7 0 (0 + 1) :: [Metric.func 7 0 1, Metric.func 8 0 1])
        = some (List.replicate (([Metric.func 7 0 1, Metric.func 8 0 1] : List Metric).length + 1)
            ((fun (_ : Nat) (log : List Nat) => Metric.ref log.length) 7 []), r1, [] ++ [7]) ∧
      r1.metrics.lookup "foo" = some ((fun (_ : Nat) (log : List Nat) => Metric.ref log.length) 7 []) ∧
      r1.Get "foo" = (fun (_ : Nat) (log : List Nat) => Metric.ref log.length) 7 [] ∧
      r1.metrics.keys.count "foo" = 1 ∧
      ∀ other, other ≠ "foo" → r1.metrics.lookup other = NewRegistry.metrics.lookup other :=
  (C8_getOrRegister_once (fun _ log => Metric.ref log.length) NewRegistry [] "foo" 7 0
    [Metric.func 7 0 1, Metric.func 8 0 1] (by decide)).1

/-! ## UnregisterAll -/

theorem foldl_erase_keys (l : List String) :
    ∀ s : MetricMap, (∀ k ∈ s.keys, k ∈ l) →
      (l.foldl (fun metrics name => metrics.erase name) s).entries = [] := by
  induction l with
  | nil =>
    intro s hs
    have hk : s.keys = [] := List.eq_nil_iff_forall_not_mem.mpr (fun k hk => by simpa using hs k hk)
    simpa [AList.keys, List.keys] using hk
  | cons a l ih =>
    intro s hs
    rw [List.foldl_cons]
    apply ih
    intro k hk
    rw [AList.keys_erase] at hk
    have hmem : k ∈ s.keys := List.mem_of_mem_erase hk
    have hne : k ≠ a := by
      rintro rfl
      exact (List.Nodup.not_mem_erase s.keys_nodup) hk
    rcases List.mem_cons.mp (hs k hmem) with h | h
    · exact absurd h hne
    · exact h

theorem StandardRegistry.UnregisterAll_eq (r : StandardRegistry) (seed : Nat) :
    r.UnregisterAll seed = NewRegistry := by
  have h := foldl_erase_keys (rangeOrder seed r.metrics.keys) r.metrics
    (fun k hk => (rangeOrder_perm seed r.metrics.keys).mem_iff.mpr hk)
  unfold StandardRegistry.UnregisterAll NewRegistry
  congr 1
  exact AList.ext h

/-- C11: after `UnregisterAll()` the registry is empty, whatever it held and whatever the
range order: `Each` invokes its callback zero times and `Get` returns nil for every name. -/
theorem C11_unregisterAll_empties (r : StandardRegistry) (seed : Nat) :
    (r.UnregisterAll seed).metrics.entries = [] ∧
    (∀ name, (r.UnregisterAll seed).Get name = Metric.nil) ∧
    (∀ (σ : Type) (reg : σ → StandardRegistry) (fn : String → Metric → σ → σ)
      (seed1 seed2 : Nat) (w : σ), reg w = r.UnregisterAll seed →
        (StandardRegistry.Each (fun x => reg x.1) (recording fn) seed1 seed2 (w, [])).2 = [] ∧
        StandardRegistry.Each reg fn seed1 seed2 w = w) := by
  rw [StandardRegistry.UnregisterAll_eq]
  refine ⟨rfl, fun name => rfl, ?_⟩
  intro σ reg fn seed1 seed2 w hw
  obtain ⟨h1, h2⟩ := StandardRegistry.Each_recording reg fn seed1 seed2 w
  rw [hw] at h2
  have hnil : (StandardRegistry.Each (fun x => reg x.1) (recording fn) seed1 seed2 (w, [])).2
      = [] := List.Perm.eq_nil h2
  refine ⟨hnil, ?_⟩
  have hreg : ((reg w).registered seed1).entries = [] := by
    have hp := StandardRegistry.registered_perm (reg w) seed1
    have e : (reg w).metrics.entries = [] := by rw [hw]; rfl
    rw [e] at hp
    exact List.Perm.eq_nil hp
  unfold StandardRegistry.Each
  rw [hreg, List.Perm.eq_nil (rangeOrder_perm seed2 ([] : List (Sigma fun _ : String => Metric)))]
  rfl

/-! ## Multi metric: GetOrAdd, snapshot mutators, NewRegisteredMultiMetric -/

theorem MapMem.storeMetrics_self (h : MapMem) (a : Nat) :
    h.storeMetrics a (h.metrics a) = h := by
  simp [MapMem.storeMetrics]

theorem StandardMultiMetric.GetOrAdd_eq (call : Nat → List Nat → Metric)
    (mm : StandardMultiMetric) (log : List Nat) (name : String) (m : Metric) (h : MapMem) :
    mm.GetOrAdd call log name m h
      = (StandardRegistry.GetOrRegister call { metrics := h.metrics mm.metrics } log name m).map
          (fun res => (res.1, h.storeMetrics mm.metrics res.2.1.metrics, res.2.2)) := by
  unfold StandardMultiMetric.GetOrAdd StandardRegistry.GetOrRegister
  cases hl : (h.metrics mm.metrics).lookup name with
  | some x => simp [MapMem.storeMetrics_self]
  | none =>
    have hreg : ∀ x : Metric, (StandardRegistry.register { metrics := h.metrics mm.metrics } name x).2
        = { metrics := (h.metrics mm.metrics).insert name x } := by
      intro x
      simp [StandardRegistry.register, hl]
    cases m with
    | func id numIn numOut =>
      by_cases hc : numIn ≠ 0 ∨ numOut = 0
      · simp [hc]
      · simp [hc, hreg, MapMem.setMetric, MapMem.storeMetrics]
    | nil => simp [hreg, MapMem.setMetric, MapMem.storeMetrics]
    | ref id => simp [hreg, MapMem.setMetric, MapMem.storeMetrics]
    | multi c => simp [hreg, MapMem.setMetric, MapMem.storeMetrics]

theorem StandardRegistry.GetOrRegister_log (call : Nat → List Nat → Metric)
    (r : StandardRegistry) (log : List Nat) (name : String) (m ret : Metric)
    (r1 : StandardRegistry) (log1 : List Nat)
    (h : r.GetOrRegister call log name m = some (ret, r1, log1)) :
    log1 = logAfter r.metrics log name m := by
  unfold StandardRegistry.GetOrRegister at h
  unfold logAfter
  cases hl : r.metrics.lookup name with
  | some x =>
    rw [hl] at h
    simp only [Option.some.injEq, Prod.mk.injEq] at h
    exact h.2.2.symm
  | none =>
    rw [hl] at h
    cases m with
    | func id numIn numOut =>
      by_cases hc : numIn ≠ 0 ∨ numOut = 0
      · simp [hc] at h
      · simp only [hc, if_false, Option.some.injEq, Prod.mk.injEq] at h
        have h0 : numIn = 0 := by
          by_contra hne
          exact hc (Or.inl hne)
        have h1 : numOut ≠ 0 := fun e => hc (Or.inr e)
        obtain ⟨n, rfl⟩ := Nat.exists_eq_succ_of_ne_zero h1
        subst h0
        exact h.2.2.symm
    | nil => simp only [Option.some.injEq, Prod.mk.injEq] at h; exact h.2.2.symm
    | ref id => simp only [Option.some.injEq, Prod.mk.injEq] at h; exact h.2.2.symm
    | multi c => simp only [Option.some.injEq, Prod.mk.injEq] at h; exact h.2.2.symm

/-- C13: `GetOrAdd(name, m)` acts on the container's mapping exactly as
`GetOrRegister(name, m)` acts on a registry holding that mapping: both panic or both return,
with the same metric, the same resulting mapping (every other map left alone) and the same
invocation log; the factory is invoked, once, only when `name` is absent and `m` is a
zero-argument function. -/
theorem C13_getOrAdd_refines_getOrRegister (call : Nat → List Nat → Metric)
    (mm : StandardMultiMetric) (log : List Nat) (name : String) (m : Metric) (h : MapMem) :
    mm.GetOrAdd call log name m h
      = (StandardRegistry.GetOrRegister call { metrics := h.metrics mm.metrics } log name m).map
          (fun res => (res.1, h.storeMetrics mm.metrics res.2.1.metrics, res.2.2)) ∧
    (∀ ret h1 log1, mm.GetOrAdd call log name m h = some (ret, h1, log1) →
      ∃ r1, StandardRegistry.GetOrRegister call { metrics := h.metrics mm.metrics } log name m
          = some (ret, r1, log1) ∧
        h1.metrics mm.metrics = r1.metrics ∧
        (∀ a, a ≠ mm.metrics → h1.metrics a = h.metrics a) ∧ h1.tags = h.tags ∧
        log1 = logAfter (h.metrics mm.metrics) log name m) := by
  have heq := StandardMultiMetric.GetOrAdd_eq call mm log name m h
  refine ⟨heq, fun ret h1 log1 hres => ?_⟩
  rw [heq] at hres
  cases hr : StandardRegistry.GetOrRegister call { metrics := h.metrics mm.metrics } log name m with
  | none => rw [hr] at hres; simp at hres
  | some res =>
    obtain ⟨ret2, r1, log2⟩ := res
    rw [hr] at hres
    simp only [Option.map_some', Option.some.injEq, Prod.mk.injEq] at hres
    obtain ⟨rfl, rfl, rfl⟩ := hres
    refine ⟨r1, rfl, by simp [MapMem.storeMetrics], fun a ha => ?_, rfl,
      StandardRegistry.GetOrRegister_log call _ log name m _ _ _ hr⟩
    simp [MapMem.storeMetrics, Function.update_noteq ha]

/-- C17: `Update` and `Clear` on a sample snapshot and `GetOrAdd` on a multi metric
snapshot panic for every argument and every state; the panic is their first statement, so
nothing is written. -/
theorem C17_snapshot_mutators_panic (s : SampleSnapshot) (v : Int) (m : Mem)
    (mm : MultiMetricSnapshot) (name : String) (x : Metric) (h : MapMem) :
    s.Update v m = none ∧ s.Clear m = none ∧ mm.GetOrAdd name x h = none :=
  ⟨rfl, rfl, rfl⟩

/-- C18: at a name that is already registered `NewRegisteredMultiMetric` does not register
the multi metric it constructs, against its comment "constructs and registers": in a
registry that holds a counter under `foo`, the call `r.Register("foo", c)` made by
`NewRegisteredMultiMetric("foo", tags, r)` returns the error `DuplicateMetric("foo")`, the
function discards it, the registry is as it was, `r.Get("foo")` is still the counter and not
the multi metric returned. -/
theorem C18_taken_name_error_discarded :
    ((NewRegistry.Register "foo" (Metric.ref 1)).2.Register "foo"
        (Metric.multi (MultiMetric.standard { metrics := 0, tags := 0 }))).1 = some "foo" ∧
    ((NewRegisteredMultiMetric false "foo" 0
        (some (NewRegistry.Register "foo" (Metric.ref 1)).2) NewRegistry MapMem.empty).2.1.map
      (fun r => r.Get "foo")) = some (Metric.ref 1) ∧
    (NewRegisteredMultiMetric false "foo" 0
        (some (NewRegistry.Register "foo" (Metric.ref 1)).2) NewRegistry MapMem.empty).2.1
      = some (NewRegistry.Register "foo" (Metric.ref 1)).2 ∧
    (NewRegisteredMultiMetric false "foo" 0
        (some (NewRegistry.Register "foo" (Metric.ref 1)).2) NewRegistry MapMem.empty).1
      = MultiMetric.standard { metrics := 0, tags := 0 } ∧
    Metric.ref 1 ≠ Metric.multi (MultiMetric.standard { metrics := 0, tags := 0 }) :=
  ⟨by decide, by decide, rfl, by decide, by decide⟩

/-- At a name that is not yet registered in `r`, `NewRegisteredMultiMetric(name, tags, r)`
constructs a new multi metric `c`, registers it under `name` in `r` (so `r.Get(name)`
returns `c`), changes no other entry of `r` and leaves the default registry alone; with a
nil registry argument the same holds of the default registry. -/
theorem NewRegisteredMultiMetric_of_absent (UseNilMetrics : Bool) (name : String) (tags : Nat)
    (r d : StandardRegistry) (h : MapMem) (hname : name ∉ r.metrics) :
    (∃ r1, (NewRegisteredMultiMetric UseNilMetrics name tags (some r) d h).2.1 = some r1 ∧
      (NewRegisteredMultiMetric UseNilMetrics name tags (some r) d h).1
        = (NewMultiMetric UseNilMetrics tags h).1 ∧
      r1.Get name
        = Metric.multi (NewRegisteredMultiMetric UseNilMetrics name tags (some r) d h).1 ∧
      (∀ other, other ≠ name → r1.metrics.lookup other = r.metrics.lookup other) ∧
      (NewRegisteredMultiMetric UseNilMetrics name tags (some r) d h).2.2.1 = d) ∧
    ((NewRegisteredMultiMetric UseNilMetrics name tags none r h).2.1 = none ∧
      (NewRegisteredMultiMetric UseNilMetrics name tags none r h).1
        = (NewMultiMetric UseNilMetrics tags h).1 ∧
      (NewRegisteredMultiMetric UseNilMetrics name tags none r h).2.2.1.Get name
        = Metric.multi (NewRegisteredMultiMetric UseNilMetrics name tags none r h).1 ∧
      (∀ other, other ≠ name →
        (NewRegisteredMultiMetric UseNilMetrics name tags none r h).2.2.1.metrics.lookup other
          = r.metrics.lookup other)) := by
  have hreg : ∀ x, (r.Register name x).2 = { metrics := r.metrics.insert name x } := by
    intro x
    unfold StandardRegistry.Register
    rw [StandardRegistry.register_of_not_mem r name x hname]
  cases UseNilMetrics
  · refine ⟨⟨_, rfl, rfl, ?_, fun other ho => ?_, rfl⟩, rfl, rfl, ?_, fun other ho => ?_⟩
    · simp [NewRegisteredMultiMetric, NewMultiMetric, MapMem.makeMetrics, hreg, StandardRegistry.Get,
        AList.lookup_insert]
    · simp [NewRegisteredMultiMetric, NewMultiMetric, MapMem.makeMetrics, hreg, AList.lookup_insert_ne ho]
    · simp [NewRegisteredMultiMetric, NewMultiMetric, MapMem.makeMetrics, hreg, StandardRegistry.Get,
        AList.lookup_insert]
    · simp [NewRegisteredMultiMetric, NewMultiMetric, MapMem.makeMetrics, hreg, AList.lookup_insert_ne ho]
  · refine ⟨⟨_, rfl, rfl, ?_, fun other ho => ?_, rfl⟩, rfl, rfl, ?_, fun other ho => ?_⟩
    · simp [NewRegisteredMultiMetric, NewMultiMetric, MapMem.makeMetrics, hreg, StandardRegistry.Get,
        AList.lookup_insert]
    · simp [NewRegisteredMultiMetric, NewMultiMetric, MapMem.makeMetrics, hreg, AList.lookup_insert_ne ho]
    · simp [NewRegisteredMultiMetric, NewMultiMetric, MapMem.makeMetrics, hreg, StandardRegistry.Get,
        AList.lookup_insert]
    · simp [NewRegisteredMultiMetric, NewMultiMetric, MapMem.makeMetrics, hreg, AList.lookup_insert_ne ho]

/-- At a name that is already registered, `NewRegisteredMultiMetric` leaves the registry it
registers in (the argument, or the default registry for a nil argument) as it was: the
error of `Register` is discarded. -/
theorem NewRegisteredMultiMetric_of_present (UseNilMetrics : Bool) (name : String) (tags : Nat)
    (r d : StandardRegistry) (h : MapMem) (hname : name ∈ r.metrics) :
    (r.Register name (Metric.multi (NewMultiMetric UseNilMetrics tags h).1)).1 = some name ∧
    (NewRegisteredMultiMetric UseNilMetrics name tags (some r) d h).2.1 = some r ∧
    (NewRegisteredMultiMetric UseNilMetrics name tags none r h).2.2.1 = r := by
  cases UseNilMetrics <;>
    simp [NewRegisteredMultiMetric, NewMultiMetric, MapMem.makeMetrics, StandardRegistry.Register,
      StandardRegistry.register_of_mem r name _ hname]

/-! ## Empty-sample statistics, maximum and minimum -/

theorem UniformSample.statsAllZero_of_nil (sqrt : ℚ → ℚ) (hsqrt : sqrt 0 = 0)
    (s : UniformSample) (m : Mem) (h : m.load s.values = []) : s.statsAllZero sqrt m := by
  refine ⟨?_, ?_, ?_, ?_, ?_, ?_, fun ps => ?_⟩
  · simp [UniformSample.Min, h, SampleMin]
  · simp [UniformSample.Max, h, SampleMax]
  · simp [UniformSample.Sum, h, SampleSum]
  · simp [UniformSample.Mean, h, SampleMean]
  · simp [UniformSample.StdDev, h, SampleStdDev, SampleVariance, hsqrt]
  · simp [UniformSample.Variance, h, SampleVariance]
  · exact SamplePercentiles_nil s.values ps m h

theorem SampleSnapshot.snapshotStatsAllZero_of_nil (sqrt : ℚ → ℚ) (hsqrt : sqrt 0 = 0)
    (s : SampleSnapshot) (m : Mem) (h : m.load s.values = []) :
    s.snapshotStatsAllZero sqrt m := by
  refine ⟨?_, ?_, ?_, ?_, ?_, ?_, fun ps => ?_⟩
  · simp [SampleSnapshot.Min, h, SampleMin]
  · simp [SampleSnapshot.Max, h, SampleMax]
  · simp [SampleSnapshot.Sum, h, SampleSum]
  · simp [SampleSnapshot.Mean, h, SampleMean]
  · simp [SampleSnapshot.StdDev, h, SampleStdDev, SampleVariance, hsqrt]
  · simp [SampleSnapshot.Variance, h, SampleVariance]
  · exact SamplePercentiles_nil s.values ps m h

theorem UniformSample.Snapshot_load (s : UniformSample) (m : Mem) (h : s.values < m.next) :
    (s.Snapshot m).2.load (s.Snapshot m).1.values = m.load s.values :=
  Mem.load_copy_make m s.values h

theorem UniformSample.Clear_eq (s s1 : UniformSample) (m m1 : Mem)
    (h : s.Clear m = some (s1, m1)) :
    s1.count = 0 ∧ s1.reservoirSize = s.reservoirSize ∧ 0 ≤ s.reservoirSize ∧
      s1.values = m.next ∧ m1.next = m.next + 1 ∧ m1.load s1.values = [] := by
  unfold UniformSample.Clear at h
  by_cases hk : s.reservoirSize < 0
  · simp [hk] at h
  · simp only [hk, if_false, Mem.make, Option.some.injEq, Prod.mk.injEq] at h
    obtain ⟨rfl, rfl⟩ := h
    exact ⟨rfl, rfl, by omega, rfl, rfl, by simp [Mem.load]⟩

theorem NewUniformSample_load (k : Int) (m0 m : Mem) (s : UniformSample)
    (hnew : NewUniformSample false k m0 = some (Sample.uniform s, m)) :
    m.load s.values = [] ∧ s.values < m.next ∧ s.count = 0 ∧ s.reservoirSize = k := by
  obtain ⟨hk0, ⟨hc, hk, hl⟩, hp, hn⟩ := NewUniformSample_seen k m0 s m hnew
  refine ⟨?_, by omega, by simpa using hc, hk⟩
  have h1 : ((m.load s.values).length : Int) = 0 := by rw [hl]; simp [hk0]
  exact List.length_eq_zero.mp (by exact_mod_cast h1)

/-- C14: on the empty value sequence — a freshly constructed sample, a cleared one, or a
snapshot of either — `Min`, `Max`, `Sum`, `Mean`, `StdDev` and `Variance` return zero and
`Percentiles(ps)` returns `len ps` zeros (`math.Sqrt(0) = 0` is the one fact used of the
square root). -/
theorem C14_empty_statistics (sqrt : ℚ → ℚ) (hsqrt : sqrt 0 = 0) :
    (∀ (k : Int) (m0 m : Mem) (s : UniformSample),
      NewUniformSample false k m0 = some (Sample.uniform s, m) →
        s.statsAllZero sqrt m ∧
        (s.Snapshot m).1.snapshotStatsAllZero sqrt (s.Snapshot m).2) ∧
    (∀ (s s1 : UniformSample) (m m1 : Mem), s.Clear m = some (s1, m1) →
        s1.statsAllZero sqrt m1 ∧
        (s1.Snapshot m1).1.snapshotStatsAllZero sqrt (s1.Snapshot m1).2) := by
  constructor
  · intro k m0 m s hnew
    obtain ⟨hl, hp, -, -⟩ := NewUniformSample_load k m0 m s hnew
    exact ⟨UniformSample.statsAllZero_of_nil sqrt hsqrt s m hl,
      SampleSnapshot.snapshotStatsAllZero_of_nil sqrt hsqrt _ _
        ((UniformSample.Snapshot_load s m hp).trans hl)⟩
  · intro s s1 m m1 hclear
    obtain ⟨-, -, -, hv, hn, hl⟩ := UniformSample.Clear_eq s s1 m m1 hclear
    exact ⟨UniformSample.statsAllZero_of_nil sqrt hsqrt s1 m1 hl,
      SampleSnapshot.snapshotStatsAllZero_of_nil sqrt hsqrt _ _
        ((UniformSample.Snapshot_load s1 m1 (by omega)).trans hl)⟩

/-- C14 with the identity for the square root, at a fresh sample of capacity 2. -/
theorem C14_empty_statistics_witness :
    UniformSample.statsAllZero id ⟨0, 2, 0⟩ (Mem.empty.make 0).2 ∧
    SampleSnapshot.snapshotStatsAllZero id
      (UniformSample.Snapshot ⟨0, 2, 0⟩ (Mem.empty.make 0).2).1
      (UniformSample.Snapshot ⟨0, 2, 0⟩ (Mem.empty.make 0).2).2 :=
  (C14_empty_statistics id rfl).1 2 Mem.empty (Mem.empty.make 0).2 ⟨0, 2, 0⟩ (by rfl)

theorem foldl_max_spec (l : List Int) : ∀ seed : Int,
    (l.foldl (fun max v => if max < v then v else max) seed = seed ∨
      l.foldl (fun max v => if max < v then v else max) seed ∈ l) ∧
    seed ≤ l.foldl (fun max v => if max < v then v else max) seed ∧
    ∀ x ∈ l, x ≤ l.foldl (fun max v => if max < v then v else max) seed := by
  induction l with
  | nil => intro seed; simp
  | cons a l ih =>
    intro seed
    rw [List.foldl_cons]
    obtain ⟨h1, h2, h3⟩ := ih (if seed < a then a else seed)
    refine ⟨?_, ?_, ?_⟩
    · rcases h1 with h | h
      · rw [h]
        by_cases hsa : seed < a
        · simp [hsa]
        · simp [hsa]
      · exact Or.inr (List.mem_cons_of_mem a h)
    · refine le_trans ?_ h2
      split <;> omega
    · intro x hx
      rcases List.mem_cons.mp hx with rfl | hx
      · refine le_trans ?_ h2
        split <;> omega
      · exact h3 x hx

theorem foldl_min_spec (l : List Int) : ∀ seed : Int,
    (l.foldl (fun min v => if min > v then v else min) seed = seed ∨
      l.foldl (fun min v => if min > v then v else min) seed ∈ l) ∧
    l.foldl (fun min v => if min > v then v else min) seed ≤ seed ∧
    ∀ x ∈ l, l.foldl (fun min v => if min > v then v else min) seed ≤ x := by
  induction l with
  | nil => intro seed; simp
  | cons a l ih =>
    intro seed
    rw [List.foldl_cons]
    obtain ⟨h1, h2, h3⟩ := ih (if seed > a then a else seed)
    refine ⟨?_, ?_, ?_⟩
    · rcases h1 with h | h
      · rw [h]
        by_cases hsa : seed > a
        · simp [hsa]
        · simp [hsa]
      · exact Or.inr (List.mem_cons_of_mem a h)
    · refine le_trans h2 ?_
      split <;> omega
    · intro x hx
      rcases List.mem_cons.mp hx with rfl | hx
      · refine le_trans h2 ?_
        split <;> omega
      · exact h3 x hx

theorem SampleMax_spec (values : List Int) (hne : values ≠ [])
    (hrange : ∀ x ∈ values, MinInt64 ≤ x) :
    SampleMax values ∈ values ∧ ∀ x ∈ values, x ≤ SampleMax values := by
  have hlen : ¬ 0 = values.length := fun h => hne (List.length_eq_zero.mp h.symm)
  unfold SampleMax
  rw [if_neg hlen]
  obtain ⟨h1, -, h3⟩ := foldl_max_spec values MinInt64
  refine ⟨?_, h3⟩
  rcases h1 with h | h
  · obtain ⟨a, ha⟩ := List.exists_mem_of_ne_nil values hne
    have e : a = MinInt64 := le_antisymm (by rw [← h]; exact h3 a ha) (hrange a ha)
    rw [h, ← e]
    exact ha
  · exact h

theorem SampleMin_spec (values : List Int) (hne : values ≠ [])
    (hrange : ∀ x ∈ values, x ≤ MaxInt64) :
    SampleMin values ∈ values ∧ ∀ x ∈ values, SampleMin values ≤ x := by
  have hlen : ¬ 0 = values.length := fun h => hne (List.length_eq_zero.mp h.symm)
  unfold SampleMin
  rw [if_neg hlen]
  obtain ⟨h1, -, h3⟩ := foldl_min_spec values MaxInt64
  refine ⟨?_, h3⟩
  rcases h1 with h | h
  · obtain ⟨a, ha⟩ := List.exists_mem_of_ne_nil values hne
    have e : a = MaxInt64 := le_antisymm (hrange a ha) (by rw [← h]; exact h3 a ha)
    rw [h, ← e]
    exact ha
  · exact h

/-- C15: on a non-empty list of `int64` values `SampleMax` is an element of the list that is
`≥` every element and `SampleMin` an element that is `≤` every element; so on only negative
values `SampleMax` is negative and on only positive values `SampleMin` is positive. -/
theorem C15_max_min_attained (values : List Int) (hne : values ≠ [])
    (hrange : ∀ x ∈ values, MinInt64 ≤ x ∧ x ≤ MaxInt64) :
    (SampleMax values ∈ values ∧ ∀ x ∈ values, x ≤ SampleMax values) ∧
    (SampleMin values ∈ values ∧ ∀ x ∈ values, SampleMin values ≤ x) ∧
    ((∀ x ∈ values, x < 0) → SampleMax values < 0) ∧
    ((∀ x ∈ values, 0 < x) → 0 < SampleMin values) := by
  have hmax := SampleMax_spec values hne (fun x hx => (hrange x hx).1)
  have hmin := SampleMin_spec values hne (fun x hx => (hrange x hx).2)
  exact ⟨hmax, hmin, fun h => h _ hmax.1, fun h => h _ hmin.1⟩

/-- C15 at the values `-3, -1, -2`: the maximum is `-1`, not 0. -/
theorem C15_max_min_attained_witness :
    SampleMax [-3, -1, -2] ∈ ([-3, -1, -2] : List Int) ∧ SampleMax [-3, -1, -2] < 0 :=
  ⟨(C15_max_min_attained [-3, -1, -2] (by decide) (by decide)).1.1,
    (C15_max_min_attained [-3, -1, -2] (by decide) (by decide)).2.2.1 (by decide)⟩

/-! ## Clear and the provenance of the stored values -/

theorem UniformSample.Update_congr (s t : UniformSample) (m n : Mem) (v : Int) (src : Nat)
    (h : UniformSample.observe (s, m) = UniformSample.observe (t, n)) :
    (s.Update v src m).map UniformSample.observe = (t.Update v src n).map UniformSample.observe := by
  simp only [UniformSample.observe, Prod.mk.injEq] at h
  obtain ⟨hc, hk, hl⟩ := h
  simp only [UniformSample.Update, hc, hk, hl]
  by_cases h1 : ((n.load t.values).length : Int) < t.reservoirSize
  · simp [h1, UniformSample.observe]
  · simp only [h1, if_false]
    cases Int63n (wrap64 (t.count + 1)) src with
    | none => rfl
    | some r =>
      by_cases h2 : (r : Int) < ((n.load t.values).length : Int)
      · simp [h2, UniformSample.observe]
      · simp [h2, UniformSample.observe, hl]

theorem UniformSample.UpdateAll_congr (stream : List (Int × Nat)) :
    ∀ (s t : UniformSample) (m n : Mem),
      UniformSample.observe (s, m) = UniformSample.observe (t, n) →
      (s.UpdateAll m stream).map UniformSample.observe
        = (t.UpdateAll n stream).map UniformSample.observe := by
  induction stream with
  | nil => intro s t m n h; simpa [UniformSample.UpdateAll] using h
  | cons x stream ih =>
    intro s t m n h
    obtain ⟨v, src⟩ := x
    have hstep := UniformSample.Update_congr s t m n v src h
    simp only [UniformSample.UpdateAll]
    cases hs : s.Update v src m with
    | none =>
      cases ht : t.Update v src n with
      | none => rfl
      | some q => rw [hs, ht] at hstep; simp at hstep
    | some p =>
      cases ht : t.Update v src n with
      | none => rw [hs, ht] at hstep; simp at hstep
      | some q =>
        rw [hs, ht] at hstep
        simp only [Option.map_some', Option.some.injEq] at hstep
        exact ih p.1 q.1 p.2 q.2 hstep

/-- C16: `Clear()` sets the count to 0 and the stored values to the empty sequence and keeps
the reservoir capacity; from then on, under any sequence of updates with the same draws, the
sample shows the same count, capacity and values (and panics in the same cases) as a sample
freshly built by `NewUniformSample` with that capacity. -/
theorem C16_clear_is_fresh (s s1 : UniformSample) (m m1 : Mem)
    (hclear : s.Clear m = some (s1, m1)) :
    s1.Count = 0 ∧ s1.valuesSeq m1 = [] ∧ s1.Size m1 = 0 ∧
    s1.reservoirSize = s.reservoirSize ∧
    (∀ (m0 m2 : Mem) (s0 : UniformSample),
      NewUniformSample false s.reservoirSize m0 = some (Sample.uniform s0, m2) →
      UniformSample.observe (s1, m1) = UniformSample.observe (s0, m2) ∧
      ∀ stream : List (Int × Nat),
        (s1.UpdateAll m1 stream).map UniformSample.observe
          = (s0.UpdateAll m2 stream).map UniformSample.observe) := by
  obtain ⟨hc, hk, -, hv, hn, hl⟩ := UniformSample.Clear_eq s s1 m m1 hclear
  refine ⟨hc, ?_, by simp [UniformSample.Size, hl], hk, fun m0 m2 s0 hnew => ?_⟩
  · rw [UniformSample.valuesSeq_eq s1 m1 (by omega), hl]
  · obtain ⟨hl0, -, hc0, hk0⟩ := NewUniformSample_load _ m0 m2 s0 hnew
    have hobs : UniformSample.observe (s1, m1) = UniformSample.observe (s0, m2) := by
      simp [UniformSample.observe, hc, hk, hl, hl0, hc0, hk0]
    exact ⟨hobs, fun stream => UniformSample.UpdateAll_congr stream s1 s0 m1 m2 hobs⟩

/-- C16 at a sample of capacity 1 holding `[5]`, cleared and then given `6, 7`. -/
theorem C16_clear_is_fresh_witness :
    (UniformSample.UpdateAll ⟨0, 1, 1⟩ ((Mem.empty.make 0).2.store 0 [5] |>.make 0).2
        [(6, 0), (7, 0)]).map UniformSample.observe
      = (UniformSample.UpdateAll ⟨0, 1, 0⟩ (Mem.empty.make 0).2
        [(6, 0), (7, 0)]).map UniformSample.observe :=
  (C16_clear_is_fresh ⟨1, 1, 0⟩ ⟨0, 1, 1⟩ ((Mem.empty.make 0).2.store 0 [5])
    ((Mem.empty.make 0).2.store 0 [5] |>.make 0).2 (by rfl)).2.2.2.2
    Mem.empty (Mem.empty.make 0).2 ⟨0, 1, 0⟩ (by rfl) |>.2 [(6, 0), (7, 0)]

theorem UniformSample.Update_cases_load (s s1 : UniformSample) (m m1 : Mem) (v : Int)
    (src : Nat) (h : s.Update v src m = some (s1, m1)) :
    s1.values = s.values ∧ m1.next = m.next ∧
    (m1.load s1.values = m.load s.values ++ [v] ∨
      (∃ r, r < (m.load s.values).length ∧ m1.load s1.values = (m.load s.values).set r v) ∨
      m1.load s1.values = m.load s.values) := by
  simp only [UniformSample.Update] at h
  split at h
  · simp only [Option.some.injEq, Prod.mk.injEq] at h
    obtain ⟨rfl, rfl⟩ := h
    exact ⟨rfl, rfl, Or.inl (by simp)⟩
  · split at h
    · exact absurd h (by simp)
    · rename_i r _
      split at h
      · rename_i hr
        simp only [Option.some.injEq, Prod.mk.injEq] at h
        obtain ⟨rfl, rfl⟩ := h
        exact ⟨rfl, rfl, Or.inr (Or.inl ⟨r, by exact_mod_cast hr, by simp⟩)⟩
      · simp only [Option.some.injEq, Prod.mk.injEq] at h
        obtain ⟨rfl, rfl⟩ := h
        exact ⟨rfl, rfl, Or.inr (Or.inr rfl)⟩

theorem set_perm_cons_eraseIdx (l : List Int) (v : Int) : ∀ r : Nat, r < l.length →
    (l.set r v).Perm (v :: l.eraseIdx r) := by
  induction l with
  | nil => intro r hr; simp at hr
  | cons a l ih =>
    intro r hr
    cases r with
    | zero => simp
    | succ r =>
      simp only [List.set_cons_succ, List.eraseIdx_cons_succ]
      exact ((ih r (by simpa using hr)).cons a).trans (List.Perm.swap v a _)

theorem UniformSample.UpdateAll_subperm (stream : List (Int × Nat)) :
    ∀ (s s1 : UniformSample) (m m1 : Mem) (seen : List Int),
      s.UpdateAll m stream = some (s1, m1) → (m.load s.values).Subperm seen →
      s1.values = s.values ∧ m1.next = m.next ∧
      (m1.load s1.values).Subperm (seen ++ stream.map Prod.fst) := by
  induction stream with
  | nil =>
    intro s s1 m m1 seen h hsub
    simp only [UniformSample.UpdateAll, Option.some.injEq, Prod.mk.injEq] at h
    obtain ⟨rfl, rfl⟩ := h
    exact ⟨rfl, rfl, by simpa using hsub⟩
  | cons x stream ih =>
    intro s s1 m m1 seen h hsub
    obtain ⟨v, src⟩ := x
    simp only [UniformSample.UpdateAll] at h
    cases hu : s.Update v src m with
    | none => rw [hu] at h; exact absurd h (by simp)
    | some p =>
      obtain ⟨s2, m2⟩ := p
      rw [hu] at h
      obtain ⟨hv, hn, hcases⟩ := UniformSample.Update_cases_load s s2 m m2 v src hu
      have hsub2 : (m2.load s2.values).Subperm (seen ++ [v]) := by
        rcases hcases with hc | ⟨r, hr, hc⟩ | hc
        · rw [hc]; exact (List.subperm_append_right [v]).mpr hsub
        · rw [hc]
          refine (set_perm_cons_eraseIdx _ v r hr).subperm.trans ?_
          refine List.Subperm.trans ?_ (List.perm_append_singleton v seen).symm.subperm
          exact (List.subperm_cons v).mpr ((List.eraseIdx_sublist _ r).subperm.trans hsub)
        · rw [hc]
          exact hsub.trans (List.sublist_append_left seen [v]).subperm
      obtain ⟨hv2, hn2, hres⟩ := ih s2 s1 m2 m1 (seen ++ [v]) h hsub2
      refine ⟨hv2.trans hv, hn2.trans hn, ?_⟩
      simpa using hres

/-- C20: after any run of updates on a fresh sample, whatever the draws, the values
returned by `Values()` are a sub-multiset of the values passed to `Update` (each slot holds
the value of a distinct observation), so bounds on the observations bound the stored values;
and a run within the range of the `int64` counter does complete. -/
theorem C20_values_from_stream (k : Int) (m0 m : Mem) (s : UniformSample)
    (stream : List (Int × Nat))
    (hnew : NewUniformSample false k m0 = some (Sample.uniform s, m)) :
    (∀ (s1 : UniformSample) (m1 : Mem), s.UpdateAll m stream = some (s1, m1) →
      (s1.valuesSeq m1).Subperm (stream.map Prod.fst) ∧
      ∀ lo hi : Int, (∀ v ∈ stream.map Prod.fst, lo ≤ v ∧ v ≤ hi) →
        ∀ x ∈ s1.valuesSeq m1, lo ≤ x ∧ x ≤ hi) ∧
    ((stream.length : Int) < 2 ^ 63 → ∃ s1 m1, s.UpdateAll m stream = some (s1, m1)) := by
  obtain ⟨hl, hp, -, -⟩ := NewUniformSample_load k m0 m s hnew
  constructor
  · intro s1 m1 hrun
    obtain ⟨hv, hn, hsub⟩ := UniformSample.UpdateAll_subperm stream s s1 m m1 [] hrun
      (hl.symm ▸ List.Subperm.refl _)
    rw [UniformSample.valuesSeq_eq s1 m1 (by rw [hv, hn]; exact hp)]
    rw [List.nil_append] at hsub
    exact ⟨hsub, fun lo hi hb x hx => hb x (hsub.subset hx)⟩
  · intro hn
    obtain ⟨-, h0, -, -⟩ := NewUniformSample_seen k m0 s m hnew
    obtain ⟨s1, m1, hr, -⟩ := UniformSample.UpdateAll_seen k stream 0 s m (by simpa using hn) h0
    exact ⟨s1, m1, hr⟩

/-- C20 at capacity 1 and the stream `5, 6, 7` with draws `0, 0, 0`. -/
theorem C20_values_from_stream_witness :
    ∃ s1 m1, UniformSample.UpdateAll ⟨0, 1, 0⟩ (Mem.empty.make 0).2 [(5, 0), (6, 0), (7, 0)]
      = some (s1, m1) :=
  (C20_values_from_stream 1 Mem.empty (Mem.empty.make 0).2 ⟨0, 1, 0⟩ [(5, 0), (6, 0), (7, 0)]
    (by rfl)).2 (by norm_num)

/-! ## Filling the reservoir -/

theorem UniformSample.UpdateAll_fill (k : Nat) (stream : List (Int × Nat)) :
    ∀ (n : Nat) (s : UniformSample) (m : Mem), UniformSample.Seen k n s m →
      n + stream.length ≤ k → (k : Int) < 2 ^ 63 →
      ∃ s1 m1, s.UpdateAll m stream = some (s1, m1) ∧
        UniformSample.Seen k (n + stream.length) s1 m1 ∧
        m1.load s1.values = m.load s.values ++ stream.map Prod.fst := by
  induction stream with
  | nil => intro n s m h _ _; exact ⟨s, m, rfl, h, by simp⟩
  | cons x stream ih =>
    intro n s m h hlen hk
    obtain ⟨v, src⟩ := x
    simp only [List.length_cons] at hlen
    obtain ⟨s1, m1, hu, hs1, hv1⟩ :=
      UniformSample.Update_fill k n s m v src (by omega) h (by omega)
    obtain ⟨s2, m2, hr, hs2, hv2⟩ := ih (n + 1) s1 m1 hs1 (by omega) hk
    refine ⟨s2, m2, ?_, ?_, ?_⟩
    · simp only [UniformSample.UpdateAll, hu]; exact hr
    · have e : n + (stream.length + 1) = n + 1 + stream.length := by omega
      simpa only [List.length_cons, e] using hs2
    · rw [hv2, hv1]; simp

/-- C19: for a stream of `n ≤ k` values given to a fresh sample of capacity `k`, whatever
the entropy, the run completes and `Values()` returns the stream in order of arrival, so the
sum of the stored values is the sum of the stream. -/
theorem C19_fill_keeps_stream (k : Int) (m0 m : Mem) (s : UniformSample)
    (stream : List (Int × Nat))
    (hnew : NewUniformSample false k m0 = some (Sample.uniform s, m))
    (hlen : (stream.length : Int) ≤ k) (hk : k ≤ MaxInt64) :
    ∃ s1 m1, s.UpdateAll m stream = some (s1, m1) ∧
      s1.valuesSeq m1 = stream.map Prod.fst ∧
      s1.Sum m1 = SampleSum (stream.map Prod.fst) ∧
      SampleSum (s1.valuesSeq m1) = SampleSum (stream.map Prod.fst) := by
  obtain ⟨hk0, h0, -, -⟩ := NewUniformSample_seen k m0 s m hnew
  obtain ⟨hl, hp, -, -⟩ := NewUniformSample_load k m0 m s hnew
  have hkn : ((k.toNat : Nat) : Int) = k := Int.toNat_of_nonneg hk0
  rw [← hkn] at h0
  obtain ⟨s1, m1, hr, -, hv⟩ := UniformSample.UpdateAll_fill k.toNat stream 0 s m h0
    (by omega) (by unfold MaxInt64 at hk; omega)
  obtain ⟨hv1, hn1, -⟩ := UniformSample.UpdateAll_subperm stream s s1 m m1 [] hr
    (hl.symm ▸ List.Subperm.refl _)
  have hseq : s1.valuesSeq m1 = stream.map Prod.fst := by
    rw [UniformSample.valuesSeq_eq s1 m1 (by rw [hv1, hn1]; exact hp), hv, hl, List.nil_append]
  refine ⟨s1, m1, hr, hseq, ?_, by rw [hseq]⟩
  rw [UniformSample.Sum, hv, hl, List.nil_append]

/-- C19 at capacity 3 and the stream `5, 6` with entropy `9, 4`. -/
theorem C19_fill_keeps_stream_witness :
    ∃ s1 m1, UniformSample.UpdateAll ⟨0, 3, 0⟩ (Mem.empty.make 0).2 [(5, 9), (6, 4)]
        = some (s1, m1) ∧
      s1.valuesSeq m1 = ([(5, 9), (6, 4)] : List (Int × Nat)).map Prod.fst ∧
      s1.Sum m1 = SampleSum (([(5, 9), (6, 4)] : List (Int × Nat)).map Prod.fst) ∧
      SampleSum (s1.valuesSeq m1)
        = SampleSum (([(5, 9), (6, 4)] : List (Int × Nat)).map Prod.fst) :=
  C19_fill_keeps_stream 3 Mem.empty (Mem.empty.make 0).2 ⟨0, 3, 0⟩ [(5, 9), (6, 4)] (by rfl)
    (by decide) (by decide)

/-! ## Snapshot of a multi metric -/

theorem MapMem.storeMetrics_storeMetrics (h : MapMem) (a : Nat) (x y : MetricMap) :
    (h.storeMetrics a x).storeMetrics a y = h.storeMetrics a y := by
  simp [MapMem.storeMetrics]

theorem foldl_snapshotEntry (implements : Metric → MetricKind → Bool)
    (snap : MetricKind → Metric → Metric) (a : Nat)
    (l : List (Sigma (fun _ : String => Metric))) :
    ∀ h : MapMem, l.foldl (StandardMultiMetric.snapshotEntry implements snap a) h
      = h.storeMetrics a (snapshotMap implements snap (h.metrics a) l) := by
  induction l with
  | nil => intro h; simp [snapshotMap, MapMem.storeMetrics_self]
  | cons e l ih =>
    intro h
    rw [List.foldl_cons, ih]
    unfold snapshotMap
    rw [List.foldl_cons]
    cases hk : switchCase implements e.2 with
    | none => simp [StandardMultiMetric.snapshotEntry, hk]
    | some kind =>
      simp [StandardMultiMetric.snapshotEntry, hk, MapMem.setMetric, MapMem.storeMetrics]

theorem lookup_snapshotMap (implements : Metric → MetricKind → Bool)
    (snap : MetricKind → Metric → Metric) (name : String)
    (l : List (Sigma (fun _ : String => Metric))) :
    ∀ acc : MetricMap, l.NodupKeys →
      (snapshotMap implements snap acc l).lookup name =
        match l.dlookup name with
        | some v =>
          (match switchCase implements v with
            | some kind => some (snap kind v)
            | none => acc.lookup name)
        | none => acc.lookup name := by
  induction l with
  | nil => intro acc _; rfl
  | cons e l ih =>
    intro acc hnd
    rw [List.nodupKeys_cons] at hnd
    obtain ⟨k, v⟩ := e
    unfold snapshotMap
    rw [List.foldl_cons]
    have hih := fun acc1 => ih acc1 hnd.2
    unfold snapshotMap at hih
    rw [hih]
    by_cases hname : name = k
    · subst hname
      rw [List.dlookup_cons_eq, List.dlookup_eq_none.mpr hnd.1]
      cases hk : switchCase implements v with
      | none => simp [hk]
      | some kind => simp [hk, AList.lookup_insert]
    · rw [List.dlookup_cons_ne l ⟨k, v⟩ hname]
      cases hk : switchCase implements v with
      | none => simp [hk]
      | some kind => simp [hk, AList.lookup_insert_ne hname]

theorem length_snapshotMap (implements : Metric → MetricKind → Bool)
    (snap : MetricKind → Metric → Metric) (l : List (Sigma (fun _ : String => Metric))) :
    ∀ acc : MetricMap, l.NodupKeys → (∀ e ∈ l, e.1 ∉ acc) →
      (snapshotMap implements snap acc l).entries.length
        = acc.entries.length + l.countP (fun e => (switchCase implements e.2).isSome) := by
  induction l with
  | nil => intro acc _ _; rfl
  | cons e l ih =>
    intro acc hnd hacc
    rw [List.nodupKeys_cons] at hnd
    have he : e.1 ∉ acc := hacc e (List.mem_cons_self e l)
    unfold snapshotMap
    rw [List.foldl_cons]
    have hih := fun acc1 => ih acc1 hnd.2
    unfold snapshotMap at hih
    cases hk : switchCase implements e.2 with
    | none =>
      rw [hih acc (fun e1 h1 => hacc e1 (List.mem_cons_of_mem e h1))]
      simp [List.countP_cons, hk]
    | some kind =>
      simp only []
      rw [hih (acc.insert e.1 (snap kind e.2)) (fun e1 h1 hmem => by
        rcases (AList.mem_insert acc).mp hmem with h | h
        · exact hnd.1 (h ▸ List.mem_keys_of_mem h1)
        · exact hacc e1 (List.mem_cons_of_mem e h1) h)]
      rw [AList.insert_entries_of_neg he]
      simp [List.countP_cons, hk]
      omega

theorem foldl_setTag_metrics (t : Nat) (l : List (Sigma (fun _ : String => String))) :
    ∀ h : MapMem, (l.foldl (fun h e => h.setTag t e.1 e.2) h).metrics = h.metrics ∧
      (l.foldl (fun h e => h.setTag t e.1 e.2) h).next = h.next := by
  induction l with
  | nil => intro h; exact ⟨rfl, rfl⟩
  | cons e l ih =>
    intro h
    rw [List.foldl_cons]
    obtain ⟨h1, h2⟩ := ih (h.setTag t e.1 e.2)
    exact ⟨h1, h2⟩

theorem StandardMultiMetric.GetOrAdd_frame (call : Nat → List Nat → Metric)
    (mm : StandardMultiMetric) (log log1 : List Nat) (name : String) (m ret : Metric)
    (h h1 : MapMem) (hres : mm.GetOrAdd call log name m h = some (ret, h1, log1)) :
    ∀ a, a ≠ mm.metrics → h1.metrics a = h.metrics a := by
  intro a ha
  rw [StandardMultiMetric.GetOrAdd_eq] at hres
  cases hr : StandardRegistry.GetOrRegister call { metrics := h.metrics mm.metrics } log name m with
  | none => rw [hr] at hres; simp at hres
  | some res =>
    rw [hr] at hres
    simp only [Option.map_some', Option.some.injEq, Prod.mk.injEq] at hres
    obtain ⟨-, rfl, -⟩ := hres
    simp [MapMem.storeMetrics, Function.update_noteq ha]

theorem StandardMultiMetric.GetOrAddAll_frame (call : Nat → List Nat → Metric)
    (mm : StandardMultiMetric) (args : List (String × Metric)) :
    ∀ (log log1 : List Nat) (h h1 : MapMem),
      StandardMultiMetric.GetOrAddAll call mm log args h = some (h1, log1) →
      ∀ a, a ≠ mm.metrics → h1.metrics a = h.metrics a := by
  induction args with
  | nil =>
    intro log log1 h h1 hres a _
    simp only [StandardMultiMetric.GetOrAddAll, Option.some.injEq, Prod.mk.injEq] at hres
    rw [hres.1]
  | cons x args ih =>
    intro log log1 h h1 hres a ha
    obtain ⟨name, m⟩ := x
    simp only [StandardMultiMetric.GetOrAddAll] at hres
    cases hg : mm.GetOrAdd call log name m h with
    | none => rw [hg] at hres; exact absurd hres (by simp)
    | some r =>
      obtain ⟨ret, h2, log2⟩ := r
      rw [hg] at hres
      rw [ih log2 log1 h2 h1 hres a ha,
        StandardMultiMetric.GetOrAdd_frame call mm log log2 name m ret h h2 hg a ha]

/-- What `Snapshot` returns and leaves in memory: a snapshot of a new standard multi metric
whose `metrics` map, at the fresh address `h.next`, is the map built by the first loop; the
maps that existed before are untouched. -/
theorem StandardMultiMetric.Snapshot_eq (implements : Metric → MetricKind → Bool)
    (snap : MetricKind → Metric → Metric) (seed1 seed2 : Nat) (mm : StandardMultiMetric)
    (h : MapMem) (hmm : mm.metrics < h.next) :
    (mm.Snapshot implements snap seed1 seed2 h).1
        = MultiMetric.snapshot (MultiMetric.standard { metrics := h.next, tags := h.next + 1 }) ∧
    (mm.Snapshot implements snap seed1 seed2 h).2.metrics h.next
        = snapshotMap implements snap ∅ (rangeOrder seed1 (h.metrics mm.metrics).entries) ∧
    (∀ a, a ≠ h.next → (mm.Snapshot implements snap seed1 seed2 h).2.metrics a = h.metrics a) := by
  have hne : mm.metrics ≠ h.next := by omega
  have hlive : (h.makeMetrics.2).metrics mm.metrics = h.metrics mm.metrics := by
    simp [MapMem.makeMetrics, Function.update_noteq hne]
  unfold StandardMultiMetric.Snapshot
  simp only [hlive, foldl_snapshotEntry]
  refine ⟨?_, ?_, fun a ha => ?_⟩
  · simp [MapMem.makeMetrics, MapMem.makeTags, MapMem.storeMetrics]
  · rw [(foldl_setTag_metrics _ _ _).1]
    simp [MapMem.makeMetrics, MapMem.makeTags, MapMem.storeMetrics]
  · rw [(foldl_setTag_metrics _ _ _).1]
    simp [MapMem.makeMetrics, MapMem.makeTags, MapMem.storeMetrics, Function.update_noteq ha]

/-- C12: `Snapshot().Metrics()` of a standard multi metric holds exactly the names whose
sub-metric is a `Counter`, `Gauge`, `GaugeFloat64` or `Histogram`, each with that sub-metric's
own `Snapshot()` (`snap`) taken at that moment, and nothing for a sub-metric of another kind;
it has as many entries as the live map has sub-metrics of a known kind, so as many as the live
map when all are; it is a new map, which later `GetOrAdd` calls on the live container do not
change. -/
theorem C12_snapshot_dispatch (implements : Metric → MetricKind → Bool)
    (snap : MetricKind → Metric → Metric) (seed1 seed2 : Nat) (mm : StandardMultiMetric)
    (h : MapMem) (hmm : mm.metrics < h.next) :
    ∃ (c : MultiMetric) (a : Nat) (h1 : MapMem),
      mm.Snapshot implements snap seed1 seed2 h = (c, h1) ∧ c.Metrics h1 = (a, h1) ∧
      a ≠ mm.metrics ∧ h1.metrics mm.metrics = h.metrics mm.metrics ∧
      (∀ name, (h1.metrics a).lookup name
        = ((h.metrics mm.metrics).lookup name).bind
            (fun v => (switchCase implements v).map (fun kind => snap kind v))) ∧
      (h1.metrics a).entries.length
        = (h.metrics mm.metrics).entries.countP (fun e => (switchCase implements e.2).isSome) ∧
      ((∀ e ∈ (h.metrics mm.metrics).entries, (switchCase implements e.2).isSome) →
        (h1.metrics a).entries.length = (h.metrics mm.metrics).entries.length) ∧
      (∀ (call : Nat → List Nat → Metric) (log log2 : List Nat)
        (args : List (String × Metric)) (h2 : MapMem),
        StandardMultiMetric.GetOrAddAll call mm log args h1 = some (h2, log2) →
          h2.metrics a = h1.metrics a) := by
  obtain ⟨hc, hmap, hframe⟩ :=
    StandardMultiMetric.Snapshot_eq implements snap seed1 seed2 mm h hmm
  have hne : h.next ≠ mm.metrics := by omega
  have hperm := rangeOrder_perm seed1 (h.metrics mm.metrics).entries
  have hnd : (rangeOrder seed1 (h.metrics mm.metrics).entries).NodupKeys :=
    (List.perm_nodupKeys hperm).mpr (h.metrics mm.metrics).nodupKeys
  have hlen : ((mm.Snapshot implements snap seed1 seed2 h).2.metrics h.next).entries.length
      = (h.metrics mm.metrics).entries.countP (fun e => (switchCase implements e.2).isSome) := by
    rw [hmap, length_snapshotMap implements snap _ ∅ hnd (fun e _ => AList.not_mem_empty e.1),
      hperm.countP_eq]
    simp
  refine ⟨(mm.Snapshot implements snap seed1 seed2 h).1, h.next,
    (mm.Snapshot implements snap seed1 seed2 h).2, rfl, ?_, hne,
    hframe _ hne.symm, fun name => ?_, hlen, fun hall => ?_, ?_⟩
  · rw [hc]; rfl
  · rw [hmap, lookup_snapshotMap implements snap name _ ∅ hnd,
      List.perm_dlookup name hnd (h.metrics mm.metrics).nodupKeys hperm]
    show _ = (List.dlookup name (h.metrics mm.metrics).entries).bind _
    cases List.dlookup name (h.metrics mm.metrics).entries with
    | none => rfl
    | some v =>
      cases hk : switchCase implements v with
      | none => simp [hk]
      | some kind => simp [hk]
  · rw [hlen, List.countP_eq_length]
    intro e he
    exact hall e he
  · intro call log log2 args h2 hrun
    exact StandardMultiMetric.GetOrAddAll_frame call mm args log log2 _ h2 hrun h.next hne

/-- C12 at a container holding a counter `c` and a metric `x` of no known kind: the snapshot
holds `c` alone, with the counter's snapshot. -/
theorem C12_snapshot_dispatch_witness :
    ∃ (c : MultiMetric) (a : Nat) (h1 : MapMem),
      StandardMultiMetric.Snapshot
        (fun v kind => decide (v = Metric.ref 1 ∧ kind = MetricKind.counter))
        (fun _ _ => Metric.ref 101) 0 0 ⟨0, 1⟩
        ((MapMem.empty.makeMetrics.2.makeTags.2.setMetric 0 "c" (Metric.ref 1)).setMetric 0 "x"
          (Metric.ref 2)) = (c, h1) ∧
      (h1.metrics a).lookup "c" = some (Metric.ref 101) ∧
      (h1.metrics a).lookup "x" = none ∧ (h1.metrics a).entries.length = 1 := by
  obtain ⟨c, a, h1, hs, -, -, -, hlook, hlen, -, -⟩ := C12_snapshot_dispatch
    (fun v kind => decide (v = Metric.ref 1 ∧ kind = MetricKind.counter))
    (fun _ _ => Metric.ref 101) 0 0 ⟨0, 1⟩
    ((MapMem.empty.makeMetrics.2.makeTags.2.setMetric 0 "c" (Metric.ref 1)).setMetric 0 "x"
      (Metric.ref 2)) (by decide)
  refine ⟨c, a, h1, hs, ?_, ?_, ?_⟩
  · rw [hlook "c"]; decide
  · rw [hlook "x"]; decide
  · rw [hlen]; decide

/-! ## Sum and mean in 64-bit arithmetic -/

theorem wrap64_add_wrap64 (a b : Int) : wrap64 (wrap64 a + b) = wrap64 (a + b) := by
  unfold wrap64
  omega

theorem wrap64_range (x : Int) : MinInt64 ≤ wrap64 x ∧ wrap64 x ≤ MaxInt64 := by
  unfold wrap64 MinInt64 MaxInt64
  omega

theorem wrap64_modEq (x : Int) : (wrap64 x - x) % 2 ^ 64 = 0 := by
  unfold wrap64
  omega

theorem foldl_wrap64_sum (l : List Int) : ∀ acc : Int,
    l.foldl (fun sum v => wrap64 (sum + v)) (wrap64 acc) = wrap64 (acc + l.sum) := by
  induction l with
  | nil => intro acc; simp
  | cons a l ih =>
    intro acc
    rw [List.foldl_cons, wrap64_add_wrap64, ih, List.sum_cons, Int.add_assoc]

theorem SampleSum_eq (values : List Int) : SampleSum values = wrap64 values.sum := by
  have h := foldl_wrap64_sum values 0
  have h0 : wrap64 0 = 0 := by decide
  rw [h0, Int.zero_add] at h
  exact h

/-- C25: `SampleSum` is the mathematical sum of the values reduced modulo `2^64` into the
signed 64-bit range (it wraps, it never fails), and `SampleMean` divides that wrapped sum by
the number of values; on `[MaxInt64, 1]` the sum is `MinInt64` and the mean is negative
although both values are positive. -/
theorem C25_sum_wraps (values : List Int) :
    SampleSum values = wrap64 values.sum ∧
    (MinInt64 ≤ SampleSum values ∧ SampleSum values ≤ MaxInt64) ∧
    (SampleSum values - values.sum) % 2 ^ 64 = 0 ∧
    (values ≠ [] → SampleMean values = (wrap64 values.sum : ℚ) / (values.length : ℚ)) ∧
    SampleSum [MaxInt64, 1] = MinInt64 ∧
    SampleMean [MaxInt64, 1] < 0 ∧ (0 < MaxInt64 ∧ (0 : Int) < 1) := by
  refine ⟨SampleSum_eq values, ?_, ?_, fun hne => ?_, by decide, ?_, by decide⟩
  · rw [SampleSum_eq]; exact wrap64_range _
  · rw [SampleSum_eq]; exact wrap64_modEq _
  · have hlen : ¬ 0 = values.length := fun h => hne (List.length_eq_zero.mp h.symm)
    rw [SampleMean, if_neg hlen, SampleSum_eq]
  · have h : SampleSum [MaxInt64, 1] = MinInt64 := by decide
    have hm : SampleMean [MaxInt64, 1] = ((MinInt64 : Int) : ℚ) / 2 := by
      rw [SampleMean, h]
      norm_num
    rw [hm]
    norm_num [MinInt64]

/-! ## Permutation invariance and the in-place sort -/

theorem sortInt64_eq_of_perm (l1 l2 : List Int) (h : l1.Perm l2) :
    sortInt64 l1 = sortInt64 l2 :=
  List.eq_of_perm_of_sorted
    (((sortInt64_perm l1).trans h).trans (sortInt64_perm l2).symm)
    (sortInt64_sorted l1) (sortInt64_sorted l2)

/-- C23: `SamplePercentiles` depends only on the multiset of the values: on two slices that
are permutations of each other it returns the same percentiles, for every `ps`. -/
theorem C23_percentiles_permutation_invariant (a b : Nat) (ps : List ℚ) (m n : Mem)
    (hperm : (m.load a).Perm (n.load b)) :
    (SamplePercentiles a ps m).map Prod.fst = (SamplePercentiles b ps n).map Prod.fst := by
  by_cases hnil : m.load a = []
  · have hnil2 : n.load b = [] := by
      rw [hnil] at hperm
      exact List.Perm.eq_nil hperm.symm
    rw [SamplePercentiles_nil a ps m hnil, SamplePercentiles_nil b ps n hnil2]
    rfl
  · have hne2 : n.load b ≠ [] := by
      intro h2
      rw [h2] at hperm
      exact hnil (List.Perm.eq_nil hperm)
    rw [SamplePercentiles_eq a ps m hnil, SamplePercentiles_eq b ps n hne2,
      sortInt64_eq_of_perm _ _ hperm]
    rfl

/-- C23 at the slices `[3, 1, 2]` and `[2, 3, 1]`. -/
theorem C23_percentiles_permutation_invariant_witness :
    (SamplePercentiles 0 [1 / 2, 9 / 10] (Mem.empty.store 0 [3, 1, 2])).map Prod.fst
      = (SamplePercentiles 1 [1 / 2, 9 / 10] (Mem.empty.store 1 [2, 3, 1])).map Prod.fst :=
  C23_percentiles_permutation_invariant 0 1 [1 / 2, 9 / 10] (Mem.empty.store 0 [3, 1, 2])
    (Mem.empty.store 1 [2, 3, 1]) (by decide)

theorem SampleMin_perm (l1 l2 : List Int) (h : l1.Perm l2) : SampleMin l1 = SampleMin l2 := by
  unfold SampleMin
  rw [h.length_eq]
  by_cases hlen : 0 = l2.length
  · rw [if_pos hlen, if_pos hlen]
  · rw [if_neg hlen, if_neg hlen]
    obtain ⟨a1, a2, a3⟩ := foldl_min_spec l1 MaxInt64
    obtain ⟨b1, b2, b3⟩ := foldl_min_spec l2 MaxInt64
    apply le_antisymm
    · rcases b1 with hb | hb
      · rw [hb]; exact a2
      · exact a3 _ (h.mem_iff.mpr hb)
    · rcases a1 with ha | ha
      · rw [ha]; exact b2
      · exact b3 _ (h.mem_iff.mp ha)

theorem SampleMax_perm (l1 l2 : List Int) (h : l1.Perm l2) : SampleMax l1 = SampleMax l2 := by
  unfold SampleMax
  rw [h.length_eq]
  by_cases hlen : 0 = l2.length
  · rw [if_pos hlen, if_pos hlen]
  · rw [if_neg hlen, if_neg hlen]
    obtain ⟨a1, a2, a3⟩ := foldl_max_spec l1 MinInt64
    obtain ⟨b1, b2, b3⟩ := foldl_max_spec l2 MinInt64
    apply le_antisymm
    · rcases a1 with ha | ha
      · rw [ha]; exact b2
      · exact b3 _ (h.mem_iff.mp ha)
    · rcases b1 with hb | hb
      · rw [hb]; exact a2
      · exact a3 _ (h.mem_iff.mpr hb)

theorem SampleSum_perm (l1 l2 : List Int) (h : l1.Perm l2) : SampleSum l1 = SampleSum l2 := by
  rw [SampleSum_eq, SampleSum_eq, h.sum_eq]

/-- C24: after `Percentiles(ps)` or `Percentile(p)` on a live sample with a non-empty value
sequence, the stored values are the ascending sort of the values stored before (the same
multiset); the sample record (count, capacity) is not written, so `Size`, `Min`, `Max` and
`Sum` return what they returned before, and `len(values) = min(count, reservoirSize)` is
preserved. -/
theorem C24_percentiles_sort_stored_values (s : UniformSample) (ps : List ℚ) (p : ℚ) (m : Mem)
    (hne : m.load s.values ≠ []) :
    (∃ scores m1, s.Percentiles ps m = some (scores, m1) ∧
      m1.load s.values = sortInt64 (m.load s.values) ∧
      (m1.load s.values).Sorted (fun a b => a ≤ b) ∧ (m1.load s.values).Perm (m.load s.values) ∧
      m1.next = m.next ∧
      s.Size m1 = s.Size m ∧ s.Min m1 = s.Min m ∧ s.Max m1 = s.Max m ∧ s.Sum m1 = s.Sum m ∧
      (((m.load s.values).length : Int) = min s.count s.reservoirSize →
        ((m1.load s.values).length : Int) = min s.count s.reservoirSize)) ∧
    (∃ score m1, s.Percentile p m = some (score, m1) ∧
      m1.load s.values = sortInt64 (m.load s.values) ∧
      (m1.load s.values).Sorted (fun a b => a ≤ b) ∧ (m1.load s.values).Perm (m.load s.values) ∧
      m1.next = m.next ∧
      s.Size m1 = s.Size m ∧ s.Min m1 = s.Min m ∧ s.Max m1 = s.Max m ∧ s.Sum m1 = s.Sum m ∧
      (((m.load s.values).length : Int) = min s.count s.reservoirSize →
        ((m1.load s.values).length : Int) = min s.count s.reservoirSize)) := by
  have hp := sortInt64_perm (m.load s.values)
  have hstats : ∀ m1 : Mem, m1.load s.values = sortInt64 (m.load s.values) →
      (m1.load s.values).Sorted (fun a b => a ≤ b) ∧ (m1.load s.values).Perm (m.load s.values) ∧
      s.Size m1 = s.Size m ∧ s.Min m1 = s.Min m ∧ s.Max m1 = s.Max m ∧ s.Sum m1 = s.Sum m ∧
      (((m.load s.values).length : Int) = min s.count s.reservoirSize →
        ((m1.load s.values).length : Int) = min s.count s.reservoirSize) := by
    intro m1 h1
    refine ⟨by rw [h1]; exact sortInt64_sorted _, by rw [h1]; exact hp, ?_, ?_, ?_, ?_, ?_⟩
    · simp only [UniformSample.Size, h1, hp.length_eq]
    · simp only [UniformSample.Min, h1, SampleMin_perm _ _ hp]
    · simp only [UniformSample.Max, h1, SampleMax_perm _ _ hp]
    · simp only [UniformSample.Sum, h1, SampleSum_perm _ _ hp]
    · intro hinv
      rw [h1, hp.length_eq]
      exact hinv
  constructor
  · obtain ⟨scores, m1, h1, h2, h3, -, -⟩ := SamplePercentiles_effect s.values ps m hne
    obtain ⟨a1, a2, a3, a4, a5, a6, a7⟩ := hstats m1 h2
    exact ⟨scores, m1, h1, h2, a1, a2, h3, a3, a4, a5, a6, a7⟩
  · obtain ⟨score, m1, h1, h2, h3, -, -⟩ := SamplePercentile_effect s.values p m hne
    obtain ⟨a1, a2, a3, a4, a5, a6, a7⟩ := hstats m1 h2
    exact ⟨score, m1, h1, h2, a1, a2, h3, a3, a4, a5, a6, a7⟩

/-- C24 at a sample holding `[2, 1]` and the percentile `1 / 2`. -/
theorem C24_percentiles_sort_stored_values_witness :
    ∃ scores m1, UniformSample.Percentiles ⟨2, 2, 0⟩ [1 / 2]
        ((Mem.empty.make 0).2.store 0 [2, 1]) = some (scores, m1) ∧ m1.load 0 = [1, 2] := by
  obtain ⟨scores, m1, h1, h2, -⟩ := (C24_percentiles_sort_stored_values ⟨2, 2, 0⟩ [1 / 2] (1 / 2)
    ((Mem.empty.make 0).2.store 0 [2, 1]) (by decide)).1
  exact ⟨scores, m1, h1, h2.trans (by decide)⟩

/-! ## Monotonicity, safety and bounds of the percentiles -/

theorem getD_mono_of_sorted (s : List Int) (hs : s.Sorted (fun a b => a ≤ b)) (a b : Nat)
    (hab : a ≤ b) (hb : b < s.length) : s.getD a 0 ≤ s.getD b 0 := by
  have ha : a < s.length := by omega
  rw [List.getD_eq_getElem _ _ ha, List.getD_eq_getElem _ _ hb]
  have h := hs.rel_get_of_le (show (⟨a, ha⟩ : Fin s.length) ≤ ⟨b, hb⟩ from hab)
  simpa using h

theorem getD_mem (s : List Int) (a : Nat) (ha : a < s.length) : s.getD a 0 ∈ s := by
  rw [List.getD_eq_getElem _ _ ha]
  exact List.getElem_mem ha

/-- In the interpolation branch the floor of the position is a valid upper index, and the
value lies between the two values it interpolates. -/
theorem interpolation_bounds (s : List Int) (hs : s.Sorted (fun a b => a ≤ b)) (pos : ℚ)
    (h1 : 1 ≤ pos) (h2 : pos < (s.length : ℚ)) :
    (1 ≤ ⌊pos⌋ ∧ ⌊pos⌋ ≤ (s.length : Int) - 1 ∧ truncToInt pos = ⌊pos⌋) ∧
    ((s.getD (⌊pos⌋ - 1).toNat 0 : Int) : ℚ)
      ≤ ((s.getD (⌊pos⌋ - 1).toNat 0 : Int) : ℚ) + (pos - (⌊pos⌋ : ℚ))
        * (((s.getD (⌊pos⌋).toNat 0 : Int) : ℚ) - ((s.getD (⌊pos⌋ - 1).toNat 0 : Int) : ℚ)) ∧
    ((s.getD (⌊pos⌋ - 1).toNat 0 : Int) : ℚ) + (pos - (⌊pos⌋ : ℚ))
        * (((s.getD (⌊pos⌋).toNat 0 : Int) : ℚ) - ((s.getD (⌊pos⌋ - 1).toNat 0 : Int) : ℚ))
      ≤ ((s.getD (⌊pos⌋).toNat 0 : Int) : ℚ) := by
  have hf1 : 1 ≤ ⌊pos⌋ := Int.le_floor.mpr (by exact_mod_cast h1)
  have hf2 : ⌊pos⌋ < (s.length : Int) := Int.floor_lt.mpr (by exact_mod_cast h2)
  have ht : truncToInt pos = ⌊pos⌋ := by
    unfold truncToInt
    rw [if_pos (by linarith)]
  have hfrac0 : 0 ≤ pos - (⌊pos⌋ : ℚ) := sub_nonneg.mpr (Int.floor_le pos)
  have hfrac1 : pos - (⌊pos⌋ : ℚ) ≤ 1 := by
    have := Int.lt_floor_add_one pos
    linarith
  have hd : ((s.getD (⌊pos⌋ - 1).toNat 0 : Int) : ℚ) ≤ ((s.getD (⌊pos⌋).toNat 0 : Int) : ℚ) := by
    exact_mod_cast getD_mono_of_sorted s hs _ _ (by omega) (by omega)
  refine ⟨⟨hf1, by omega, ht⟩, ?_, ?_⟩
  · nlinarith
  · nlinarith

/-- Every value of the rule lies between the least and the greatest of the sorted values. -/
theorem percentileRule_bounds (s : List Int) (hs : s.Sorted (fun a b => a ≤ b)) (hne : s ≠ [])
    (p : ℚ) :
    ((s.getD 0 0 : Int) : ℚ) ≤ percentileRule s p ∧
    percentileRule s p ≤ ((s.getD (s.length - 1) 0 : Int) : ℚ) := by
  have hlen : 0 < s.length := List.length_pos.mpr hne
  have hends : ((s.getD 0 0 : Int) : ℚ) ≤ ((s.getD (s.length - 1) 0 : Int) : ℚ) := by
    exact_mod_cast getD_mono_of_sorted s hs 0 (s.length - 1) (by omega) (by omega)
  simp only [percentileRule]
  by_cases h1 : p * ((s.length : ℚ) + 1) < 1
  · rw [if_pos h1]; exact ⟨le_refl _, hends⟩
  · rw [if_neg h1]
    by_cases h2 : (s.length : ℚ) ≤ p * ((s.length : ℚ) + 1)
    · rw [if_pos h2]; exact ⟨hends, le_refl _⟩
    · rw [if_neg h2]
      obtain ⟨⟨hf1, hf2, -⟩, hlo, hhi⟩ :=
        interpolation_bounds s hs _ (not_lt.mp h1) (not_le.mp h2)
      have a1 : ((s.getD 0 0 : Int) : ℚ)
          ≤ ((s.getD (⌊p * ((s.length : ℚ) + 1)⌋ - 1).toNat 0 : Int) : ℚ) :=
        Int.cast_le.mpr (getD_mono_of_sorted s hs 0 _ (by omega) (by omega))
      have a2 : ((s.getD (⌊p * ((s.length : ℚ) + 1)⌋).toNat 0 : Int) : ℚ)
          ≤ ((s.getD (s.length - 1) 0 : Int) : ℚ) :=
        Int.cast_le.mpr (getD_mono_of_sorted s hs _ (s.length - 1) (by omega) (by omega))
      exact ⟨le_trans a1 hlo, le_trans hhi a2⟩

theorem percentileRule_mono (s : List Int) (hs : s.Sorted (fun a b => a ≤ b)) (hne : s ≠ [])
    (p q : ℚ) (hpq : p ≤ q) : percentileRule s p ≤ percentileRule s q := by
  have hlen : 0 < s.length := List.length_pos.mpr hne
  have hlenq : (1 : ℚ) ≤ (s.length : ℚ) := by exact_mod_cast hlen
  have hpos : p * ((s.length : ℚ) + 1) ≤ q * ((s.length : ℚ) + 1) :=
    mul_le_mul_of_nonneg_right hpq (by linarith)
  have hbq := percentileRule_bounds s hs hne q
  have hbp := percentileRule_bounds s hs hne p
  by_cases h1 : p * ((s.length : ℚ) + 1) < 1
  · have e : percentileRule s p = ((s.getD 0 0 : Int) : ℚ) := by
      simp only [percentileRule]; rw [if_pos h1]
    rw [e]; exact hbq.1
  · by_cases h3 : (s.length : ℚ) ≤ q * ((s.length : ℚ) + 1)
    · have h3b : ¬ q * ((s.length : ℚ) + 1) < 1 := by linarith
      have e : percentileRule s q = ((s.getD (s.length - 1) 0 : Int) : ℚ) := by
        simp only [percentileRule]; rw [if_neg h3b, if_pos h3]
      rw [e]; exact hbp.2
    · have h2 : ¬ (s.length : ℚ) ≤ p * ((s.length : ℚ) + 1) := by linarith
      have h4 : ¬ q * ((s.length : ℚ) + 1) < 1 := by linarith
      obtain ⟨⟨pf1, pf2, -⟩, plo, phi⟩ :=
        interpolation_bounds s hs _ (not_lt.mp h1) (not_le.mp h2)
      obtain ⟨⟨qf1, qf2, -⟩, qlo, qhi⟩ :=
        interpolation_bounds s hs _ (not_lt.mp h4) (not_le.mp h3)
      have hfl : ⌊p * ((s.length : ℚ) + 1)⌋ ≤ ⌊q * ((s.length : ℚ) + 1)⌋ := Int.floor_mono hpos
      simp only [percentileRule]
      rw [if_neg h1, if_neg h2, if_neg h4, if_neg h3]
      rcases lt_or_eq_of_le hfl with hlt | heq
      · have hmid : ((s.getD (⌊p * ((s.length : ℚ) + 1)⌋).toNat 0 : Int) : ℚ)
            ≤ ((s.getD (⌊q * ((s.length : ℚ) + 1)⌋ - 1).toNat 0 : Int) : ℚ) :=
          Int.cast_le.mpr (getD_mono_of_sorted s hs _ _ (by omega) (by omega))
        exact le_trans phi (le_trans hmid qlo)
      · rw [← heq]
        have hd : ((s.getD (⌊p * ((s.length : ℚ) + 1)⌋ - 1).toNat 0 : Int) : ℚ)
            ≤ ((s.getD (⌊p * ((s.length : ℚ) + 1)⌋).toNat 0 : Int) : ℚ) :=
          Int.cast_le.mpr (getD_mono_of_sorted s hs _ _ (by omega) (by omega))
        have := mul_le_mul_of_nonneg_right
          (show p * ((s.length : ℚ) + 1) - (⌊p * ((s.length : ℚ) + 1)⌋ : ℚ)
            ≤ q * ((s.length : ℚ) + 1) - (⌊p * ((s.length : ℚ) + 1)⌋ : ℚ) by linarith)
          (sub_nonneg.mpr hd)
        linarith

/-- C21: on a non-empty slice the percentile is monotone in `p`: for all `p ≤ q`,
`SamplePercentile(values, p) ≤ SamplePercentile(values, q)`, both calls returning. -/
theorem C21_percentile_monotone (values : Nat) (p q : ℚ) (m : Mem)
    (hne : m.load values ≠ []) (hpq : p ≤ q) :
    ∃ x y m1 m2, SamplePercentile values p m = some (x, m1) ∧
      SamplePercentile values q m = some (y, m2) ∧ x ≤ y := by
  refine ⟨_, _, _, _, SamplePercentile_eq values p m hne, SamplePercentile_eq values q m hne,
    percentileRule_mono _ (sortInt64_sorted _) (sortInt64_ne_nil _ hne) p q hpq⟩

/-- C21 at the values `3, 1, 2` and the percentiles `1/4 ≤ 3/5`. -/
theorem C21_percentile_monotone_witness :
    ∃ x y m1 m2, SamplePercentile 0 (1 / 4) (Mem.empty.store 0 [3, 1, 2]) = some (x, m1) ∧
      SamplePercentile 0 (3 / 5) (Mem.empty.store 0 [3, 1, 2]) = some (y, m2) ∧ x ≤ y :=
  C21_percentile_monotone 0 (1 / 4) (3 / 5) (Mem.empty.store 0 [3, 1, 2]) (by decide)
    (by norm_num)

theorem SampleMin_le (values : List Int) (hne : values ≠ []) :
    ∀ x ∈ values, SampleMin values ≤ x := by
  have hlen : ¬ 0 = values.length := fun h => hne (List.length_eq_zero.mp h.symm)
  unfold SampleMin
  rw [if_neg hlen]
  exact (foldl_min_spec values MaxInt64).2.2

theorem le_SampleMax (values : List Int) (hne : values ≠ []) :
    ∀ x ∈ values, x ≤ SampleMax values := by
  have hlen : ¬ 0 = values.length := fun h => hne (List.length_eq_zero.mp h.symm)
  unfold SampleMax
  rw [if_neg hlen]
  exact (foldl_max_spec values MinInt64).2.2

/-- With the arithmetic read exactly (`float64(values[i])` the integer itself), on a
non-empty slice `SamplePercentiles` returns `len ps` scores, the interpolation branch has
`1 ≤ ⌊pos⌋ ≤ size - 1` (and `int(pos) = ⌊pos⌋`), and each score lies between
`SampleMin(values)` and `SampleMax(values)`. -/
theorem SamplePercentiles_safe_and_bounded (values : Nat) (ps : List ℚ) (m : Mem)
    (hne : m.load values ≠ []) :
    ∃ scores m1, SamplePercentiles values ps m = some (scores, m1) ∧
      scores.length = ps.length ∧
      (∀ p ∈ ps, ¬ p * (((m.load values).length : ℚ) + 1) < 1 →
        ¬ ((m.load values).length : ℚ) ≤ p * (((m.load values).length : ℚ) + 1) →
        1 ≤ ⌊p * (((m.load values).length : ℚ) + 1)⌋ ∧
        ⌊p * (((m.load values).length : ℚ) + 1)⌋ ≤ ((m.load values).length : Int) - 1 ∧
        truncToInt (p * (((m.load values).length : ℚ) + 1))
          = ⌊p * (((m.load values).length : ℚ) + 1)⌋) ∧
      (∀ x ∈ scores, ((SampleMin (m.load values) : Int) : ℚ) ≤ x ∧
        x ≤ ((SampleMax (m.load values) : Int) : ℚ)) := by
  have hsorted := sortInt64_sorted (m.load values)
  have hperm := sortInt64_perm (m.load values)
  have hlen := sortInt64_length (m.load values)
  have hsne := sortInt64_ne_nil (m.load values) hne
  have hpos : 0 < (sortInt64 (m.load values)).length := List.length_pos.mpr hsne
  refine ⟨_, _, SamplePercentiles_eq values ps m hne, by simp, fun p _ h1 h2 => ?_,
    fun x hx => ?_⟩
  · rw [← hlen] at h1 h2 ⊢
    exact (interpolation_bounds _ hsorted _ (not_lt.mp h1) (not_le.mp h2)).1
  · obtain ⟨p, -, rfl⟩ := List.mem_map.mp hx
    obtain ⟨hlo, hhi⟩ := percentileRule_bounds _ hsorted hsne p
    have hmin : SampleMin (m.load values) ≤ (sortInt64 (m.load values)).getD 0 0 :=
      SampleMin_le _ hne _ (hperm.mem_iff.mp (getD_mem _ 0 hpos))
    have hmax : (sortInt64 (m.load values)).getD ((sortInt64 (m.load values)).length - 1) 0
        ≤ SampleMax (m.load values) :=
      le_SampleMax _ hne _ (hperm.mem_iff.mp (getD_mem _ _ (by omega)))
    constructor
    · exact le_trans (by exact_mod_cast hmin) hlo
    · exact le_trans hhi (by exact_mod_cast hmax)

/-- C22 (as stated) fails once `float64(values[i])` is the rounding conversion of the
language: for the one value `2^53 + 1` and `p = 1/2` (`pos = 1 ≥ size`) the percentile
returned is `float64(2^53 + 1) = 2^53`, below `SampleMin = 2^53 + 1`; for the one value
`MaxInt64` and `p = 1` it is `2^63`, above `SampleMax = MaxInt64`. -/
theorem C22_counterexample :
    ((SamplePercentilesWith toFloat64 0 [1 / 2] (Mem.empty.store 0 [2 ^ 53 + 1])).map Prod.fst
        = some [(2 : ℚ) ^ 53] ∧
      (2 : ℚ) ^ 53 < ((SampleMin ((Mem.empty.store 0 [2 ^ 53 + 1]).load 0) : Int) : ℚ)) ∧
    ((SamplePercentilesWith toFloat64 0 [1] (Mem.empty.store 0 [MaxInt64])).map Prod.fst
        = some [(2 : ℚ) ^ 63] ∧
      ((SampleMax ((Mem.empty.store 0 [MaxInt64]).load 0) : Int) : ℚ) < (2 : ℚ) ^ 63) := by
  have r1 : roundFloat64 9007199254740993 = 9007199254740992 := by decide
  have r2 : roundFloat64 MaxInt64 = 9223372036854775808 := by decide
  have t1 : toFloat64 9007199254740993 = 9007199254740992 := by
    unfold toFloat64
    rw [r1]
    norm_num
  have t2 : toFloat64 MaxInt64 = 9223372036854775808 := by
    unfold toFloat64
    rw [r2]
    norm_num
  have l1 : (Mem.empty.store 0 [2 ^ 53 + 1]).load 0 = [2 ^ 53 + 1] := Mem.load_store_same _ _ _
  have l2 : (Mem.empty.store 0 [MaxInt64]).load 0 = [MaxInt64] := Mem.load_store_same _ _ _
  have s1 : sortInt64 [2 ^ 53 + 1] = [2 ^ 53 + 1] := rfl
  have s2 : sortInt64 [MaxInt64] = [MaxInt64] := rfl
  have m1 : SampleMin [2 ^ 53 + 1] = 2 ^ 53 + 1 := by decide
  have m2 : SampleMax [MaxInt64] = MaxInt64 := by decide
  refine ⟨⟨?_, ?_⟩, ?_, ?_⟩
  · simp only [SamplePercentilesWith, l1, s1, Mem.load_store_same, percentileScoresWith,
      percentileScoreWith]
    norm_num [index]
    exact t1
  · rw [l1, m1]
    norm_num
  · simp only [SamplePercentilesWith, l2, s2, Mem.load_store_same, percentileScoresWith,
      percentileScoreWith]
    norm_num [index]
    exact t2
  · rw [l2, m2]
    norm_num [MaxInt64]

/-- C22 (amended): on a non-empty slice and for all percentiles `ps` (negative or above 1
included), `SamplePercentiles`, with `float64(values[i])` the rounding conversion of the
language, returns `len ps` scores without an out-of-range index: whenever the
interpolation branch is taken, `1 ≤ ⌊pos⌋ ≤ size - 1` (and `int(pos) = ⌊pos⌋`); and when
every value of the slice is at most `2^53` in absolute value, so that the conversion is
exact, each percentile returned lies between `SampleMin(values)` and `SampleMax(values)`
(the arithmetic on `float64` values read exactly). -/
theorem C22_percentiles_safe_and_bounded_if_exact (values : Nat) (ps : List ℚ) (m : Mem)
    (hne : m.load values ≠ []) :
    ∃ scores m1, SamplePercentilesWith toFloat64 values ps m = some (scores, m1) ∧
      scores.length = ps.length ∧
      (∀ p ∈ ps, ¬ p * (((m.load values).length : ℚ) + 1) < 1 →
        ¬ ((m.load values).length : ℚ) ≤ p * (((m.load values).length : ℚ) + 1) →
        1 ≤ ⌊p * (((m.load values).length : ℚ) + 1)⌋ ∧
        ⌊p * (((m.load values).length : ℚ) + 1)⌋ ≤ ((m.load values).length : Int) - 1 ∧
        truncToInt (p * (((m.load values).length : ℚ) + 1))
          = ⌊p * (((m.load values).length : ℚ) + 1)⌋) ∧
      ((∀ v ∈ m.load values, v.natAbs ≤ 2 ^ 53) →
        ∀ x ∈ scores, ((SampleMin (m.load values) : Int) : ℚ) ≤ x ∧
          x ≤ ((SampleMax (m.load values) : Int) : ℚ)) := by
  obtain ⟨scores, hs, hl⟩ := SamplePercentilesWith_isSome toFloat64 values ps m hne
  obtain ⟨scores2, m2, e2, -, hfloor, hbound⟩ := SamplePercentiles_safe_and_bounded values ps m hne
  refine ⟨scores, _, hs, hl, hfloor, fun hexact => ?_⟩
  have he := SamplePercentilesWith_exact toFloat64 values ps m
    (fun v hv => toFloat64_exact v (hexact v hv))
  rw [hs, e2] at he
  have hsc : scores = scores2 := (Prod.mk.inj (Option.some.inj he)).1
  rw [hsc]
  exact hbound

/-- C22 (amended) at the values `3, 1, 2` and the percentiles `-1, 1/2, 2`. -/
theorem C22_percentiles_safe_and_bounded_if_exact_witness :
    ∃ scores m1, SamplePercentilesWith toFloat64 0 [-1, 1 / 2, 2] (Mem.empty.store 0 [3, 1, 2])
        = some (scores, m1) ∧ scores.length = ([-1, 1 / 2, 2] : List ℚ).length ∧
      ∀ x ∈ scores, ((SampleMin ((Mem.empty.store 0 [3, 1, 2]).load 0) : Int) : ℚ) ≤ x ∧
        x ≤ ((SampleMax ((Mem.empty.store 0 [3, 1, 2]).load 0) : Int) : ℚ) := by
  obtain ⟨scores, m1, h1, h2, -, h4⟩ := C22_percentiles_safe_and_bounded_if_exact 0 [-1, 1 / 2, 2]
    (Mem.empty.store 0 [3, 1, 2]) (by decide)
  exact ⟨scores, m1, h1, h2, h4 (by decide)⟩

end Metrics
